import Mathlib

/-!
# outline: merge, anchor sanitising and the outline parser

A shallow embedding of `cmd/package.go` (the functions `merge`, `sanitizeAnchor`,
`isAlphaNumeric` and the accumulation loop of `PackageCmd.Run`) and of the outline
parser of package `lib` that `lib/parser_test.go` exercises.

Go strings are modelled as `List Char` where only their text matters (the document
model) and as lists of bytes where the code works on bytes (`sanitizeAnchor`).
-/

namespace Outline

/-- A Go string seen as its sequence of characters. -/
abbrev Str := List Char

/-! ## The document model (`lib.Doc` and its parts, as used by the tests and `merge`) -/

/-- Modelled from the spec: the type `lib.Example` (§3), whose declaration is missing; the
field names are those used in `lib/parser_test.go`. -/
structure Example where
  Filename : Str
  Name : Str
  Description : Str
  deriving DecidableEq

/-- Modelled from the spec: the type `lib.Param` (§3), whose declaration is missing; the field
`Type` is written `Type_`. -/
structure Param where
  Name : Str
  Type_ : Str
  Description : Str
  deriving DecidableEq

/-- Modelled from the spec: the type `lib.Field` (§3), whose declaration is missing: `Name`
(with its type hint as raw text) and `Description`. -/
structure Field where
  Name : Str
  Description : Str
  deriving DecidableEq

/-- Modelled from the spec: the type `lib.Operator` (§3), whose declaration is missing: the raw
expression `Opr`. -/
structure Operator where
  Opr : Str
  deriving DecidableEq

/-- Modelled from the spec: the type `lib.Function` (§3), whose declaration is missing:
`Signature`, `Description`, `Params`, `Examples`. -/
structure Function where
  Signature : Str
  Description : Str
  Params : List Param
  Examples : List Example
  deriving DecidableEq

/-- Modelled from the spec: the type `lib.Type` (§3), whose declaration is missing: `Name`,
`Description`, `Methods`, `Fields`, `Operators`, `Examples`. -/
structure Type_ where
  Name : Str
  Description : Str
  Methods : List Function
  Fields : List Field
  Operators : List Operator
  Examples : List Example
  deriving DecidableEq

/-- Modelled from the spec: the type `lib.Doc` (§3), whose declaration is missing: `Name`,
`Path`, `Description`, `Functions`, `Types`, the fields `merge` and the tests use. -/
structure Doc where
  Name : Str
  Path : Str
  Description : Str
  Functions : List Function
  Types : List Type_
  deriving DecidableEq

/-! ## `cmd/package.go`: `merge` and the accumulation loop of `PackageCmd.Run` -/

/-- The function `merge(a, b *lib.Doc)`: the value of `*a` after the call.
`a.Description` and `a.Path` are taken from `b` when empty, and `b.Types`, `b.Functions`
are appended to `a.Types`, `a.Functions`. -/
def merge (a b : Doc) : Doc :=
  let a := if a.Description = [] then { a with Description := b.Description } else a
  let a := if a.Path = [] then { a with Path := b.Path } else a
  let a := { a with Types := a.Types ++ b.Types }
  { a with Functions := a.Functions ++ b.Functions }

/-- The map `docs := map[string]*lib.Doc{}`: at most one document per key. -/
abbrev DocMap := Str → Option Doc

/-- The empty map `map[string]*lib.Doc{}`. -/
def emptyDocs : DocMap := fun _ => none

/-- The assignment `docs[k] = d`. -/
def DocMap.set (docs : DocMap) (k : Str) (d : Doc) : DocMap :=
  fun key => if key = k then some d else docs key

/-- One iteration of `for _, doc := range read`: merge into the stored entry when the
name is already a key, store the document under its name otherwise. -/
def accumulateStep (docs : DocMap) (doc : Doc) : DocMap :=
  match docs doc.Name with
  | some found => docs.set doc.Name (merge found doc)
  | none => docs.set doc.Name doc

/-- The accumulation loop of `PackageCmd.Run` over the documents in the order they are read. -/
def accumulate (docs : DocMap) (read : List Doc) : DocMap :=
  read.foldl accumulateStep docs

/-- The documents of `read` named `k`, in order of appearance. -/
def named (k : Str) (read : List Doc) : List Doc :=
  read.filter (fun d => d.Name = k)

/-- The entry of a key after the loop: the stored entry (or the first document of that name)
with every later document of that name merged into it, in order. -/
def entryAfter (stored : Option Doc) (ds : List Doc) : Option Doc :=
  match stored, ds with
  | some found, ds => some (ds.foldl merge found)
  | none, [] => none
  | none, d :: ds => some (ds.foldl merge d)

/-! ## `cmd/package.go`: `sanitizeAnchor` and `isAlphaNumeric`

Bytes and runes are natural numbers. The three functions of package `unicode` that the code
calls are parameters; the UTF-8 decoding and encoding of `unicode/utf8` and
`bytes.Buffer.WriteRune` are written out. -/

/-- The functions of package `unicode` used by `sanitizeAnchor`. -/
structure Unicode where
  IsLetter : Nat → Bool
  IsDigit : Nat → Bool
  ToLower : Nat → Nat

/-- The constant `utf8.RuneError` (U+FFFD). -/
def RuneError : Nat := 0xFFFD

/-- The table `first` of `unicode/utf8`: information about the first byte of an encoding. -/
def first (b : Nat) : Nat :=
  if b < 0x80 then 0xF0
  else if b < 0xC2 then 0xF1
  else if b < 0xE0 then 0x02
  else if b = 0xE0 then 0x13
  else if b < 0xED then 0x03
  else if b = 0xED then 0x23
  else if b < 0xF0 then 0x03
  else if b = 0xF0 then 0x34
  else if b < 0xF4 then 0x04
  else if b = 0xF4 then 0x44
  else 0xF1

/-- The table `acceptRanges` of `unicode/utf8`: accepted range of the second byte. -/
def acceptRanges (i : Nat) : Nat × Nat :=
  match i with
  | 0 => (0x80, 0xBF)
  | 1 => (0xA0, 0xBF)
  | 2 => (0x80, 0x9F)
  | 3 => (0x90, 0xBF)
  | 4 => (0x80, 0x8F)
  | _ => (0, 0)

/-- The function `utf8.DecodeRune(p)`: the first rune of `p` and its width in bytes;
`(RuneError, 0)` on empty input and `(RuneError, 1)` on an invalid encoding. Masks are
remainders (`p0 & 0x1F` is `p0 % 32`) and shifts are products. -/
def DecodeRune (p : List Nat) : Nat × Nat :=
  match p with
  | [] => (RuneError, 0)
  | p0 :: _ =>
    let x := first p0
    if x ≥ 0xF0 then
      if x % 2 = 1 then (RuneError, 1) else (p0, 1)
    else
      let sz := x % 8
      let accept := acceptRanges (x / 16)
      if p.length < sz then (RuneError, 1)
      else
        let b1 := p.getD 1 0
        if b1 < accept.1 ∨ accept.2 < b1 then (RuneError, 1)
        else if sz ≤ 2 then (p0 % 32 * 64 + b1 % 64, 2)
        else
          let b2 := p.getD 2 0
          if b2 < 0x80 ∨ 0xBF < b2 then (RuneError, 1)
          else if sz ≤ 3 then (p0 % 16 * 4096 + b1 % 64 * 64 + b2 % 64, 3)
          else
            let b3 := p.getD 3 0
            if b3 < 0x80 ∨ 0xBF < b3 then (RuneError, 1)
            else (p0 % 8 * 262144 + b1 % 64 * 4096 + b2 % 64 * 64 + b3 % 64, 4)

/-- The bytes `buf.WriteRune(r)` appends: the UTF-8 encoding of `r`, with surrogates and
values above `utf8.MaxRune` replaced by `RuneError`. -/
def WriteRune (r : Nat) : List Nat :=
  if r < 0x80 then [r]
  else if r ≤ 0x7FF then [0xC0 + r / 64, 0x80 + r % 64]
  else if r > 0x10FFFF ∨ (0xD800 ≤ r ∧ r ≤ 0xDFFF) then
    [0xE0 + RuneError / 4096, 0x80 + RuneError / 64 % 64, 0x80 + RuneError % 64]
  else if r ≤ 0xFFFF then [0xE0 + r / 4096, 0x80 + r / 64 % 64, 0x80 + r % 64]
  else [0xF0 + r / 262144, 0x80 + r / 4096 % 64, 0x80 + r / 64 % 64, 0x80 + r % 64]

/-- The function `isAlphaNumeric(r)`. -/
def isAlphaNumeric (U : Unicode) (r : Nat) : Bool :=
  r = 0x5F || U.IsLetter r || U.IsDigit r

/-- The loop `for len(b) > 0` of `sanitizeAnchor`, with the buffer as accumulator. Every
iteration removes `size ≥ 1` bytes, so `fuel = len(b)` iterations are enough. -/
def sanitizeLoop (U : Unicode) : Nat → List Nat → List Nat → List Nat
  | 0, _, buf => buf
  | fuel + 1, b, buf =>
    if b.length > 0 then
      let (r, size) := DecodeRune b
      let buf :=
        if r = 0x2D ∨ r = 0x20 then buf ++ WriteRune 0x2D
        else if isAlphaNumeric U r then buf ++ WriteRune (U.ToLower r)
        else buf
      sanitizeLoop U fuel (b.drop size) buf
    else buf

/-- The function `sanitizeAnchor(input)`, on the bytes of `input`, returning the bytes of
the result. The buffer obtained from the pool is empty. -/
def sanitizeAnchor (U : Unicode) (input : List Nat) : List Nat :=
  sanitizeLoop U input.length input []

/-- The runes of a byte string in order, as the loop `for len(b) > 0` with
`r, size := utf8.DecodeRune(b)` and `b = b[size:]` reads them: each undecodable byte is one
`RuneError`. -/
def runesLoop : Nat → List Nat → List Nat
  | 0, _ => []
  | fuel + 1, b =>
    if b.length > 0 then (DecodeRune b).1 :: runesLoop fuel (b.drop (DecodeRune b).2)
    else []

/-- The runes of a byte string. -/
def runes (b : List Nat) : List Nat := runesLoop b.length b

/-- What `sanitizeAnchor` writes for one rune: `-` for a space or hyphen, the lowercase
form for a letter, a digit or `_`, nothing otherwise. -/
def sanitizeRune (U : Unicode) (r : Nat) : Option Nat :=
  if r = 0x2D ∨ r = 0x20 then some 0x2D
  else if isAlphaNumeric U r then some (U.ToLower r)
  else none

/-- The rune read back from the bytes `WriteRune r`: `r` itself, or `RuneError` for a
surrogate or a value above `utf8.MaxRune`. -/
def written (r : Nat) : Nat :=
  if r > 0x10FFFF ∨ (0xD800 ≤ r ∧ r ≤ 0xDFFF) then RuneError else r

/-- The functions of package `unicode` on Latin-1 (runes up to U+00FF): the letters are `A-Z`,
`a-z`, U+00AA, U+00B5, U+00BA, U+00C0-U+00D6, U+00D8-U+00F6 and U+00F8-U+00FF, the digits
are `0-9`, and the upper-case letters `A-Z`, U+00C0-U+00D6 and U+00D8-U+00DE have their
lowercase form 0x20 above. Beyond Latin-1 this instance knows no letter and no digit. -/
def latin1Unicode : Unicode where
  IsLetter := fun r =>
    (0x41 ≤ r && r ≤ 0x5A) || (0x61 ≤ r && r ≤ 0x7A) || r = 0xAA || r = 0xB5 || r = 0xBA ||
      (0xC0 ≤ r && r ≤ 0xD6) || (0xD8 ≤ r && r ≤ 0xF6) || (0xF8 ≤ r && r ≤ 0xFF)
  IsDigit := fun r => 0x30 ≤ r && r ≤ 0x39
  ToLower := fun r =>
    if (0x41 ≤ r ∧ r ≤ 0x5A) ∨ (0xC0 ≤ r ∧ r ≤ 0xD6) ∨ (0xD8 ≤ r ∧ r ≤ 0xDE) then r + 0x20
    else r

/-! ## The outline parser of package `lib`

The parser source (`lib/parser.go`) is missing; only its tests (`lib/parser_test.go`) are there.
The definitions below model it from the specification, section by section: the Indent Tracker
(§4.1), the Line Classifier (§4.2), the Block Parser (§4.3), the Entity Builder (§4.4) and
the Document Assembler (§4.5). -/

/-- Modelled from the spec: the error taxonomy of the parser (§7), whose declaration is
missing. `UnexpectedEndOfInput` is resolved leniently and never returned. -/
inductive ParseError where
  | MalformedHeader
  | UnexpectedEndOfInput
  deriving DecidableEq

/-- Modelled from the spec: the closed vocabulary of section keywords (§4.2, glossary). -/
inductive Keyword where
  | functions | types | methods | fields | operators | examples | params
  deriving DecidableEq

/-- Modelled from the spec: the result of the Line Classifier (§4.2). -/
inductive LineClass where
  | HeaderStart (name : Str)
  | PathDirective (path : Str)
  | SectionKeyword (kind : Keyword)
  | PlainText
  deriving DecidableEq

/-- Modelled from the spec: a line as the Indent Tracker and the Line Classifier see it (§4.1,
§4.2): `indent` is the extent of the leading whitespace run (`indentOf`), `text` the
whitespace-trimmed content. A fully blank line has empty `text`. -/
structure Line where
  indent : Nat
  text : Str
  deriving DecidableEq

/-- Modelled from the spec: the whitespace trimming of the Line Classifier (§4.2), at the start
of a text. -/
def trimLeft (s : Str) : Str := s.dropWhile Char.isWhitespace

/-- Modelled from the spec: the whitespace trimming of the Line Classifier (§4.2), at the end of
a text. -/
def trimRight (s : Str) : Str := (s.reverse.dropWhile Char.isWhitespace).reverse

/-- Modelled from the spec: the whitespace-trimmed content of a line (§4.2). -/
def trim (s : Str) : Str := trimRight (trimLeft s)

/-- Modelled from the spec: the input as a finite sequence of text lines (§6), cut at every
line break. -/
def splitLines : Str → List Str
  | [] => [[]]
  | c :: cs =>
    if c = '\n' then [] :: splitLines cs
    else
      match splitLines cs with
      | [] => [[c]]
      | l :: ls => (c :: l) :: ls

/-- Modelled from the spec: the extent of a run of whitespace (§4.1, §9). A tab counts for
`tabWidth` columns and any other whitespace character for one. With `tabWidth = 1` this is
the literal count of characters of §4.1; §9 leaves the treatment of tabs open ("expand tabs
to a fixed column width before measuring"), so the width is a parameter of the parser. The
case `twoFuncsSpaces` of `TestParse` in `lib/parser_test.go`, where a line under three tabs
is nested under a line under four spaces, holds exactly for the widths of at least two. -/
def columns (tabWidth : Nat) : Str → Nat
  | [] => 0
  | c :: cs => (if c = '\t' then tabWidth else 1) + columns tabWidth cs

/-- Modelled from the spec: the measure of the Indent Tracker (§4.1), the extent of the leading
whitespace run of a raw line. -/
def indentOf (tabWidth : Nat) (raw : Str) : Nat :=
  columns tabWidth (raw.takeWhile Char.isWhitespace)

/-- Modelled from the spec: a raw line measured and trimmed (§4.1, §4.2). -/
def toLine (tabWidth : Nat) (raw : Str) : Line := ⟨indentOf tabWidth raw, trim raw⟩

/-- Modelled from the spec: the lines of an input text (§6, §4.1). -/
def scanLines (tabWidth : Nat) (input : Str) : List Line :=
  (splitLines input).map (toLine tabWidth)

/-- Modelled from the spec: matching a line against `outline:` or `path:` (§4.2): the rest of
`s` after the prefix `p`, when `s` starts with `p`. -/
def stripPrefix : Str → Str → Option Str
  | [], s => some s
  | _ :: _, [] => none
  | p :: ps, c :: cs => if p = c then stripPrefix ps cs else none

/-- Modelled from the spec: a line "trimmed of trailing colon" (§4.2): one trailing colon
removed. -/
def stripColon (s : Str) : Str :=
  if s.getLast? = some ':' then s.dropLast else s

/-- Modelled from the spec: exact, case-sensitive match against the closed vocabulary (§4.2). -/
def keywordOf (s : Str) : Option Keyword :=
  if s = "functions".toList then some Keyword.functions
  else if s = "types".toList then some Keyword.types
  else if s = "methods".toList then some Keyword.methods
  else if s = "fields".toList then some Keyword.fields
  else if s = "operators".toList then some Keyword.operators
  else if s = "examples".toList then some Keyword.examples
  else if s = "params".toList then some Keyword.params
  else none

/-- Modelled from the spec: the Line Classifier (§4.2), on the whitespace-trimmed content of a
line: `outline: <name>`, `path: <value>`, a section keyword once trimmed of its trailing colon,
or plain text. -/
def classify (text : Str) : LineClass :=
  match stripPrefix "outline:".toList text with
  | some rest => LineClass.HeaderStart (trim rest)
  | none =>
    match stripPrefix "path:".toList text with
    | some rest => LineClass.PathDirective (trim rest)
    | none =>
      match keywordOf (stripColon text) with
      | some k => LineClass.SectionKeyword k
      | none => LineClass.PlainText

/-- Modelled from the spec: leading and trailing blank lines around a description block are
trimmed (§3). -/
def trimBlank (ls : List Str) : List Str :=
  ((ls.dropWhile (fun l => l = [])).reverse.dropWhile (fun l => l = [])).reverse

/-- Modelled from the spec: a multi-line description (§3): the raw text lines joined with a
single line break per line, an interior blank line kept as an empty line, leading and trailing
blank lines trimmed. -/
def joinDescription (buffer : List Str) : Str :=
  List.intercalate ['\n'] (trimBlank buffer)

/-- Modelled from the spec: the first whitespace-delimited token of a declaration line and the
remainder of the line (§4.4), the empty string when there is no remainder. -/
def splitToken (text : Str) : Str × Str :=
  (text.takeWhile (fun c => !c.isWhitespace),
   trimLeft (text.dropWhile (fun c => !c.isWhitespace)))

/-- Modelled from the spec: the block nested under a line of extent `d` (§4.1, §4.3 rule 2):
the lines that follow, as long as each is blank or has a leading whitespace run longer than
`d`; returns the texts of the block and the lines after it. The stack of open extents of the
Indent Tracker is the chain of the arguments `d` of the active calls: a line whose run is not
longer than `d` closes the block and is left to the caller. -/
def readBlock (d : Nat) : List Line → List Str × List Line
  | [] => ([], [])
  | l :: ls =>
    if l.text = [] ∨ d < l.indent then
      ((readBlock d ls).1.cons l.text, (readBlock d ls).2)
    else ([], l :: ls)

/-- Modelled from the spec: the free-text description block under a declaration of extent `d`
(§3, §4.3 rules 4 and 5): the lines that follow, as long as each is blank or is deeper than
`d` and plain text; the block ends at the first line that is a recognized keyword line or is
not deeper than `d`. Returns the texts of the block and the lines after it. -/
def readDescription (d : Nat) : List Line → List Str × List Line
  | [] => ([], [])
  | l :: ls =>
    if l.text = [] ∨ (d < l.indent ∧ classify l.text = LineClass.PlainText) then
      ((readDescription d ls).1.cons l.text, (readDescription d ls).2)
    else ([], l :: ls)

/-- Modelled from the spec: the contents of a section whose entities carry only a description
(`fields:`, `params:`, `examples:`; §4.3 rule 4, §4.4). Under a section line of extent `d`,
every non-blank deeper line declares an entity; the description block nested under the
declaration is its description, and what else is nested under it is passed over. A line that
is not deeper than `d` ends the section and is left to the caller. `fuel` bounds the number of
lines read. -/
def parseEntries {α : Type} (mk : Str → Str → α) : Nat → Nat → List Line → List α × List Line
  | 0, _, ls => ([], ls)
  | _ + 1, _, [] => ([], [])
  | fuel + 1, d, l :: ls =>
    if l.text = [] then parseEntries mk fuel d ls
    else if l.indent ≤ d then ([], l :: ls)
    else
      let desc := readDescription l.indent ls
      let more := parseEntries mk fuel d (readBlock l.indent desc.2).2
      (mk l.text (joinDescription desc.1) :: more.1, more.2)

/-- Modelled from the spec: the Example parser (§4.4): `filename` is the first
whitespace-delimited token, `name` the remainder of the line, nested text the description. -/
def mkExample (text description : Str) : Example :=
  ⟨(splitToken text).1, (splitToken text).2, description⟩

/-- Modelled from the spec: a Param (§4.4): first token `name`, remainder `type`, nested text
the description. -/
def mkParam (text description : Str) : Param :=
  ⟨(splitToken text).1, (splitToken text).2, description⟩

/-- Modelled from the spec: a Field (§4.4): the full text of the line is `name`, nested text
the description. -/
def mkField (text description : Str) : Field := ⟨text, description⟩

/-- Modelled from the spec: the contents of an `examples:` section (§4.4). -/
def parseExamples : Nat → Nat → List Line → List Example × List Line := parseEntries mkExample

/-- Modelled from the spec: the contents of a `params:` section (§4.4). -/
def parseParams : Nat → Nat → List Line → List Param × List Line := parseEntries mkParam

/-- Modelled from the spec: the contents of a `fields:` section (§4.4). -/
def parseFields : Nat → Nat → List Line → List Field × List Line := parseEntries mkField

/-- Modelled from the spec: the contents of an `operators:` section (§4.4): each non-blank line
of the block, verbatim. -/
def parseOperators (d : Nat) (ls : List Line) : List Operator × List Line :=
  (((readBlock d ls).1.filter (fun t => t ≠ [])).map Operator.mk, (readBlock d ls).2)

/-- Modelled from the spec: the state of the Function parser (§4.4), the sub-lists read so
far. -/
structure FunctionBody where
  params : List Param
  examples : List Example
  deriving DecidableEq

/-- Modelled from the spec: the sections of a function or method declared on a line of extent
`d` (§4.3 rules 2 and 3, §4.4), after its description block: deeper lines are read until a line
that is not deeper; `params:` and `examples:` open their sections; any other line is passed
over without ending the parse (§7). -/
def parseFunctionBody : Nat → Nat → FunctionBody → List Line → FunctionBody × List Line
  | 0, _, acc, ls => (acc, ls)
  | _ + 1, _, acc, [] => (acc, [])
  | fuel + 1, d, acc, l :: ls =>
    if l.text = [] then parseFunctionBody fuel d acc ls
    else if l.indent ≤ d then (acc, l :: ls)
    else
      match classify l.text with
      | LineClass.SectionKeyword Keyword.params =>
        let sub := parseParams fuel l.indent ls
        parseFunctionBody fuel d { acc with params := acc.params ++ sub.1 } sub.2
      | LineClass.SectionKeyword Keyword.examples =>
        let sub := parseExamples fuel l.indent ls
        parseFunctionBody fuel d { acc with examples := acc.examples ++ sub.1 } sub.2
      | _ => parseFunctionBody fuel d acc ls

/-- Modelled from the spec: the contents of a `functions:` or `methods:` section (§4.3 rule 4,
§4.4): every non-blank deeper line is a signature, followed by its description block and its
sections. -/
def parseFunctions : Nat → Nat → List Line → List Function × List Line
  | 0, _, ls => ([], ls)
  | _ + 1, _, [] => ([], [])
  | fuel + 1, d, l :: ls =>
    if l.text = [] then parseFunctions fuel d ls
    else if l.indent ≤ d then ([], l :: ls)
    else
      let desc := readDescription l.indent ls
      let body := parseFunctionBody fuel l.indent ⟨[], []⟩ desc.2
      let more := parseFunctions fuel d body.2
      (⟨l.text, joinDescription desc.1, body.1.params, body.1.examples⟩ :: more.1, more.2)

/-- Modelled from the spec: the state of the Type parser (§4.4), the sub-lists read so far. -/
structure TypeBody where
  methods : List Function
  fields : List Field
  operators : List Operator
  examples : List Example
  deriving DecidableEq

/-- Modelled from the spec: the sections of a type declared on a line of extent `d` (§4.3,
§4.4), after its description block: `fields:`, `methods:`, `operators:` and `examples:` open
their sections in any order; any other line is passed over. -/
def parseTypeBody : Nat → Nat → TypeBody → List Line → TypeBody × List Line
  | 0, _, acc, ls => (acc, ls)
  | _ + 1, _, acc, [] => (acc, [])
  | fuel + 1, d, acc, l :: ls =>
    if l.text = [] then parseTypeBody fuel d acc ls
    else if l.indent ≤ d then (acc, l :: ls)
    else
      match classify l.text with
      | LineClass.SectionKeyword Keyword.fields =>
        let sub := parseFields fuel l.indent ls
        parseTypeBody fuel d { acc with fields := acc.fields ++ sub.1 } sub.2
      | LineClass.SectionKeyword Keyword.methods =>
        let sub := parseFunctions fuel l.indent ls
        parseTypeBody fuel d { acc with methods := acc.methods ++ sub.1 } sub.2
      | LineClass.SectionKeyword Keyword.operators =>
        let sub := parseOperators l.indent ls
        parseTypeBody fuel d { acc with operators := acc.operators ++ sub.1 } sub.2
      | LineClass.SectionKeyword Keyword.examples =>
        let sub := parseExamples fuel l.indent ls
        parseTypeBody fuel d { acc with examples := acc.examples ++ sub.1 } sub.2
      | _ => parseTypeBody fuel d acc ls

/-- Modelled from the spec: the contents of a `types:` section (§4.3 rule 4, §4.4): every
non-blank deeper line is a type name, followed by its description block and its sections. -/
def parseTypes : Nat → Nat → List Line → List Type_ × List Line
  | 0, _, ls => ([], ls)
  | _ + 1, _, [] => ([], [])
  | fuel + 1, d, l :: ls =>
    if l.text = [] then parseTypes fuel d ls
    else if l.indent ≤ d then ([], l :: ls)
    else
      let desc := readDescription l.indent ls
      let body := parseTypeBody fuel l.indent ⟨[], [], [], []⟩ desc.2
      let more := parseTypes fuel d body.2
      (⟨l.text, joinDescription desc.1, body.1.methods, body.1.fields,
          body.1.operators, body.1.examples⟩ :: more.1, more.2)

/-- Modelled from the spec: the state of the Document Assembler (§4.5), the path and the lists
read so far. -/
structure DocBody where
  path : Str
  functions : List Function
  types : List Type_
  deriving DecidableEq

/-- Modelled from the spec: the free text immediately following a document header of extent
`d` (§4.5): the lines that follow, as long as each is blank or is plain text and not shallower
than the header. The spec scans document content "at depths strictly greater" than the
header; the fixtures `huhSpaces`, `typeExamples` and `typeDescriptionMultiLine` of
`lib/parser_test.go` put it at the header's own indentation and the tests expect it read, so
the content of a document is every line that is not shallower than its header. -/
def readDocDescription (d : Nat) : List Line → List Str × List Line
  | [] => ([], [])
  | l :: ls =>
    if l.text = [] ∨ (d ≤ l.indent ∧ classify l.text = LineClass.PlainText) then
      ((readDocDescription d ls).1.cons l.text, (readDocDescription d ls).2)
    else ([], l :: ls)

/-- Modelled from the spec: the content of a document whose header line has extent `d`
(§4.5), after its description block: the content is scanned until a line shallower than the
header (see `readDocDescription`) or the header of the next document; a `path:` line sets the
path, `functions:` and `types:` populate the lists; any other line is passed over. -/
def parseDocBody : Nat → Nat → DocBody → List Line → DocBody × List Line
  | 0, _, acc, ls => (acc, ls)
  | _ + 1, _, acc, [] => (acc, [])
  | fuel + 1, d, acc, l :: ls =>
    if l.text = [] then parseDocBody fuel d acc ls
    else if l.indent < d then (acc, l :: ls)
    else
      match classify l.text with
      | LineClass.HeaderStart _ => (acc, l :: ls)
      | LineClass.PathDirective p => parseDocBody fuel d { acc with path := p } ls
      | LineClass.SectionKeyword Keyword.functions =>
        let sub := parseFunctions fuel l.indent ls
        parseDocBody fuel d { acc with functions := acc.functions ++ sub.1 } sub.2
      | LineClass.SectionKeyword Keyword.types =>
        let sub := parseTypes fuel l.indent ls
        parseDocBody fuel d { acc with types := acc.types ++ sub.1 } sub.2
      | _ => parseDocBody fuel d acc ls

/-- Modelled from the spec: the scan for the first `outline:` header (§4.5): its extent, its
name and the lines after it. -/
def findHeader : List Line → Option (Nat × Str × List Line)
  | [] => none
  | l :: ls =>
    match classify l.text with
    | LineClass.HeaderStart name => some (l.indent, name, ls)
    | _ => findHeader ls

/-- Modelled from the spec: the Document Assembler on the lines of an input (§4.5, §7): the
first document found, with the free text immediately following the header as description;
`MalformedHeader` when no `outline:` line exists or its name is empty. -/
def parseFirstLines (lines : List Line) : Except ParseError Doc :=
  match findHeader lines with
  | none => Except.error ParseError.MalformedHeader
  | some (d, name, rest) =>
    if name = [] then Except.error ParseError.MalformedHeader
    else
      let desc := readDocDescription d rest
      let body := (parseDocBody desc.2.length d ⟨[], [], []⟩ desc.2).1
      Except.ok ⟨name, body.path, joinDescription desc.1, body.functions, body.types⟩

/-- Equality of parse results is decidable. -/
instance : DecidableEq (Except ParseError Doc) := fun a b =>
  match a, b with
  | Except.ok x, Except.ok y =>
    if h : x = y then isTrue (by rw [h]) else isFalse (fun e => h (Except.ok.inj e))
  | Except.error x, Except.error y =>
    if h : x = y then isTrue (by rw [h]) else isFalse (fun e => h (Except.error.inj e))
  | Except.ok _, Except.error _ => isFalse (fun e => by cases e)
  | Except.error _, Except.ok _ => isFalse (fun e => by cases e)

/-- Modelled from the spec: the function `ParseFirst` of `lib/parser.go`, which is missing
(§4.5), on the text of the reader; `tabWidth` is the number of columns a tab counts for. -/
def ParseFirst (tabWidth : Nat) (input : Str) : Except ParseError Doc :=
  parseFirstLines (scanLines tabWidth input)

/-! ### Shapes of inputs used in the statements -/

/-- The lines after a block: none, or a first line that is neither blank nor deeper than `d`. -/
def endsBlock (d : Nat) (rest : List Line) : Prop :=
  ∀ l ∈ rest.head?, l.text ≠ [] ∧ l.indent ≤ d

/-- The lines of a description block under a line of extent `d`: each is blank, or deeper than
`d` and plain text. -/
def descriptionLines (d : Nat) (L : List Line) : Prop :=
  ∀ l ∈ L, l.text = [] ∨ (d < l.indent ∧ classify l.text = LineClass.PlainText)

/-- The lines of the description block of a document whose header has extent `d`: each is
blank, or not shallower than `d` and plain text. -/
def docDescriptionLines (d : Nat) (L : List Line) : Prop :=
  ∀ l ∈ L, l.text = [] ∨ (d ≤ l.indent ∧ classify l.text = LineClass.PlainText)

/-- The lines after a description block under a line of extent `d`: none, or a first line that
is not blank and is either not deeper than `d` or not plain text. -/
def endsDescription (d : Nat) (rest : List Line) : Prop :=
  ∀ l ∈ rest.head?, l.text ≠ [] ∧ (l.indent ≤ d ∨ classify l.text ≠ LineClass.PlainText)

/-- The lines after the description block of a document whose header has extent `d`: none, or
a first line that is not blank and is either shallower than `d` or not plain text. -/
def endsDocDescription (d : Nat) (rest : List Line) : Prop :=
  ∀ l ∈ rest.head?, l.text ≠ [] ∧ (l.indent < d ∨ classify l.text ≠ LineClass.PlainText)

/-- The lines of a group: a declaration line followed by the lines nested under it. -/
def groupLines (G : List (Line × List Line)) : List Line :=
  G.flatMap (fun g => g.1 :: g.2)

/-- A sub-block of declarations under a section line of extent `ws`: every declaration line is
non-blank and deeper than `ws`, the lines that follow it up to the next declaration are blank
or deeper than the declaration, and no declaration is deeper than the one before it. -/
def declarationGroups (ws : Nat) : List (Line × List Line) → Prop
  | [] => True
  | g :: G =>
    (g.1.text ≠ [] ∧ ws < g.1.indent ∧ ∀ b ∈ g.2, b.text = [] ∨ g.1.indent < b.indent) ∧
    (∀ h ∈ G.head?, h.1.indent ≤ g.1.indent) ∧ declarationGroups ws G

/-- The Example record of a declaration group, in the words of the spec: `filename` the first
whitespace-delimited token of the declaration line, `name` the remainder of the line,
`description` drawn from the description block among the lines nested under the declaration. -/
def exampleOf (g : Line × List Line) : Example :=
  { Filename := (splitToken g.1.text).1
    Name := (splitToken g.1.text).2
    Description := joinDescription (readDescription g.1.indent g.2).1 }

/-- A document name as a header line carries it: not empty, on one line, and without
whitespace at either end. -/
def isName (X : Str) : Prop :=
  X ≠ [] ∧ '\n' ∉ X ∧ (∀ c ∈ X.head?, c.isWhitespace = false) ∧
    (∀ c ∈ X.getLast?, c.isWhitespace = false)

/-! ## Fixtures of `lib/parser_test.go` -/

/-- The constant `twoFuncsTabs`. -/
def twoFuncsTabs : Str :=
  "outline: twoFuncs\n\tpath: twoFuncs\n\tfunctions:\n\t\tdifference(a,b int) int\n\t\tsum(a,b int) int\n\t\t\tadd two things together".toList

/-- The constant `twoFuncsSpaces`: the `path:` line is indented by one tab, `functions:` by two
spaces, the two signatures by four spaces and the last line by three tabs. -/
def twoFuncsSpaces : Str :=
  "outline: twoFuncs\n\tpath: twoFuncs\n  functions:\n    difference(a,b int) int\n    sum(a,b int) int\n\t\t\tadd two things together".toList

/-- The variable `twoFuncs`, the document both fixtures are expected to parse to. -/
def twoFuncs : Doc :=
  { Name := "twoFuncs".toList
    Path := "twoFuncs".toList
    Description := []
    Functions :=
      [ { Signature := "difference(a,b int) int".toList, Description := [], Params := [],
          Examples := [] },
        { Signature := "sum(a,b int) int".toList,
          Description := "add two things together".toList, Params := [], Examples := [] } ]
    Types := [] }

/-- The document read from `twoFuncsSpaces` when a tab counts as one column, the literal
character count of §4.1: the last line, under three tabs, is then shallower than the
signatures under four spaces and is read as a third signature. -/
def threeFuncs : Doc :=
  { Name := "twoFuncs".toList
    Path := "twoFuncs".toList
    Description := []
    Functions :=
      [ { Signature := "difference(a,b int) int".toList, Description := [], Params := [],
          Examples := [] },
        { Signature := "sum(a,b int) int".toList, Description := [], Params := [],
          Examples := [] },
        { Signature := "add two things together".toList, Description := [], Params := [],
          Examples := [] } ]
    Types := [] }

/-- The constant `typeExamples`: the `types:` line stands at the indentation of the header. -/
def typeExamples : Str :=
  "outline: examples\ntypes:\n  duration\n    a period of time\n    examples:\n      foo.star Foo Example\n    methods:\n      add(d duration) int\n        params:\n          d duration".toList

/-- The document read from `typeExamples`; `TestTypeExamples` asserts its one type and the
one Example of that type. -/
def typeExamplesDoc : Doc :=
  { Name := "examples".toList
    Path := []
    Description := []
    Functions := []
    Types :=
      [ { Name := "duration".toList
          Description := "a period of time".toList
          Methods :=
            [ { Signature := "add(d duration) int".toList, Description := []
                Params := [⟨"d".toList, "duration".toList, []⟩], Examples := [] } ]
          Fields := []
          Operators := []
          Examples := [⟨"foo.star".toList, "Foo Example".toList, []⟩] } ] }

/-- The constant `typeDescriptionMultiLine`. -/
def typeDescriptionMultiLine : Str :=
  "outline: examples\ntypes:\n  duration\n    line 1.\n    line 2.\n\n    line 3.\n    examples:\n      foo.star Foo Example".toList

/-- The document read from `typeDescriptionMultiLine`; `TestDescriptionMultiLine` asserts its
one type, the description of that type and its one Example. -/
def typeDescriptionMultiLineDoc : Doc :=
  { Name := "examples".toList
    Path := []
    Description := []
    Functions := []
    Types :=
      [ { Name := "duration".toList
          Description := "line 1.\nline 2.\n\nline 3.".toList
          Methods := []
          Fields := []
          Operators := []
          Examples := [⟨"foo.star".toList, "Foo Example".toList, []⟩] } ] }

/-! ## Sample inputs -/

/-- A partial document named `foo` with an empty description and one function. -/
def fooFirst : Doc :=
  { Name := "foo".toList, Path := [], Description := []
    Functions := [⟨"a()".toList, [], [], []⟩], Types := [] }

/-- A partial document named `foo` with description `d` and one function. -/
def fooSecond : Doc :=
  { Name := "foo".toList, Path := [], Description := "d".toList
    Functions := [⟨"b()".toList, [], [], []⟩], Types := [] }

/-- A description block of four lines, the third one blank. -/
def sampleDescription : List Line :=
  [⟨2, "line 1.".toList⟩, ⟨2, "line 2.".toList⟩, ⟨0, []⟩, ⟨2, "line 3.".toList⟩]

/-- The lines after the sample description: a `functions:` section with one function. -/
def sampleSection : List Line :=
  [⟨2, "functions:".toList⟩, ⟨4, "sum(a int, b int) int".toList⟩]

/-- The description block of the type `duration` in the fixture `typeDescriptionMultiLine`. -/
def typeDescriptionLines : List Line :=
  [⟨4, "line 1.".toList⟩, ⟨4, "line 2.".toList⟩, ⟨0, []⟩, ⟨4, "line 3.".toList⟩]

/-- The lines after the description block in the fixture `typeDescriptionMultiLine`. -/
def typeDescriptionRest : List Line :=
  [⟨4, "examples:".toList⟩, ⟨6, "foo.star Foo Example".toList⟩]

/-- The two declaration groups of the `examples:` block of the fixture `funcExamples`. -/
def sampleExamples : List (Line × List Line) :=
  [ (⟨8, "foo.star Foo Example".toList⟩, []),
    (⟨8, "bar.star".toList⟩, [⟨10, "Description of the bar example".toList⟩]) ]

/-- The lines after the `examples:` block of the fixture `funcExamples`. -/
def sampleParams : List Line :=
  [⟨6, "params:".toList⟩, ⟨8, "bar string".toList⟩, ⟨10, "the name of a bar".toList⟩]

/-- The declaration group of the `examples:` block of the fixture `typeExamples`. -/
def typeExampleGroups : List (Line × List Line) :=
  [(⟨6, "foo.star Foo Example".toList⟩, [])]

/-- The lines after the `examples:` block of the fixture `typeExamples`. -/
def typeExamplesRest : List Line :=
  [ ⟨4, "methods:".toList⟩, ⟨6, "add(d duration) int".toList⟩, ⟨8, "params:".toList⟩,
    ⟨10, "d duration".toList⟩ ]

/-- The constant `funcExamples`. -/
def funcExamples : Str :=
  "outline: examples\n  huh is a package that has no meaning or purpose\n  functions:\n    foo(bar string) int\n      foo a bar, which is to to a bar and remove 'd' from 'food'\n      examples:\n        foo.star Foo Example\n        bar.star \n          Description of the bar example\n      params:\n        bar string\n          the name of a bar".toList

/-- The document the model reads from `funcExamples`. -/
def funcExamplesDoc : Doc :=
  { Name := "examples".toList
    Path := []
    Description := "huh is a package that has no meaning or purpose".toList
    Functions :=
      [ { Signature := "foo(bar string) int".toList
          Description := "foo a bar, which is to to a bar and remove 'd' from 'food'".toList
          Params := [⟨"bar".toList, "string".toList, "the name of a bar".toList⟩]
          Examples :=
            [ ⟨"foo.star".toList, "Foo Example".toList, []⟩,
              ⟨"bar.star".toList, [], "Description of the bar example".toList⟩ ] } ]
    Types := [] }

/-- A tab-indented document whose description, on three lines with a blank line between
the second and the third, stands between two blank lines. -/
def multiLineSample : Str :=
  "outline: doc\n\n\tline 1.\n\tline 2.\n\n\tline 3.\n\n\tfunctions:\n\t\tsum(a int, b int) int".toList

/-! ## Renderings of an outline structure -/

/-- A line with its extent mapped through `f`. -/
def reindent (f : Nat → Nat) (l : Line) : Line := ⟨f l.indent, l.text⟩

/-- The indentation of nesting level `k` with `unit` as one level: `k` copies of `unit`. -/
def indentation (unit : Str) : Nat → Str
  | 0 => []
  | k + 1 => unit ++ indentation unit k

/-- An outline structure rendered as text: every item is a nesting level and the content of
the line; `unit` is the indentation of one level. -/
def render (unit : Str) (items : List (Nat × Str)) : Str :=
  List.intercalate ['\n'] (items.map (fun it => indentation unit it.1 ++ it.2))

/-- The content of a rendered line: on one line and not starting with whitespace. -/
def cleanContent (c : Str) : Prop :=
  '\n' ∉ c ∧ ∀ x ∈ c.head?, x.isWhitespace = false

/-- Whether a text is the content of a rendered line is decidable. -/
instance (c : Str) : Decidable (cleanContent c) := by
  unfold cleanContent
  exact inferInstance

/-- The structure of the fixtures `twoFuncsTabs` and `twoFuncsSpaces`: the nesting level and
the content of every line. -/
def twoFuncsItems : List (Nat × Str) :=
  [ (0, "outline: twoFuncs".toList), (1, "path: twoFuncs".toList), (1, "functions:".toList),
    (2, "difference(a,b int) int".toList), (2, "sum(a,b int) int".toList),
    (3, "add two things together".toList) ]

/-! # Theorems -/

theorem merge_Name (a b : Doc) : (merge a b).Name = a.Name := by
  unfold merge
  by_cases h1 : a.Description = [] <;> by_cases h2 : a.Path = [] <;> simp [h1, h2]

theorem merge_Functions (a b : Doc) : (merge a b).Functions = a.Functions ++ b.Functions := by
  unfold merge
  by_cases h1 : a.Description = [] <;> by_cases h2 : a.Path = [] <;> simp [h1, h2]

theorem merge_Types (a b : Doc) : (merge a b).Types = a.Types ++ b.Types := by
  unfold merge
  by_cases h1 : a.Description = [] <;> by_cases h2 : a.Path = [] <;> simp [h1, h2]

theorem merge_Description (a b : Doc) :
    (merge a b).Description = if a.Description = [] then b.Description else a.Description := by
  unfold merge
  by_cases h1 : a.Description = [] <;> by_cases h2 : a.Path = [] <;> simp [h1, h2]

theorem merge_Path (a b : Doc) :
    (merge a b).Path = if a.Path = [] then b.Path else a.Path := by
  unfold merge
  by_cases h1 : a.Description = [] <;> by_cases h2 : a.Path = [] <;> simp [h1, h2]

/-- C1: after `merge(a, b)` the Functions of `a` are its previous Functions followed by
those of `b`, its Types are its previous Types followed by those of `b`, and each resulting
length is the sum of the two input lengths. -/
theorem merge_concatenates (a b : Doc) :
    (merge a b).Functions = a.Functions ++ b.Functions ∧
    (merge a b).Types = a.Types ++ b.Types ∧
    (merge a b).Functions.length = a.Functions.length + b.Functions.length ∧
    (merge a b).Types.length = a.Types.length + b.Types.length := by
  refine ⟨merge_Functions a b, merge_Types a b, ?_, ?_⟩
  · rw [merge_Functions, List.length_append]
  · rw [merge_Types, List.length_append]

/-- C2: `merge(a, b)` keeps a non-empty Description (Path) of `a` and takes that of `b`
otherwise; the merged Description (Path) is empty exactly when both inputs' are. -/
theorem merge_fills_empty (a b : Doc) :
    ((merge a b).Description = if a.Description = [] then b.Description else a.Description) ∧
    ((merge a b).Path = if a.Path = [] then b.Path else a.Path) ∧
    ((merge a b).Description = [] ↔ a.Description = [] ∧ b.Description = []) ∧
    ((merge a b).Path = [] ↔ a.Path = [] ∧ b.Path = []) ∧
    (a.Description ≠ [] → (merge a b).Description = a.Description) ∧
    (a.Path ≠ [] → (merge a b).Path = a.Path) := by
  refine ⟨merge_Description a b, merge_Path a b, ?_, ?_, ?_, ?_⟩
  · rw [merge_Description]; by_cases h : a.Description = [] <;> simp [h]
  · rw [merge_Path]; by_cases h : a.Path = [] <;> simp [h]
  · intro h; rw [merge_Description]; simp [h]
  · intro h; rw [merge_Path]; simp [h]

/-! ### The accumulation loop -/

theorem foldl_merge_Name (d : Doc) (ds : List Doc) : (ds.foldl merge d).Name = d.Name := by
  induction ds generalizing d with
  | nil => rfl
  | cons x xs ih => rw [List.foldl_cons, ih, merge_Name]

theorem foldl_merge_Functions (d : Doc) (ds : List Doc) :
    (ds.foldl merge d).Functions = d.Functions ++ ds.flatMap (fun x => x.Functions) := by
  induction ds generalizing d with
  | nil => simp
  | cons x xs ih => rw [List.foldl_cons, ih, merge_Functions]; simp

theorem foldl_merge_Types (d : Doc) (ds : List Doc) :
    (ds.foldl merge d).Types = d.Types ++ ds.flatMap (fun x => x.Types) := by
  induction ds generalizing d with
  | nil => simp
  | cons x xs ih => rw [List.foldl_cons, ih, merge_Types]; simp

theorem accumulate_apply (docs : DocMap) (read : List Doc) (k : Str) :
    accumulate docs read k = entryAfter (docs k) (named k read) := by
  induction read generalizing docs with
  | nil =>
    cases h : docs k <;> simp [accumulate, named, entryAfter, h]
  | cons d ds ih =>
    have hstep : accumulate docs (d :: ds) = accumulate (accumulateStep docs d) ds := rfl
    rw [hstep, ih]
    by_cases hk : d.Name = k
    · have hn : named k (d :: ds) = d :: named k ds := by simp [named, hk]
      rw [hn]
      cases h : docs k with
      | none =>
        have : accumulateStep docs d k = some d := by
          simp [accumulateStep, hk, h, DocMap.set]
        rw [this]; rfl
      | some found =>
        have : accumulateStep docs d k = some (merge found d) := by
          simp [accumulateStep, hk, h, DocMap.set]
        rw [this]; rfl
    · have hn : named k (d :: ds) = named k ds := by simp [named, hk]
      have : accumulateStep docs d k = docs k := by
        have hk2 : ¬ k = d.Name := fun h => hk h.symm
        unfold accumulateStep
        cases docs d.Name <;> simp [DocMap.set, hk2]
      rw [hn, this]

theorem named_Name {k : Str} {read : List Doc} {d : Doc} (h : d ∈ named k read) : d.Name = k := by
  simpa using (List.mem_filter.1 h).2

/-- C8: starting from the empty map, the accumulation loop leaves an entry under `k` exactly
when some input document is named `k`; that entry is named `k`, and its Functions (Types)
are the Functions (Types) of all input documents named `k`, concatenated in order of
appearance. -/
theorem accumulate_invariant (read : List Doc) (k : Str) :
    ((accumulate emptyDocs read k).isSome ↔ ∃ d ∈ read, d.Name = k) ∧
    ∀ e, accumulate emptyDocs read k = some e →
      e.Name = k ∧
      e.Functions = (named k read).flatMap (fun d => d.Functions) ∧
      e.Types = (named k read).flatMap (fun d => d.Types) := by
  rw [accumulate_apply]
  have hempty : emptyDocs k = none := rfl
  rw [hempty]
  cases hn : named k read with
  | nil =>
    refine ⟨?_, ?_⟩
    · simp only [entryAfter, Option.isSome_none, Bool.false_eq_true, false_iff, not_exists, not_and]
      intro d hd hname
      have : d ∈ named k read := List.mem_filter.2 ⟨hd, by simpa using hname⟩
      rw [hn] at this
      exact absurd this (List.not_mem_nil d)
    · intro e he; simp [entryAfter] at he
  | cons d ds =>
    have hd : d ∈ named k read := by rw [hn]; exact List.mem_cons_self d ds
    refine ⟨?_, ?_⟩
    · simp only [entryAfter, Option.isSome_some, true_iff]
      exact ⟨d, (List.mem_filter.1 hd).1, named_Name hd⟩
    · intro e he
      simp only [entryAfter, Option.some.injEq] at he
      subst he
      refine ⟨?_, ?_, ?_⟩
      · rw [foldl_merge_Name]; exact named_Name hd
      · rw [foldl_merge_Functions]; simp
      · rw [foldl_merge_Types]; simp

theorem DecodeRune_size_pos (p0 : Nat) (rest : List Nat) : 1 ≤ (DecodeRune (p0 :: rest)).2 := by
  unfold DecodeRune
  simp only []
  repeat' split
  all_goals simp

theorem first_two {b : Nat} (h1 : 0xC2 ≤ b) (h2 : b < 0xE0) : first b = 0x02 := by
  unfold first; split_ifs <;> omega

theorem first_E0 : first 0xE0 = 0x13 := by decide

theorem first_three {b : Nat} (h1 : 0xE1 ≤ b) (h2 : b < 0xF0) (h3 : b ≠ 0xED) :
    first b = 0x03 := by
  unfold first; split_ifs <;> omega

theorem first_ED : first 0xED = 0x23 := by decide

theorem first_F0 : first 0xF0 = 0x34 := by decide

theorem first_four {b : Nat} (h1 : 0xF1 ≤ b) (h2 : b < 0xF4) : first b = 0x04 := by
  unfold first; split_ifs <;> omega

theorem first_F4 : first 0xF4 = 0x44 := by decide

theorem DecodeRune_two (p0 b1 : Nat) (rest : List Nat) (h1 : 0xC2 ≤ p0) (h2 : p0 < 0xE0)
    (h3 : 0x80 ≤ b1) (h4 : b1 ≤ 0xBF) :
    DecodeRune (p0 :: b1 :: rest) = (p0 % 32 * 64 + b1 % 64, 2) := by
  have hb : ¬ (b1 < 0x80 ∨ 0xBF < b1) := by omega
  simp [DecodeRune, first_two h1 h2, acceptRanges, hb]

theorem DecodeRune_three (p0 b1 b2 : Nat) (rest : List Nat) (h1 : 0xE0 ≤ p0) (h2 : p0 < 0xF0)
    (h3 : b1 ≤ 0xBF) (h4 : 0x80 ≤ b1) (hE0 : p0 = 0xE0 → 0xA0 ≤ b1) (hED : p0 = 0xED → b1 ≤ 0x9F)
    (h5 : 0x80 ≤ b2) (h6 : b2 ≤ 0xBF) :
    DecodeRune (p0 :: b1 :: b2 :: rest) = (p0 % 16 * 4096 + b1 % 64 * 64 + b2 % 64, 3) := by
  have hb2 : ¬ (b2 < 0x80 ∨ 0xBF < b2) := by omega
  by_cases hA : p0 = 0xE0
  · subst hA
    have hb : ¬ (b1 < 0xA0 ∨ 0xBF < b1) := by have := hE0 rfl; omega
    simp [DecodeRune, first_E0, acceptRanges, hb, hb2]
  · by_cases hB : p0 = 0xED
    · subst hB
      have hb : ¬ (b1 < 0x80 ∨ 0x9F < b1) := by have := hED rfl; omega
      simp [DecodeRune, first_ED, acceptRanges, hb, hb2]
    · have hb : ¬ (b1 < 0x80 ∨ 0xBF < b1) := by omega
      have hf : first p0 = 0x03 := first_three (by omega) h2 hB
      simp [DecodeRune, hf, acceptRanges, hb, hb2]

theorem DecodeRune_four (p0 b1 b2 b3 : Nat) (rest : List Nat) (h1 : 0xF0 ≤ p0) (h2 : p0 ≤ 0xF4)
    (h3 : b1 ≤ 0xBF) (h4 : 0x80 ≤ b1) (hF0 : p0 = 0xF0 → 0x90 ≤ b1) (hF4 : p0 = 0xF4 → b1 ≤ 0x8F)
    (h5 : 0x80 ≤ b2) (h6 : b2 ≤ 0xBF) (h7 : 0x80 ≤ b3) (h8 : b3 ≤ 0xBF) :
    DecodeRune (p0 :: b1 :: b2 :: b3 :: rest) =
      (p0 % 8 * 262144 + b1 % 64 * 4096 + b2 % 64 * 64 + b3 % 64, 4) := by
  have hb2 : ¬ (b2 < 0x80 ∨ 0xBF < b2) := by omega
  have hb3 : ¬ (b3 < 0x80 ∨ 0xBF < b3) := by omega
  by_cases hA : p0 = 0xF0
  · subst hA
    have hb : ¬ (b1 < 0x90 ∨ 0xBF < b1) := by have := hF0 rfl; omega
    simp [DecodeRune, first_F0, acceptRanges, hb, hb2, hb3]
  · by_cases hB : p0 = 0xF4
    · subst hB
      have hb : ¬ (b1 < 0x80 ∨ 0x8F < b1) := by have := hF4 rfl; omega
      simp [DecodeRune, first_F4, acceptRanges, hb, hb2, hb3]
    · have hb : ¬ (b1 < 0x80 ∨ 0xBF < b1) := by omega
      have hf : first p0 = 0x04 := first_four (by omega) (by omega)
      simp [DecodeRune, hf, acceptRanges, hb, hb2, hb3]

theorem DecodeRune_WriteRune (r : Nat) (rest : List Nat) :
    DecodeRune (WriteRune r ++ rest) = (written r, (WriteRune r).length) := by
  unfold WriteRune written RuneError
  by_cases h1 : r < 0x80
  · simp only [h1, if_true, List.singleton_append, DecodeRune, first]
    have : ¬ (r > 0x10FFFF ∨ (0xD800 ≤ r ∧ r ≤ 0xDFFF)) := by omega
    simp [this]
  · by_cases h2 : r ≤ 0x7FF
    · have hv : ¬ (r > 0x10FFFF ∨ (0xD800 ≤ r ∧ r ≤ 0xDFFF)) := by omega
      simp only [h1, h2, hv, if_true, if_false, List.cons_append, List.nil_append,
        List.length_cons, List.length_nil]
      rw [DecodeRune_two _ _ _ (by omega) (by omega) (by omega) (by omega)]
      congr 1
      omega
    · by_cases h3 : r > 0x10FFFF ∨ (0xD800 ≤ r ∧ r ≤ 0xDFFF)
      · simp only [h1, h2, h3, if_true, if_false, List.cons_append, List.nil_append,
          List.length_cons, List.length_nil]
        rw [DecodeRune_three _ _ _ _ (by omega) (by omega) (by omega) (by omega) (by omega)
          (by omega) (by omega) (by omega)]
      · by_cases h4 : r ≤ 0xFFFF
        · simp only [h1, h2, h3, h4, if_true, if_false, List.cons_append, List.nil_append,
            List.length_cons, List.length_nil]
          rw [DecodeRune_three _ _ _ _ (by omega) (by omega) (by omega) (by omega) (by omega)
            (by omega) (by omega) (by omega)]
          congr 1
          omega
        · simp only [h1, h2, h3, h4, if_true, if_false, List.cons_append, List.nil_append,
            List.length_cons, List.length_nil]
          rw [DecodeRune_four _ _ _ _ _ (by omega) (by omega) (by omega) (by omega) (by omega)
            (by omega) (by omega) (by omega) (by omega) (by omega)]
          congr 1
          omega

theorem runesLoop_fuel (f1 f2 : Nat) (b : List Nat) (h1 : b.length ≤ f1) (h2 : b.length ≤ f2) :
    runesLoop f1 b = runesLoop f2 b := by
  induction f1 generalizing f2 b with
  | zero =>
    have hb : b = [] := List.length_eq_zero.1 (by omega)
    subst hb
    cases f2 <;> simp [runesLoop]
  | succ n ih =>
    cases b with
    | nil => cases f2 <;> simp [runesLoop]
    | cons p0 rest =>
      cases f2 with
      | zero => simp at h2
      | succ m =>
        have hs := DecodeRune_size_pos p0 rest
        simp only [runesLoop, List.length_cons, Nat.zero_lt_succ, if_true]
        congr 1
        apply ih
        · simp only [List.length_drop, List.length_cons]; simp only [List.length_cons] at h1; omega
        · simp only [List.length_drop, List.length_cons]; simp only [List.length_cons] at h2; omega

theorem runes_cons_eq (p0 : Nat) (rest : List Nat) :
    runes (p0 :: rest) =
      (DecodeRune (p0 :: rest)).1 :: runes ((p0 :: rest).drop (DecodeRune (p0 :: rest)).2) := by
  have hs := DecodeRune_size_pos p0 rest
  unfold runes
  simp only [runesLoop, List.length_cons, Nat.zero_lt_succ, if_true]
  congr 1
  apply runesLoop_fuel
  · simp only [List.length_drop, List.length_cons]; omega
  · exact le_refl _

theorem sanitizeLoop_eq (U : Unicode) (fuel : Nat) (b buf : List Nat) (h : b.length ≤ fuel) :
    sanitizeLoop U fuel b buf =
      buf ++ ((runesLoop fuel b).filterMap (sanitizeRune U)).flatMap WriteRune := by
  induction fuel generalizing b buf with
  | zero => simp [sanitizeLoop, runesLoop]
  | succ n ih =>
    cases b with
    | nil => simp [sanitizeLoop, runesLoop]
    | cons p0 rest =>
      have hs := DecodeRune_size_pos p0 rest
      have hlen : ((p0 :: rest).drop (DecodeRune (p0 :: rest)).2).length ≤ n := by
        simp only [List.length_drop, List.length_cons]; simp only [List.length_cons] at h; omega
      simp only [sanitizeLoop, runesLoop, List.length_cons, Nat.zero_lt_succ, if_true]
      rw [ih _ _ hlen]
      simp only [List.filterMap_cons, sanitizeRune]
      by_cases c1 : (DecodeRune (p0 :: rest)).1 = 0x2D ∨ (DecodeRune (p0 :: rest)).1 = 0x20
      · simp [c1]
      · by_cases c2 : isAlphaNumeric U (DecodeRune (p0 :: rest)).1 = true
        · simp [c1, c2]
        · simp [c1, c2]

theorem sanitizeAnchor_eq (U : Unicode) (input : List Nat) :
    sanitizeAnchor U input = ((runes input).filterMap (sanitizeRune U)).flatMap WriteRune := by
  unfold sanitizeAnchor runes
  rw [sanitizeLoop_eq U _ _ _ (le_refl _)]
  simp

theorem WriteRune_length_pos (r : Nat) : 1 ≤ (WriteRune r).length := by
  unfold WriteRune; split_ifs <;> simp

theorem runes_WriteRune_append (r : Nat) (rest : List Nat) :
    runes (WriteRune r ++ rest) = written r :: runes rest := by
  have hpos := WriteRune_length_pos r
  cases hw : WriteRune r with
  | nil => rw [hw] at hpos; simp at hpos
  | cons p0 tl =>
    have hd := DecodeRune_WriteRune r rest
    rw [hw] at hd
    rw [List.cons_append] at hd ⊢
    rw [runes_cons_eq, hd]
    simp only [List.length_cons]
    congr 1
    rw [← List.cons_append, ← List.length_cons p0 tl, List.drop_left]

theorem runes_nil : runes [] = [] := rfl

theorem runes_flatMap_WriteRune (rs : List Nat) :
    runes (rs.flatMap WriteRune) = rs.map written := by
  induction rs with
  | nil => rfl
  | cons r rs ih => rw [List.flatMap_cons, runes_WriteRune_append, ih, List.map_cons]

theorem runes_sanitizeAnchor (U : Unicode) (input : List Nat) :
    runes (sanitizeAnchor U input) = ((runes input).filterMap (sanitizeRune U)).map written := by
  rw [sanitizeAnchor_eq, runes_flatMap_WriteRune]

theorem written_not_space_upper {r : Nat} (h : r ≠ 0x20 ∧ ¬ (0x41 ≤ r ∧ r ≤ 0x5A)) :
    written r ≠ 0x20 ∧ ¬ (0x41 ≤ written r ∧ written r ≤ 0x5A) := by
  unfold written RuneError
  split_ifs <;> omega

theorem WriteRune_space {r b : Nat} (hb : b ∈ WriteRune r) (h : b = 0x20) : r = 0x20 := by
  unfold WriteRune RuneError at hb
  split_ifs at hb <;> simp at hb <;> omega

/-- C9: `sanitizeAnchor` returns the input's runes processed in order, a space or hyphen
becoming `-`, a letter, digit or `_` becoming its lowercase form and every other rune being
dropped (an undecodable byte reads as `RuneError`, which is dropped when it is no letter or
digit); when lowercasing never yields a space or an upper-case ASCII letter, the output has
no space and no upper-case ASCII letter; its rune count never exceeds the input's. -/
theorem sanitizeAnchor_spec (U : Unicode) (input : List Nat)
    (hLower : ∀ r, isAlphaNumeric U r = true →
      U.ToLower r ≠ 0x20 ∧ ¬ (0x41 ≤ U.ToLower r ∧ U.ToLower r ≤ 0x5A))
    (hErr : isAlphaNumeric U RuneError = false) :
    sanitizeAnchor U input = ((runes input).filterMap (sanitizeRune U)).flatMap WriteRune ∧
    runes (sanitizeAnchor U input) = ((runes input).filterMap (sanitizeRune U)).map written ∧
    sanitizeRune U RuneError = none ∧
    (∀ r ∈ runes (sanitizeAnchor U input), r ≠ 0x20 ∧ ¬ (0x41 ≤ r ∧ r ≤ 0x5A)) ∧
    (∀ b ∈ sanitizeAnchor U input, b ≠ 0x20) ∧
    (runes (sanitizeAnchor U input)).length ≤ (runes input).length := by
  have hkept : ∀ r o, sanitizeRune U r = some o → o ≠ 0x20 ∧ ¬ (0x41 ≤ o ∧ o ≤ 0x5A) := by
    intro r o ho
    unfold sanitizeRune at ho
    split_ifs at ho with c1 c2
    · cases ho; omega
    · cases ho; exact hLower r c2
  refine ⟨sanitizeAnchor_eq U input, runes_sanitizeAnchor U input, ?_, ?_, ?_, ?_⟩
  · unfold sanitizeRune
    have : ¬ (RuneError = 0x2D ∨ RuneError = 0x20) := by unfold RuneError; omega
    simp [this, hErr]
  · intro r hr
    rw [runes_sanitizeAnchor] at hr
    obtain ⟨o, ho, rfl⟩ := List.mem_map.1 hr
    obtain ⟨r0, _, hr0⟩ := List.mem_filterMap.1 ho
    exact written_not_space_upper (hkept r0 o hr0)
  · intro b hb h
    rw [sanitizeAnchor_eq] at hb
    obtain ⟨o, ho, hbo⟩ := List.mem_flatMap.1 hb
    obtain ⟨r0, _, hr0⟩ := List.mem_filterMap.1 ho
    exact (hkept r0 o hr0).1 (WriteRune_space hbo h)
  · rw [runes_sanitizeAnchor, List.length_map]
    exact List.length_filterMap_le _ _

theorem latin1Unicode_lower (r : Nat) (h : isAlphaNumeric latin1Unicode r = true) :
    latin1Unicode.ToLower r ≠ 0x20 ∧
      ¬ (0x41 ≤ latin1Unicode.ToLower r ∧ latin1Unicode.ToLower r ≤ 0x5A) := by
  simp only [isAlphaNumeric, latin1Unicode, Bool.or_eq_true, Bool.and_eq_true,
    decide_eq_true_eq] at h ⊢
  split_ifs <;> omega

/-- Witness of C9 on the UTF-8 bytes of `"H -É!_"`, which become those of `"h--é_"`, with the
Latin-1 instance of `unicode`. -/
theorem sanitizeAnchor_spec_witness :
    sanitizeAnchor latin1Unicode [0x48, 0x20, 0x2D, 0xC3, 0x89, 0x21, 0x5F] =
      [0x68, 0x2D, 0x2D, 0xC3, 0xA9, 0x5F] ∧
    (runes (sanitizeAnchor latin1Unicode [0x48, 0x20, 0x2D, 0xC3, 0x89, 0x21, 0x5F])).length ≤
      (runes [0x48, 0x20, 0x2D, 0xC3, 0x89, 0x21, 0x5F]).length :=
  ⟨by decide,
   (sanitizeAnchor_spec latin1Unicode [0x48, 0x20, 0x2D, 0xC3, 0x89, 0x21, 0x5F]
      latin1Unicode_lower (by decide)).2.2.2.2.2⟩

theorem sanitizeRune_fixed (U : Unicode)
    (hU : ∀ r, isAlphaNumeric U r = true →
      U.ToLower r ≤ 0x10FFFF ∧ ¬ (0xD800 ≤ U.ToLower r ∧ U.ToLower r ≤ 0xDFFF) ∧
      U.ToLower r ≠ 0x20 ∧ isAlphaNumeric U (U.ToLower r) = true ∧
      U.ToLower (U.ToLower r) = U.ToLower r)
    (r o : Nat) (h : sanitizeRune U r = some o) : sanitizeRune U (written o) = some o := by
  unfold sanitizeRune at h
  split_ifs at h with c1 c2
  · cases h
    simp [written, sanitizeRune]
  · cases h
    obtain ⟨h1, h2, h3, h4, h5⟩ := hU r c2
    have hw : written (U.ToLower r) = U.ToLower r := by
      unfold written; rw [if_neg]; omega
    rw [hw]
    unfold sanitizeRune
    by_cases c : U.ToLower r = 0x2D
    · simp [c]
    · have : ¬ (U.ToLower r = 0x2D ∨ U.ToLower r = 0x20) := by omega
      simp [this, h4, h5]

theorem filterMap_fixed {f : Nat → Option Nat} {g : Nat → Nat} (l : List Nat)
    (h : ∀ o ∈ l, f (g o) = some o) : (l.map g).filterMap f = l := by
  induction l with
  | nil => rfl
  | cons a l ih =>
    rw [List.map_cons, List.filterMap_cons, h a (List.mem_cons_self a l)]
    simp only
    rw [ih (fun o ho => h o (List.mem_cons_of_mem a ho))]

/-- C10: `sanitizeAnchor` is idempotent, provided `unicode.ToLower` maps a letter, digit or
`_` to a valid rune that is again a letter, digit or `_`, is no space, and is its own
lowercase form. -/
theorem sanitizeAnchor_idempotent (U : Unicode)
    (hU : ∀ r, isAlphaNumeric U r = true →
      U.ToLower r ≤ 0x10FFFF ∧ ¬ (0xD800 ≤ U.ToLower r ∧ U.ToLower r ≤ 0xDFFF) ∧
      U.ToLower r ≠ 0x20 ∧ isAlphaNumeric U (U.ToLower r) = true ∧
      U.ToLower (U.ToLower r) = U.ToLower r)
    (s : List Nat) :
    sanitizeAnchor U (sanitizeAnchor U s) = sanitizeAnchor U s := by
  rw [sanitizeAnchor_eq U (sanitizeAnchor U s), runes_sanitizeAnchor, sanitizeAnchor_eq U s]
  congr 1
  apply filterMap_fixed
  intro o ho
  obtain ⟨r, _, hr⟩ := List.mem_filterMap.1 ho
  exact sanitizeRune_fixed U hU r o hr

theorem latin1Unicode_closed (r : Nat) (h : isAlphaNumeric latin1Unicode r = true) :
    latin1Unicode.ToLower r ≤ 0x10FFFF ∧
      ¬ (0xD800 ≤ latin1Unicode.ToLower r ∧ latin1Unicode.ToLower r ≤ 0xDFFF) ∧
      latin1Unicode.ToLower r ≠ 0x20 ∧ isAlphaNumeric latin1Unicode (latin1Unicode.ToLower r) = true ∧
      latin1Unicode.ToLower (latin1Unicode.ToLower r) = latin1Unicode.ToLower r := by
  simp only [isAlphaNumeric, latin1Unicode, Bool.or_eq_true, Bool.and_eq_true,
    decide_eq_true_eq] at h ⊢
  split_ifs <;> omega

/-- Witness of C10 on the UTF-8 bytes of `"H -É!_"` with the Latin-1 instance of `unicode`. -/
theorem sanitizeAnchor_idempotent_witness :
    sanitizeAnchor latin1Unicode
        (sanitizeAnchor latin1Unicode [0x48, 0x20, 0x2D, 0xC3, 0x89, 0x21, 0x5F]) =
      sanitizeAnchor latin1Unicode [0x48, 0x20, 0x2D, 0xC3, 0x89, 0x21, 0x5F] :=
  sanitizeAnchor_idempotent latin1Unicode latin1Unicode_closed
    [0x48, 0x20, 0x2D, 0xC3, 0x89, 0x21, 0x5F]

/-! ### Blocks and fuel -/

theorem readBlock_length (d : Nat) (ls : List Line) : (readBlock d ls).2.length ≤ ls.length := by
  induction ls with
  | nil => simp [readBlock]
  | cons l ls ih =>
    unfold readBlock
    split_ifs
    · simp only [List.length_cons]; omega
    · simp

theorem readDescription_length (d : Nat) (ls : List Line) :
    (readDescription d ls).2.length ≤ ls.length := by
  induction ls with
  | nil => simp [readDescription]
  | cons l ls ih =>
    unfold readDescription
    split_ifs
    · simp only [List.length_cons]; omega
    · simp

theorem readBlock_append (d : Nat) (L rest : List Line)
    (hL : ∀ l ∈ L, l.text = [] ∨ d < l.indent) :
    readBlock d (L ++ rest) = (L.map Line.text ++ (readBlock d rest).1, (readBlock d rest).2) := by
  induction L with
  | nil => simp
  | cons l L ih =>
    have h1 := hL l (List.mem_cons_self l L)
    have ih' := ih (fun x hx => hL x (List.mem_cons_of_mem l hx))
    rw [List.cons_append, readBlock, if_pos h1, ih']
    simp

theorem readBlock_ends (d : Nat) (rest : List Line) (h : endsBlock d rest) :
    readBlock d rest = ([], rest) := by
  cases rest with
  | nil => rfl
  | cons l ls =>
    have := h l (by simp)
    rw [readBlock, if_neg]
    intro hc
    rcases hc with hc | hc
    · exact this.1 hc
    · omega

theorem readDescription_append (d : Nat) (L rest : List Line) (hL : descriptionLines d L) :
    readDescription d (L ++ rest) =
      (L.map Line.text ++ (readDescription d rest).1, (readDescription d rest).2) := by
  induction L with
  | nil => simp
  | cons l L ih =>
    have h1 := hL l (List.mem_cons_self l L)
    have ih' := ih (fun x hx => hL x (List.mem_cons_of_mem l hx))
    rw [List.cons_append, readDescription, if_pos h1, ih']
    simp

theorem readDescription_ends (d : Nat) (rest : List Line) (h : endsDescription d rest) :
    readDescription d rest = ([], rest) := by
  cases rest with
  | nil => rfl
  | cons l ls =>
    have := h l (by simp)
    rw [readDescription, if_neg]
    intro hc
    rcases hc with hc | ⟨hc1, hc2⟩
    · exact this.1 hc
    · rcases this.2 with h2 | h2
      · omega
      · exact h2 hc2

theorem readDocDescription_length (d : Nat) (ls : List Line) :
    (readDocDescription d ls).2.length ≤ ls.length := by
  induction ls with
  | nil => simp [readDocDescription]
  | cons l ls ih =>
    unfold readDocDescription
    split_ifs
    · simp only [List.length_cons]; omega
    · simp

theorem readDocDescription_append (d : Nat) (L rest : List Line)
    (hL : ∀ l ∈ L, l.text = [] ∨ (d ≤ l.indent ∧ classify l.text = LineClass.PlainText)) :
    readDocDescription d (L ++ rest) =
      (L.map Line.text ++ (readDocDescription d rest).1, (readDocDescription d rest).2) := by
  induction L with
  | nil => simp
  | cons l L ih =>
    have h1 := hL l (List.mem_cons_self l L)
    have ih' := ih (fun x hx => hL x (List.mem_cons_of_mem l hx))
    rw [List.cons_append, readDocDescription, if_pos h1, ih']
    simp

theorem readDocDescription_ends (d : Nat) (rest : List Line) (h : endsDocDescription d rest) :
    readDocDescription d rest = ([], rest) := by
  cases rest with
  | nil => rfl
  | cons l ls =>
    have := h l (by simp)
    rw [readDocDescription, if_neg]
    intro hc
    rcases hc with hc | ⟨hc1, hc2⟩
    · exact this.1 hc
    · rcases this.2 with h2 | h2
      · omega
      · exact h2 hc2

theorem endsDescription_of_endsBlock {d : Nat} {rest : List Line} (h : endsBlock d rest) :
    endsDescription d rest := fun l hl => ⟨(h l hl).1, Or.inl (h l hl).2⟩

theorem parseEntries_length {α : Type} (mk : Str → Str → α) (fuel d : Nat) (ls : List Line) :
    (parseEntries mk fuel d ls).2.length ≤ ls.length := by
  induction fuel generalizing ls with
  | zero => simp [parseEntries]
  | succ n ih =>
    cases ls with
    | nil => simp [parseEntries]
    | cons l ls =>
      simp only [parseEntries]
      split_ifs
      · have := ih ls; simp only [List.length_cons]; omega
      · simp
      · have h1 := ih (readBlock l.indent (readDescription l.indent ls).2).2
        have h2 := readBlock_length l.indent (readDescription l.indent ls).2
        have h3 := readDescription_length l.indent ls
        simp only [List.length_cons]; omega

theorem parseEntries_fuel {α : Type} (mk : Str → Str → α) (f1 f2 d : Nat) (ls : List Line)
    (h1 : ls.length ≤ f1) (h2 : ls.length ≤ f2) :
    parseEntries mk f1 d ls = parseEntries mk f2 d ls := by
  induction f1 generalizing f2 ls with
  | zero =>
    have : ls = [] := List.length_eq_zero.1 (by omega)
    subst this
    cases f2 <;> simp [parseEntries]
  | succ n ih =>
    cases ls with
    | nil => cases f2 <;> simp [parseEntries]
    | cons l ls =>
      cases f2 with
      | zero => simp at h2
      | succ m =>
        simp only [List.length_cons] at h1 h2
        simp only [parseEntries]
        split_ifs
        · exact ih m ls (by omega) (by omega)
        · rfl
        · have hb := readBlock_length l.indent (readDescription l.indent ls).2
          have hc := readDescription_length l.indent ls
          rw [ih m (readBlock l.indent (readDescription l.indent ls).2).2 (by omega) (by omega)]

theorem parseFunctionBody_length (fuel d : Nat) (acc : FunctionBody) (ls : List Line) :
    (parseFunctionBody fuel d acc ls).2.length ≤ ls.length := by
  induction fuel generalizing acc ls with
  | zero => simp [parseFunctionBody]
  | succ n ih =>
    cases ls with
    | nil => simp [parseFunctionBody]
    | cons l ls =>
      simp only [parseFunctionBody]
      split_ifs
      · have := ih acc ls
        simp only [List.length_cons]; omega
      · simp
      · split
        · have h1 := ih { acc with params := acc.params ++ (parseParams n l.indent ls).1 }
            (parseParams n l.indent ls).2
          have h2 := parseEntries_length mkParam n l.indent ls
          simp only [List.length_cons]; unfold parseParams at h1 ⊢; omega
        · have h1 := ih { acc with examples := acc.examples ++ (parseExamples n l.indent ls).1 }
            (parseExamples n l.indent ls).2
          have h2 := parseEntries_length mkExample n l.indent ls
          simp only [List.length_cons]; unfold parseExamples at h1 ⊢; omega
        · have := ih acc ls
          simp only [List.length_cons]; omega

theorem parseFunctionBody_fuel (f1 f2 d : Nat) (acc : FunctionBody) (ls : List Line)
    (h1 : ls.length ≤ f1) (h2 : ls.length ≤ f2) :
    parseFunctionBody f1 d acc ls = parseFunctionBody f2 d acc ls := by
  induction f1 generalizing f2 acc ls with
  | zero =>
    have : ls = [] := List.length_eq_zero.1 (by omega)
    subst this
    cases f2 <;> simp [parseFunctionBody]
  | succ n ih =>
    cases ls with
    | nil => cases f2 <;> simp [parseFunctionBody]
    | cons l ls =>
      cases f2 with
      | zero => simp at h2
      | succ m =>
        simp only [List.length_cons] at h1 h2
        simp only [parseFunctionBody]
        split_ifs
        · exact ih m _ ls (by omega) (by omega)
        · rfl
        · split
          · have hb := parseEntries_length mkParam n l.indent ls
            have he : parseParams n l.indent ls = parseParams m l.indent ls :=
              parseEntries_fuel mkParam n m l.indent ls (by omega) (by omega)
            rw [← he]
            unfold parseParams at hb ⊢
            exact ih m _ _ (by omega) (by omega)
          · have hb := parseEntries_length mkExample n l.indent ls
            have he : parseExamples n l.indent ls = parseExamples m l.indent ls :=
              parseEntries_fuel mkExample n m l.indent ls (by omega) (by omega)
            rw [← he]
            unfold parseExamples at hb ⊢
            exact ih m _ _ (by omega) (by omega)
          · exact ih m _ ls (by omega) (by omega)

theorem parseFunctions_length (fuel d : Nat) (ls : List Line) :
    (parseFunctions fuel d ls).2.length ≤ ls.length := by
  induction fuel generalizing ls with
  | zero => simp [parseFunctions]
  | succ n ih =>
    cases ls with
    | nil => simp [parseFunctions]
    | cons l ls =>
      simp only [parseFunctions]
      split_ifs
      · have := ih ls; simp only [List.length_cons]; omega
      · simp
      · have h1 := ih (parseFunctionBody n l.indent ⟨[], []⟩ (readDescription l.indent ls).2).2
        have h2 := parseFunctionBody_length n l.indent ⟨[], []⟩ (readDescription l.indent ls).2
        have h3 := readDescription_length l.indent ls
        simp only [List.length_cons]; omega

theorem parseFunctions_fuel (f1 f2 d : Nat) (ls : List Line)
    (h1 : ls.length ≤ f1) (h2 : ls.length ≤ f2) :
    parseFunctions f1 d ls = parseFunctions f2 d ls := by
  induction f1 generalizing f2 ls with
  | zero =>
    have : ls = [] := List.length_eq_zero.1 (by omega)
    subst this
    cases f2 <;> simp [parseFunctions]
  | succ n ih =>
    cases ls with
    | nil => cases f2 <;> simp [parseFunctions]
    | cons l ls =>
      cases f2 with
      | zero => simp at h2
      | succ m =>
        simp only [List.length_cons] at h1 h2
        simp only [parseFunctions]
        split_ifs
        · exact ih m ls (by omega) (by omega)
        · rfl
        · have hb := parseFunctionBody_length n l.indent ⟨[], []⟩ (readDescription l.indent ls).2
          have hc := readDescription_length l.indent ls
          rw [← parseFunctionBody_fuel n m l.indent ⟨[], []⟩ _ (by omega) (by omega)]
          rw [ih m _ (by omega) (by omega)]

theorem parseOperators_length (d : Nat) (ls : List Line) :
    (parseOperators d ls).2.length ≤ ls.length := readBlock_length d ls

theorem parseTypeBody_length (fuel d : Nat) (acc : TypeBody) (ls : List Line) :
    (parseTypeBody fuel d acc ls).2.length ≤ ls.length := by
  induction fuel generalizing acc ls with
  | zero => simp [parseTypeBody]
  | succ n ih =>
    cases ls with
    | nil => simp [parseTypeBody]
    | cons l ls =>
      simp only [parseTypeBody]
      split_ifs
      · have := ih acc ls
        simp only [List.length_cons]; omega
      · simp
      · split
        · have h1 := ih { acc with fields := acc.fields ++ (parseFields n l.indent ls).1 }
            (parseFields n l.indent ls).2
          have h2 := parseEntries_length mkField n l.indent ls
          simp only [List.length_cons]; unfold parseFields at h1 ⊢; omega
        · have h1 := ih { acc with methods := acc.methods ++ (parseFunctions n l.indent ls).1 }
            (parseFunctions n l.indent ls).2
          have h2 := parseFunctions_length n l.indent ls
          simp only [List.length_cons]; omega
        · have h1 := ih { acc with operators := acc.operators ++ (parseOperators l.indent ls).1 }
            (parseOperators l.indent ls).2
          have h2 := parseOperators_length l.indent ls
          simp only [List.length_cons]; omega
        · have h1 := ih { acc with examples := acc.examples ++ (parseExamples n l.indent ls).1 }
            (parseExamples n l.indent ls).2
          have h2 := parseEntries_length mkExample n l.indent ls
          simp only [List.length_cons]; unfold parseExamples at h1 ⊢; omega
        · have := ih acc ls
          simp only [List.length_cons]; omega

theorem parseTypeBody_fuel (f1 f2 d : Nat) (acc : TypeBody) (ls : List Line)
    (h1 : ls.length ≤ f1) (h2 : ls.length ≤ f2) :
    parseTypeBody f1 d acc ls = parseTypeBody f2 d acc ls := by
  induction f1 generalizing f2 acc ls with
  | zero =>
    have : ls = [] := List.length_eq_zero.1 (by omega)
    subst this
    cases f2 <;> simp [parseTypeBody]
  | succ n ih =>
    cases ls with
    | nil => cases f2 <;> simp [parseTypeBody]
    | cons l ls =>
      cases f2 with
      | zero => simp at h2
      | succ m =>
        simp only [List.length_cons] at h1 h2
        simp only [parseTypeBody]
        split_ifs
        · exact ih m _ ls (by omega) (by omega)
        · rfl
        · split
          · have hb := parseEntries_length mkField n l.indent ls
            have he : parseFields n l.indent ls = parseFields m l.indent ls :=
              parseEntries_fuel mkField n m l.indent ls (by omega) (by omega)
            rw [← he]
            unfold parseFields at hb ⊢
            exact ih m _ _ (by omega) (by omega)
          · have hb := parseFunctions_length n l.indent ls
            rw [← parseFunctions_fuel n m l.indent ls (by omega) (by omega)]
            exact ih m _ _ (by omega) (by omega)
          · have hb := parseOperators_length l.indent ls
            exact ih m _ _ (by omega) (by omega)
          · have hb := parseEntries_length mkExample n l.indent ls
            have he : parseExamples n l.indent ls = parseExamples m l.indent ls :=
              parseEntries_fuel mkExample n m l.indent ls (by omega) (by omega)
            rw [← he]
            unfold parseExamples at hb ⊢
            exact ih m _ _ (by omega) (by omega)
          · exact ih m _ ls (by omega) (by omega)

theorem parseTypes_length (fuel d : Nat) (ls : List Line) :
    (parseTypes fuel d ls).2.length ≤ ls.length := by
  induction fuel generalizing ls with
  | zero => simp [parseTypes]
  | succ n ih =>
    cases ls with
    | nil => simp [parseTypes]
    | cons l ls =>
      simp only [parseTypes]
      split_ifs
      · have := ih ls; simp only [List.length_cons]; omega
      · simp
      · have h1 := ih (parseTypeBody n l.indent ⟨[], [], [], []⟩ (readDescription l.indent ls).2).2
        have h2 := parseTypeBody_length n l.indent ⟨[], [], [], []⟩ (readDescription l.indent ls).2
        have h3 := readDescription_length l.indent ls
        simp only [List.length_cons]; omega

theorem parseTypes_fuel (f1 f2 d : Nat) (ls : List Line)
    (h1 : ls.length ≤ f1) (h2 : ls.length ≤ f2) :
    parseTypes f1 d ls = parseTypes f2 d ls := by
  induction f1 generalizing f2 ls with
  | zero =>
    have : ls = [] := List.length_eq_zero.1 (by omega)
    subst this
    cases f2 <;> simp [parseTypes]
  | succ n ih =>
    cases ls with
    | nil => cases f2 <;> simp [parseTypes]
    | cons l ls =>
      cases f2 with
      | zero => simp at h2
      | succ m =>
        simp only [List.length_cons] at h1 h2
        simp only [parseTypes]
        split_ifs
        · exact ih m ls (by omega) (by omega)
        · rfl
        · have hb := parseTypeBody_length n l.indent ⟨[], [], [], []⟩ (readDescription l.indent ls).2
          have hc := readDescription_length l.indent ls
          rw [← parseTypeBody_fuel n m l.indent ⟨[], [], [], []⟩ _ (by omega) (by omega)]
          rw [ih m _ (by omega) (by omega)]

theorem parseDocBody_length (fuel d : Nat) (acc : DocBody) (ls : List Line) :
    (parseDocBody fuel d acc ls).2.length ≤ ls.length := by
  induction fuel generalizing acc ls with
  | zero => simp [parseDocBody]
  | succ n ih =>
    cases ls with
    | nil => simp [parseDocBody]
    | cons l ls =>
      simp only [parseDocBody]
      split_ifs
      · have := ih acc ls
        simp only [List.length_cons]; omega
      · simp
      · split
        · simp
        · have := ih { acc with path := ‹Str› } ls
          simp only [List.length_cons]; omega
        · have h1 := ih { acc with functions := acc.functions ++ (parseFunctions n l.indent ls).1 }
            (parseFunctions n l.indent ls).2
          have h2 := parseFunctions_length n l.indent ls
          simp only [List.length_cons]; omega
        · have h1 := ih { acc with types := acc.types ++ (parseTypes n l.indent ls).1 }
            (parseTypes n l.indent ls).2
          have h2 := parseTypes_length n l.indent ls
          simp only [List.length_cons]; omega
        · have := ih acc ls
          simp only [List.length_cons]; omega

theorem parseDocBody_fuel (f1 f2 d : Nat) (acc : DocBody) (ls : List Line)
    (h1 : ls.length ≤ f1) (h2 : ls.length ≤ f2) :
    parseDocBody f1 d acc ls = parseDocBody f2 d acc ls := by
  induction f1 generalizing f2 acc ls with
  | zero =>
    have : ls = [] := List.length_eq_zero.1 (by omega)
    subst this
    cases f2 <;> simp [parseDocBody]
  | succ n ih =>
    cases ls with
    | nil => cases f2 <;> simp [parseDocBody]
    | cons l ls =>
      cases f2 with
      | zero => simp at h2
      | succ m =>
        simp only [List.length_cons] at h1 h2
        simp only [parseDocBody]
        split_ifs
        · exact ih m _ ls (by omega) (by omega)
        · rfl
        · split
          · rfl
          · exact ih m _ ls (by omega) (by omega)
          · have hb := parseFunctions_length n l.indent ls
            rw [← parseFunctions_fuel n m l.indent ls (by omega) (by omega)]
            exact ih m _ _ (by omega) (by omega)
          · have hb := parseTypes_length n l.indent ls
            rw [← parseTypes_fuel n m l.indent ls (by omega) (by omega)]
            exact ih m _ _ (by omega) (by omega)
          · exact ih m _ ls (by omega) (by omega)

/-! ### Descriptions -/

theorem dropWhile_blank_of_all {B : List Str} (h : ∀ b ∈ B, b = []) (T : List Str) :
    (B ++ T).dropWhile (fun l => l = []) = T.dropWhile (fun l => l = []) := by
  induction B with
  | nil => rfl
  | cons b B ih =>
    have hb := h b (List.mem_cons_self b B)
    rw [List.cons_append, List.dropWhile_cons]
    simp only [hb, decide_True, if_true]
    exact ih (fun x hx => h x (List.mem_cons_of_mem b hx))

theorem dropWhile_blank_of_head {T : List Str} (h : ∀ t ∈ T.head?, t ≠ []) :
    T.dropWhile (fun l => l = []) = T := by
  cases T with
  | nil => rfl
  | cons t T =>
    have := h t (by simp)
    rw [List.dropWhile_cons]
    simp [this]

theorem trimBlank_append_blank (T B : List Str) (hfirst : ∀ t ∈ T.head?, t ≠ [])
    (hlast : ∀ t ∈ T.getLast?, t ≠ []) (hB : ∀ b ∈ B, b = []) :
    trimBlank (T ++ B) = T := by
  unfold trimBlank
  cases T with
  | nil =>
    have h0 : ([] ++ B).dropWhile (fun l => l = []) = [] := by
      have := dropWhile_blank_of_all hB []
      simpa using this
    rw [h0]; rfl
  | cons t T =>
    have h1 : ((t :: T) ++ B).dropWhile (fun l => l = []) = (t :: T) ++ B := by
      apply dropWhile_blank_of_head
      intro x hx
      simp only [List.cons_append, List.head?_cons, Option.mem_def, Option.some.injEq] at hx
      subst hx
      exact hfirst t (by simp)
    rw [h1, List.reverse_append]
    rw [dropWhile_blank_of_all (fun b hb => hB b (List.mem_reverse.1 hb))]
    rw [dropWhile_blank_of_head, List.reverse_reverse]
    intro x hx
    rw [List.head?_reverse] at hx
    exact hlast x hx

theorem trimBlank_blank_append (A T : List Str) (hA : ∀ a ∈ A, a = []) :
    trimBlank (A ++ T) = trimBlank T := by
  unfold trimBlank
  rw [dropWhile_blank_of_all hA]

/-- Blank lines before and after a block of lines are trimmed, the block itself is joined
with one line break per line. -/
theorem joinDescription_block (A T B : List Str) (hA : ∀ a ∈ A, a = [])
    (hfirst : ∀ t ∈ T.head?, t ≠ []) (hlast : ∀ t ∈ T.getLast?, t ≠ [])
    (hB : ∀ b ∈ B, b = []) :
    joinDescription (A ++ T ++ B) = List.intercalate ['\n'] T := by
  unfold joinDescription
  rw [List.append_assoc, trimBlank_blank_append A _ hA, trimBlank_append_blank T B hfirst hlast hB]

theorem head?_map_text {L : List Line} (h : ∀ l ∈ L.head?, l.text ≠ []) :
    ∀ t ∈ (L.map Line.text).head?, t ≠ [] := by
  intro t ht
  cases L with
  | nil => simp at ht
  | cons l L =>
    simp only [List.map_cons, List.head?_cons, Option.mem_def, Option.some.injEq] at ht
    subst ht
    exact h l (by simp)

theorem getLast?_map_text {L : List Line} (h : ∀ l ∈ L.getLast?, l.text ≠ []) :
    ∀ t ∈ (L.map Line.text).getLast?, t ≠ [] := by
  intro t ht
  rw [List.getLast?_eq_head?_reverse, ← List.map_reverse] at ht
  rw [List.getLast?_eq_head?_reverse] at h
  exact head?_map_text h t ht

theorem map_text_blank {B : List Line} (hB : ∀ l ∈ B, l.text = []) :
    ∀ b ∈ B.map Line.text, b = [] := by
  intro b hb
  obtain ⟨l, hl, rfl⟩ := List.mem_map.1 hb
  exact hB l hl

/-! ### A description block -/

theorem readDescription_block (d : Nat) (A L B rest : List Line) (hA : ∀ l ∈ A, l.text = [])
    (hL : descriptionLines d L) (hB : ∀ l ∈ B, l.text = []) (hrest : endsDescription d rest) :
    readDescription d (A ++ L ++ B ++ rest) =
      (A.map Line.text ++ L.map Line.text ++ B.map Line.text, rest) := by
  have hall : descriptionLines d (A ++ L ++ B) := by
    intro l hl
    rcases List.mem_append.1 hl with h | h
    · rcases List.mem_append.1 h with h | h
      · exact Or.inl (hA l h)
      · exact hL l h
    · exact Or.inl (hB l h)
  rw [readDescription_append d (A ++ L ++ B) rest hall, readDescription_ends d rest hrest]
  simp

theorem readDocDescription_block (d : Nat) (A L B rest : List Line)
    (hA : ∀ l ∈ A, l.text = []) (hL : descriptionLines d L) (hB : ∀ l ∈ B, l.text = [])
    (hrest : endsDocDescription d rest) :
    readDocDescription d (A ++ L ++ B ++ rest) =
      (A.map Line.text ++ L.map Line.text ++ B.map Line.text, rest) := by
  have hall : ∀ l ∈ A ++ L ++ B,
      l.text = [] ∨ (d ≤ l.indent ∧ classify l.text = LineClass.PlainText) := by
    intro l hl
    rcases List.mem_append.1 hl with h | h
    · rcases List.mem_append.1 h with h | h
      · exact Or.inl (hA l h)
      · exact (hL l h).imp id (fun hh => ⟨le_of_lt hh.1, hh.2⟩)
    · exact Or.inl (hB l h)
  rw [readDocDescription_append d (A ++ L ++ B) rest hall, readDocDescription_ends d rest hrest]
  simp

theorem joinDescription_readDescription (d : Nat) (A L B rest : List Line)
    (hA : ∀ l ∈ A, l.text = []) (hL : descriptionLines d L)
    (hfirst : ∀ l ∈ L.head?, l.text ≠ []) (hlast : ∀ l ∈ L.getLast?, l.text ≠ [])
    (hB : ∀ l ∈ B, l.text = []) (hrest : endsDescription d rest) :
    joinDescription (readDescription d (A ++ L ++ B ++ rest)).1 =
      List.intercalate ['\n'] (L.map Line.text) := by
  rw [readDescription_block d A L B rest hA hL hB hrest]
  exact joinDescription_block _ _ _ (map_text_blank hA) (head?_map_text hfirst)
    (getLast?_map_text hlast) (map_text_blank hB)

theorem joinDescription_readDocDescription (d : Nat) (A L B rest : List Line)
    (hA : ∀ l ∈ A, l.text = []) (hL : descriptionLines d L)
    (hfirst : ∀ l ∈ L.head?, l.text ≠ []) (hlast : ∀ l ∈ L.getLast?, l.text ≠ [])
    (hB : ∀ l ∈ B, l.text = []) (hrest : endsDocDescription d rest) :
    joinDescription (readDocDescription d (A ++ L ++ B ++ rest)).1 =
      List.intercalate ['\n'] (L.map Line.text) := by
  rw [readDocDescription_block d A L B rest hA hL hB hrest]
  exact joinDescription_block _ _ _ (map_text_blank hA) (head?_map_text hfirst)
    (getLast?_map_text hlast) (map_text_blank hB)

theorem findHeader_append (pre : List Line) (h : Line) (tail : List Line) (name : Str)
    (hpre : findHeader pre = none) (hh : classify h.text = LineClass.HeaderStart name) :
    findHeader (pre ++ h :: tail) = some (h.indent, name, tail) := by
  induction pre with
  | nil => simp [findHeader, hh]
  | cons l pre ih =>
    rw [List.cons_append]
    unfold findHeader at hpre ⊢
    cases hc : classify l.text with
    | HeaderStart nm => rw [hc] at hpre; simp at hpre
    | PathDirective p => rw [hc] at hpre; simp only at hpre ⊢; exact ih hpre
    | SectionKeyword k => rw [hc] at hpre; simp only at hpre ⊢; exact ih hpre
    | PlainText => rw [hc] at hpre; simp only at hpre ⊢; exact ih hpre

theorem parseFirstLines_of_header (lines rest : List Line) (d : Nat) (name : Str)
    (hfind : findHeader lines = some (d, name, rest)) (hname : name ≠ []) :
    parseFirstLines lines = Except.ok
      ⟨name,
        (parseDocBody (readDocDescription d rest).2.length d ⟨[], [], []⟩
          (readDocDescription d rest).2).1.path,
        joinDescription (readDocDescription d rest).1,
        (parseDocBody (readDocDescription d rest).2.length d ⟨[], [], []⟩
          (readDocDescription d rest).2).1.functions,
        (parseDocBody (readDocDescription d rest).2.length d ⟨[], [], []⟩
          (readDocDescription d rest).2).1.types⟩ := by
  unfold parseFirstLines
  rw [hfind]
  simp only [hname, if_false]

theorem parseFunctions_cons (n ws d : Nat) (sig : Str) (tl : List Line) (hsig : sig ≠ [])
    (hws : ws < d) :
    parseFunctions (n + 1) ws (⟨d, sig⟩ :: tl) =
      (⟨sig, joinDescription (readDescription d tl).1,
          (parseFunctionBody n d ⟨[], []⟩ (readDescription d tl).2).1.params,
          (parseFunctionBody n d ⟨[], []⟩ (readDescription d tl).2).1.examples⟩ ::
        (parseFunctions n ws (parseFunctionBody n d ⟨[], []⟩ (readDescription d tl).2).2).1,
       (parseFunctions n ws (parseFunctionBody n d ⟨[], []⟩ (readDescription d tl).2).2).2) := by
  simp only [parseFunctions]
  rw [if_neg hsig, if_neg (by simpa using hws)]

theorem parseTypes_cons (n ws d : Nat) (name : Str) (tl : List Line) (hname : name ≠ [])
    (hws : ws < d) :
    parseTypes (n + 1) ws (⟨d, name⟩ :: tl) =
      (⟨name, joinDescription (readDescription d tl).1,
          (parseTypeBody n d ⟨[], [], [], []⟩ (readDescription d tl).2).1.methods,
          (parseTypeBody n d ⟨[], [], [], []⟩ (readDescription d tl).2).1.fields,
          (parseTypeBody n d ⟨[], [], [], []⟩ (readDescription d tl).2).1.operators,
          (parseTypeBody n d ⟨[], [], [], []⟩ (readDescription d tl).2).1.examples⟩ ::
        (parseTypes n ws (parseTypeBody n d ⟨[], [], [], []⟩ (readDescription d tl).2).2).1,
       (parseTypes n ws (parseTypeBody n d ⟨[], [], [], []⟩ (readDescription d tl).2).2).2) := by
  simp only [parseTypes]
  rw [if_neg hname, if_neg (by simpa using hws)]

theorem parseEntries_cons {α : Type} (mk : Str → Str → α) (n ws d : Nat) (text : Str)
    (tl : List Line) (htext : text ≠ []) (hws : ws < d) :
    parseEntries mk (n + 1) ws (⟨d, text⟩ :: tl) =
      (mk text (joinDescription (readDescription d tl).1) ::
        (parseEntries mk n ws (readBlock d (readDescription d tl).2).2).1,
       (parseEntries mk n ws (readBlock d (readDescription d tl).2).2).2) := by
  simp only [parseEntries]
  rw [if_neg htext, if_neg (by simpa using hws)]

/-! ### What a body parser has read stays read -/

theorem parseDocBody_extends (fuel d : Nat) (acc : DocBody) (ls : List Line) :
    (∃ fs, (parseDocBody fuel d acc ls).1.functions = acc.functions ++ fs) ∧
    (∃ ts, (parseDocBody fuel d acc ls).1.types = acc.types ++ ts) := by
  induction fuel generalizing acc ls with
  | zero => exact ⟨⟨[], by simp [parseDocBody]⟩, ⟨[], by simp [parseDocBody]⟩⟩
  | succ n ih =>
    cases ls with
    | nil => exact ⟨⟨[], by simp [parseDocBody]⟩, ⟨[], by simp [parseDocBody]⟩⟩
    | cons l ls =>
      simp only [parseDocBody]
      split_ifs
      · exact ih acc ls
      · exact ⟨⟨[], by simp⟩, ⟨[], by simp⟩⟩
      · split
        · exact ⟨⟨[], by simp⟩, ⟨[], by simp⟩⟩
        · exact ih _ ls
        · obtain ⟨⟨fs, hfs⟩, ⟨ts, hts⟩⟩ :=
            ih { acc with functions := acc.functions ++ (parseFunctions n l.indent ls).1 }
              (parseFunctions n l.indent ls).2
          exact ⟨⟨(parseFunctions n l.indent ls).1 ++ fs, by rw [hfs]; simp⟩, ⟨ts, hts⟩⟩
        · obtain ⟨⟨fs, hfs⟩, ⟨ts, hts⟩⟩ :=
            ih { acc with types := acc.types ++ (parseTypes n l.indent ls).1 }
              (parseTypes n l.indent ls).2
          exact ⟨⟨fs, hfs⟩, ⟨(parseTypes n l.indent ls).1 ++ ts, by rw [hts]; simp⟩⟩
        · exact ih acc ls

theorem parseFunctionBody_extends (fuel d : Nat) (acc : FunctionBody) (ls : List Line) :
    (∃ ps, (parseFunctionBody fuel d acc ls).1.params = acc.params ++ ps) ∧
    (∃ es, (parseFunctionBody fuel d acc ls).1.examples = acc.examples ++ es) := by
  induction fuel generalizing acc ls with
  | zero => exact ⟨⟨[], by simp [parseFunctionBody]⟩, ⟨[], by simp [parseFunctionBody]⟩⟩
  | succ n ih =>
    cases ls with
    | nil => exact ⟨⟨[], by simp [parseFunctionBody]⟩, ⟨[], by simp [parseFunctionBody]⟩⟩
    | cons l ls =>
      simp only [parseFunctionBody]
      split_ifs
      · exact ih acc ls
      · exact ⟨⟨[], by simp⟩, ⟨[], by simp⟩⟩
      · split
        · obtain ⟨⟨ps, hps⟩, ⟨es, hes⟩⟩ :=
            ih { acc with params := acc.params ++ (parseParams n l.indent ls).1 }
              (parseParams n l.indent ls).2
          exact ⟨⟨(parseParams n l.indent ls).1 ++ ps, by rw [hps]; simp⟩, ⟨es, hes⟩⟩
        · obtain ⟨⟨ps, hps⟩, ⟨es, hes⟩⟩ :=
            ih { acc with examples := acc.examples ++ (parseExamples n l.indent ls).1 }
              (parseExamples n l.indent ls).2
          exact ⟨⟨ps, hps⟩, ⟨(parseExamples n l.indent ls).1 ++ es, by rw [hes]; simp⟩⟩
        · exact ih acc ls

theorem parseTypeBody_extends (fuel d : Nat) (acc : TypeBody) (ls : List Line) :
    (∃ ms, (parseTypeBody fuel d acc ls).1.methods = acc.methods ++ ms) ∧
    (∃ fs, (parseTypeBody fuel d acc ls).1.fields = acc.fields ++ fs) ∧
    (∃ es, (parseTypeBody fuel d acc ls).1.examples = acc.examples ++ es) := by
  induction fuel generalizing acc ls with
  | zero =>
    exact ⟨⟨[], by simp [parseTypeBody]⟩, ⟨[], by simp [parseTypeBody]⟩,
      ⟨[], by simp [parseTypeBody]⟩⟩
  | succ n ih =>
    cases ls with
    | nil =>
      exact ⟨⟨[], by simp [parseTypeBody]⟩, ⟨[], by simp [parseTypeBody]⟩,
        ⟨[], by simp [parseTypeBody]⟩⟩
    | cons l ls =>
      simp only [parseTypeBody]
      split_ifs
      · exact ih acc ls
      · exact ⟨⟨[], by simp⟩, ⟨[], by simp⟩, ⟨[], by simp⟩⟩
      · split
        · obtain ⟨⟨ms, hms⟩, ⟨fs, hfs⟩, ⟨es, hes⟩⟩ :=
            ih { acc with fields := acc.fields ++ (parseFields n l.indent ls).1 }
              (parseFields n l.indent ls).2
          exact ⟨⟨ms, hms⟩, ⟨(parseFields n l.indent ls).1 ++ fs, by rw [hfs]; simp⟩, ⟨es, hes⟩⟩
        · obtain ⟨⟨ms, hms⟩, ⟨fs, hfs⟩, ⟨es, hes⟩⟩ :=
            ih { acc with methods := acc.methods ++ (parseFunctions n l.indent ls).1 }
              (parseFunctions n l.indent ls).2
          exact ⟨⟨(parseFunctions n l.indent ls).1 ++ ms, by rw [hms]; simp⟩, ⟨fs, hfs⟩,
            ⟨es, hes⟩⟩
        · exact ih _ _
        · obtain ⟨⟨ms, hms⟩, ⟨fs, hfs⟩, ⟨es, hes⟩⟩ :=
            ih { acc with examples := acc.examples ++ (parseExamples n l.indent ls).1 }
              (parseExamples n l.indent ls).2
          exact ⟨⟨ms, hms⟩, ⟨fs, hfs⟩,
            ⟨(parseExamples n l.indent ls).1 ++ es, by rw [hes]; simp⟩⟩
        · exact ih acc ls

/-! ### From the document down to an entity -/

theorem classify_nil : classify [] = LineClass.PlainText := by decide

theorem text_ne_nil_of_keyword {text : Str} {k : Keyword}
    (h : classify text = LineClass.SectionKeyword k) : text ≠ [] := by
  intro h0
  rw [h0, classify_nil] at h
  cases h

theorem readDescription_keyword (d ws : Nat) (kw : Str) (k : Keyword) (tl : List Line)
    (hkw : classify kw = LineClass.SectionKeyword k) :
    readDescription d (⟨ws, kw⟩ :: tl) = ([], ⟨ws, kw⟩ :: tl) := by
  apply readDescription_ends
  intro l hl
  simp only [List.head?_cons, Option.mem_def, Option.some.injEq] at hl
  subst hl
  refine ⟨text_ne_nil_of_keyword hkw, Or.inr ?_⟩
  simp only [hkw]
  intro h
  cases h

theorem readDocDescription_keyword (d ws : Nat) (kw : Str) (k : Keyword) (tl : List Line)
    (hkw : classify kw = LineClass.SectionKeyword k) :
    readDocDescription d (⟨ws, kw⟩ :: tl) = ([], ⟨ws, kw⟩ :: tl) := by
  apply readDocDescription_ends
  intro l hl
  simp only [List.head?_cons, Option.mem_def, Option.some.injEq] at hl
  subst hl
  refine ⟨text_ne_nil_of_keyword hkw, Or.inr ?_⟩
  simp only [hkw]
  intro h
  cases h

/-- A document whose description block `DD` is followed by a section keyword: the body
parser runs on the lines from the keyword line on. -/
theorem parseFirstLines_section (pre DD : List Line) (h s : Nat) (htext name kw : Str)
    (k : Keyword) (tl : List Line) (hpre : findHeader pre = none)
    (hDD : docDescriptionLines h DD)
    (hh : classify htext = LineClass.HeaderStart name) (hname : name ≠ [])
    (hkw : classify kw = LineClass.SectionKeyword k) :
    parseFirstLines (pre ++ ⟨h, htext⟩ :: (DD ++ ⟨s, kw⟩ :: tl)) = Except.ok
      ⟨name, (parseDocBody (tl.length + 1) h ⟨[], [], []⟩ (⟨s, kw⟩ :: tl)).1.path,
        joinDescription (DD.map Line.text),
        (parseDocBody (tl.length + 1) h ⟨[], [], []⟩ (⟨s, kw⟩ :: tl)).1.functions,
        (parseDocBody (tl.length + 1) h ⟨[], [], []⟩ (⟨s, kw⟩ :: tl)).1.types⟩ := by
  have hfind := findHeader_append pre ⟨h, htext⟩ (DD ++ ⟨s, kw⟩ :: tl) name hpre hh
  rw [parseFirstLines_of_header _ _ _ _ hfind hname]
  simp only [readDocDescription_append h DD _ hDD, readDocDescription_keyword h s kw k tl hkw,
    List.length_cons, List.append_nil]

theorem parseDocBody_functions_first (n h s : Nat) (kw : Str) (tl : List Line)
    (hkw : classify kw = LineClass.SectionKeyword Keyword.functions) (hs : h ≤ s) :
    ∃ more, (parseDocBody (n + 1) h ⟨[], [], []⟩ (⟨s, kw⟩ :: tl)).1.functions =
      (parseFunctions n s tl).1 ++ more := by
  simp only [parseDocBody]
  rw [if_neg (text_ne_nil_of_keyword hkw), if_neg (by simpa using hs), hkw]
  simp only
  obtain ⟨fs, hfs⟩ := (parseDocBody_extends n h
    { path := [], functions := [] ++ (parseFunctions n s tl).1, types := [] }
    (parseFunctions n s tl).2).1
  exact ⟨fs, by rw [hfs]; simp⟩

theorem parseDocBody_types_first (n h s : Nat) (kw : Str) (tl : List Line)
    (hkw : classify kw = LineClass.SectionKeyword Keyword.types) (hs : h ≤ s) :
    ∃ more, (parseDocBody (n + 1) h ⟨[], [], []⟩ (⟨s, kw⟩ :: tl)).1.types =
      (parseTypes n s tl).1 ++ more := by
  simp only [parseDocBody]
  rw [if_neg (text_ne_nil_of_keyword hkw), if_neg (by simpa using hs), hkw]
  simp only
  obtain ⟨ts, hts⟩ := (parseDocBody_extends n h
    { path := [], functions := [], types := [] ++ (parseTypes n s tl).1 }
    (parseTypes n s tl).2).2
  exact ⟨ts, by rw [hts]; simp⟩

theorem parseFunctionBody_params_first (n d s : Nat) (kw : Str) (tl : List Line)
    (hkw : classify kw = LineClass.SectionKeyword Keyword.params) (hs : d < s) :
    ∃ more, (parseFunctionBody (n + 1) d ⟨[], []⟩ (⟨s, kw⟩ :: tl)).1.params =
      (parseParams n s tl).1 ++ more := by
  simp only [parseFunctionBody]
  rw [if_neg (text_ne_nil_of_keyword hkw), if_neg (by simpa using hs), hkw]
  simp only
  obtain ⟨ps, hps⟩ := (parseFunctionBody_extends n d
    { params := [] ++ (parseParams n s tl).1, examples := [] } (parseParams n s tl).2).1
  exact ⟨ps, by rw [hps]; simp⟩

theorem parseFunctionBody_examples_first (n d s : Nat) (kw : Str) (tl : List Line)
    (hkw : classify kw = LineClass.SectionKeyword Keyword.examples) (hs : d < s) :
    ∃ more, (parseFunctionBody (n + 1) d ⟨[], []⟩ (⟨s, kw⟩ :: tl)).1.examples =
      (parseExamples n s tl).1 ++ more := by
  simp only [parseFunctionBody]
  rw [if_neg (text_ne_nil_of_keyword hkw), if_neg (by simpa using hs), hkw]
  simp only
  obtain ⟨es, hes⟩ := (parseFunctionBody_extends n d
    { params := [], examples := [] ++ (parseExamples n s tl).1 } (parseExamples n s tl).2).2
  exact ⟨es, by rw [hes]; simp⟩

theorem parseTypeBody_fields_first (n d s : Nat) (kw : Str) (tl : List Line)
    (hkw : classify kw = LineClass.SectionKeyword Keyword.fields) (hs : d < s) :
    ∃ more, (parseTypeBody (n + 1) d ⟨[], [], [], []⟩ (⟨s, kw⟩ :: tl)).1.fields =
      (parseFields n s tl).1 ++ more := by
  simp only [parseTypeBody]
  rw [if_neg (text_ne_nil_of_keyword hkw), if_neg (by simpa using hs), hkw]
  simp only
  obtain ⟨fs, hfs⟩ := (parseTypeBody_extends n d
    { methods := [], fields := [] ++ (parseFields n s tl).1, operators := [], examples := [] }
    (parseFields n s tl).2).2.1
  exact ⟨fs, by rw [hfs]; simp⟩

theorem parseTypeBody_methods_first (n d s : Nat) (kw : Str) (tl : List Line)
    (hkw : classify kw = LineClass.SectionKeyword Keyword.methods) (hs : d < s) :
    ∃ more, (parseTypeBody (n + 1) d ⟨[], [], [], []⟩ (⟨s, kw⟩ :: tl)).1.methods =
      (parseFunctions n s tl).1 ++ more := by
  simp only [parseTypeBody]
  rw [if_neg (text_ne_nil_of_keyword hkw), if_neg (by simpa using hs), hkw]
  simp only
  obtain ⟨ms, hms⟩ := (parseTypeBody_extends n d
    { methods := [] ++ (parseFunctions n s tl).1, fields := [], operators := [], examples := [] }
    (parseFunctions n s tl).2).1
  exact ⟨ms, by rw [hms]; simp⟩

theorem parseTypeBody_examples_first (n d s : Nat) (kw : Str) (tl : List Line)
    (hkw : classify kw = LineClass.SectionKeyword Keyword.examples) (hs : d < s) :
    ∃ more, (parseTypeBody (n + 1) d ⟨[], [], [], []⟩ (⟨s, kw⟩ :: tl)).1.examples =
      (parseExamples n s tl).1 ++ more := by
  simp only [parseTypeBody]
  rw [if_neg (text_ne_nil_of_keyword hkw), if_neg (by simpa using hs), hkw]
  simp only
  obtain ⟨es, hes⟩ := (parseTypeBody_extends n d
    { methods := [], fields := [], operators := [], examples := [] ++ (parseExamples n s tl).1 }
    (parseExamples n s tl).2).2.2
  exact ⟨es, by rw [hes]; simp⟩

/-- The first function of a document whose description block `DD` is followed by
`functions:`. -/
theorem parseFirstLines_first_function (pre DD : List Line) (h s d : Nat)
    (htext name fkw sig : Str) (tl : List Line) (hpre : findHeader pre = none)
    (hDD : docDescriptionLines h DD)
    (hh : classify htext = LineClass.HeaderStart name) (hname : name ≠ [])
    (hfkw : classify fkw = LineClass.SectionKeyword Keyword.functions) (hs : h ≤ s)
    (hsig : sig ≠ []) (hd : s < d) :
    ∃ doc more, parseFirstLines (pre ++ ⟨h, htext⟩ :: (DD ++ ⟨s, fkw⟩ :: ⟨d, sig⟩ :: tl)) =
        Except.ok doc ∧ doc.Name = name ∧
      doc.Functions =
        ⟨sig, joinDescription (readDescription d tl).1,
          (parseFunctionBody tl.length d ⟨[], []⟩ (readDescription d tl).2).1.params,
          (parseFunctionBody tl.length d ⟨[], []⟩ (readDescription d tl).2).1.examples⟩ ::
          more := by
  obtain ⟨more, hmore⟩ := parseDocBody_functions_first (tl.length + 1) h s fkw
    (⟨d, sig⟩ :: tl) hfkw hs
  rw [parseFunctions_cons tl.length s d sig tl hsig hd] at hmore
  refine ⟨_, (parseFunctions tl.length s
      (parseFunctionBody tl.length d ⟨[], []⟩ (readDescription d tl).2).2).1 ++ more,
    parseFirstLines_section pre DD h s htext name fkw _ (⟨d, sig⟩ :: tl) hpre hDD hh hname hfkw,
    rfl, ?_⟩
  simp only [List.length_cons]
  rw [hmore]
  rfl

/-- The first type of a document whose description block `DD` is followed by `types:`. -/
theorem parseFirstLines_first_type (pre DD : List Line) (h s d : Nat)
    (htext name tkw tname : Str) (tl : List Line) (hpre : findHeader pre = none)
    (hDD : docDescriptionLines h DD)
    (hh : classify htext = LineClass.HeaderStart name) (hname : name ≠ [])
    (htkw : classify tkw = LineClass.SectionKeyword Keyword.types) (hs : h ≤ s)
    (htname : tname ≠ []) (hd : s < d) :
    ∃ doc more, parseFirstLines (pre ++ ⟨h, htext⟩ :: (DD ++ ⟨s, tkw⟩ :: ⟨d, tname⟩ :: tl)) =
        Except.ok doc ∧ doc.Name = name ∧
      doc.Types =
        ⟨tname, joinDescription (readDescription d tl).1,
          (parseTypeBody tl.length d ⟨[], [], [], []⟩ (readDescription d tl).2).1.methods,
          (parseTypeBody tl.length d ⟨[], [], [], []⟩ (readDescription d tl).2).1.fields,
          (parseTypeBody tl.length d ⟨[], [], [], []⟩ (readDescription d tl).2).1.operators,
          (parseTypeBody tl.length d ⟨[], [], [], []⟩ (readDescription d tl).2).1.examples⟩ ::
          more := by
  obtain ⟨more, hmore⟩ := parseDocBody_types_first (tl.length + 1) h s tkw
    (⟨d, tname⟩ :: tl) htkw hs
  rw [parseTypes_cons tl.length s d tname tl htname hd] at hmore
  refine ⟨_, (parseTypes tl.length s
      (parseTypeBody tl.length d ⟨[], [], [], []⟩ (readDescription d tl).2).2).1 ++ more,
    parseFirstLines_section pre DD h s htext name tkw _ (⟨d, tname⟩ :: tl) hpre hDD hh hname htkw,
    rfl, ?_⟩
  simp only [List.length_cons]
  rw [hmore]
  rfl

/-- The first entry of a section of entries, with its description block. -/
theorem parseEntries_first {α : Type} (mk : Str → Str → α) (n ws d : Nat) (text : Str)
    (blk : List Line) (htext : text ≠ []) (hws : ws < d) :
    ∃ more, (parseEntries mk (n + 1) ws (⟨d, text⟩ :: blk)).1 =
      mk text (joinDescription (readDescription d blk).1) :: more := by
  rw [parseEntries_cons mk n ws d text blk htext hws]
  exact ⟨_, rfl⟩

theorem parseFunctions_first (n ws d : Nat) (sig : Str) (blk : List Line) (hsig : sig ≠ [])
    (hws : ws < d) :
    ∃ f more, (parseFunctions (n + 1) ws (⟨d, sig⟩ :: blk)).1 = f :: more ∧
      f.Signature = sig ∧ f.Description = joinDescription (readDescription d blk).1 := by
  rw [parseFunctions_cons n ws d sig blk hsig hws]
  exact ⟨_, _, rfl, rfl, rfl⟩

/-- C4: when a document header or an entity declaration of extent `d` is followed by blank
lines `A`, then by the lines `L`, each blank or deeper than `d` and plain text, the first
and the last not blank, then by blank lines `B` and by lines `rest` that are empty or start
with a line ending the block, `ParseFirst` on the lines (after any lines `pre` without a
header and, for an entity, after the description block `DD` of the document) gives that
document, function, type, method, field, param or example the description made of the
texts of `L` joined by one line break per line: an interior blank line stays as an empty
line and there is no blank line at either end. -/
theorem description_joined (d : Nat) (A L B rest : List Line) (hA : ∀ l ∈ A, l.text = [])
    (hL : descriptionLines d L) (hfirst : ∀ l ∈ L.head?, l.text ≠ [])
    (hlast : ∀ l ∈ L.getLast?, l.text ≠ []) (hB : ∀ l ∈ B, l.text = [])
    (hrest : endsDescription d rest) :
    (∀ (pre : List Line) (htext name : Str), findHeader pre = none →
      classify htext = LineClass.HeaderStart name → name ≠ [] → endsDocDescription d rest →
      ∃ doc, parseFirstLines (pre ++ ⟨d, htext⟩ :: (A ++ L ++ B ++ rest)) = Except.ok doc ∧
        doc.Name = name ∧ doc.Description = List.intercalate ['\n'] (L.map Line.text)) ∧
    (∀ (pre DD : List Line) (h s : Nat) (htext name fkw sig : Str),
      findHeader pre = none → docDescriptionLines h DD →
      classify htext = LineClass.HeaderStart name → name ≠ [] →
      classify fkw = LineClass.SectionKeyword Keyword.functions → h ≤ s → sig ≠ [] → s < d →
      ∃ doc f fs, parseFirstLines
          (pre ++ ⟨h, htext⟩ :: (DD ++ ⟨s, fkw⟩ :: ⟨d, sig⟩ :: (A ++ L ++ B ++ rest))) =
            Except.ok doc ∧
        doc.Functions = f :: fs ∧ f.Signature = sig ∧
        f.Description = List.intercalate ['\n'] (L.map Line.text)) ∧
    (∀ (pre DD : List Line) (h s : Nat) (htext name tkw tname : Str),
      findHeader pre = none → docDescriptionLines h DD →
      classify htext = LineClass.HeaderStart name → name ≠ [] →
      classify tkw = LineClass.SectionKeyword Keyword.types → h ≤ s → tname ≠ [] → s < d →
      ∃ doc t ts, parseFirstLines
          (pre ++ ⟨h, htext⟩ :: (DD ++ ⟨s, tkw⟩ :: ⟨d, tname⟩ :: (A ++ L ++ B ++ rest))) =
            Except.ok doc ∧
        doc.Types = t :: ts ∧ t.Name = tname ∧
        t.Description = List.intercalate ['\n'] (L.map Line.text)) ∧
    (∀ (pre DD : List Line) (h s e c : Nat) (htext name tkw tname mkw sig : Str),
      findHeader pre = none → docDescriptionLines h DD →
      classify htext = LineClass.HeaderStart name → name ≠ [] →
      classify tkw = LineClass.SectionKeyword Keyword.types → h ≤ s → tname ≠ [] → s < e →
      classify mkw = LineClass.SectionKeyword Keyword.methods → e < c → sig ≠ [] → c < d →
      ∃ doc t ts m ms, parseFirstLines
          (pre ++ ⟨h, htext⟩ :: (DD ++ ⟨s, tkw⟩ :: ⟨e, tname⟩ :: ⟨c, mkw⟩ :: ⟨d, sig⟩ ::
            (A ++ L ++ B ++ rest))) = Except.ok doc ∧
        doc.Types = t :: ts ∧ t.Methods = m :: ms ∧ m.Signature = sig ∧
        m.Description = List.intercalate ['\n'] (L.map Line.text)) ∧
    (∀ (pre DD : List Line) (h s e c : Nat) (htext name tkw tname kw text : Str),
      findHeader pre = none → docDescriptionLines h DD →
      classify htext = LineClass.HeaderStart name → name ≠ [] →
      classify tkw = LineClass.SectionKeyword Keyword.types → h ≤ s → tname ≠ [] → s < e →
      classify kw = LineClass.SectionKeyword Keyword.fields → e < c → text ≠ [] → c < d →
      ∃ doc t ts x xs, parseFirstLines
          (pre ++ ⟨h, htext⟩ :: (DD ++ ⟨s, tkw⟩ :: ⟨e, tname⟩ :: ⟨c, kw⟩ :: ⟨d, text⟩ ::
            (A ++ L ++ B ++ rest))) = Except.ok doc ∧
        doc.Types = t :: ts ∧ t.Fields = x :: xs ∧ x.Name = text ∧
        x.Description = List.intercalate ['\n'] (L.map Line.text)) ∧
    (∀ (pre DD : List Line) (h s e c : Nat) (htext name tkw tname kw text : Str),
      findHeader pre = none → docDescriptionLines h DD →
      classify htext = LineClass.HeaderStart name → name ≠ [] →
      classify tkw = LineClass.SectionKeyword Keyword.types → h ≤ s → tname ≠ [] → s < e →
      classify kw = LineClass.SectionKeyword Keyword.examples → e < c → text ≠ [] → c < d →
      ∃ doc t ts x xs, parseFirstLines
          (pre ++ ⟨h, htext⟩ :: (DD ++ ⟨s, tkw⟩ :: ⟨e, tname⟩ :: ⟨c, kw⟩ :: ⟨d, text⟩ ::
            (A ++ L ++ B ++ rest))) = Except.ok doc ∧
        doc.Types = t :: ts ∧ t.Examples = x :: xs ∧ x.Filename = (splitToken text).1 ∧
        x.Description = List.intercalate ['\n'] (L.map Line.text)) ∧
    (∀ (pre DD : List Line) (h s e c : Nat) (htext name fkw sig kw text : Str),
      findHeader pre = none → docDescriptionLines h DD →
      classify htext = LineClass.HeaderStart name → name ≠ [] →
      classify fkw = LineClass.SectionKeyword Keyword.functions → h ≤ s → sig ≠ [] → s < e →
      classify kw = LineClass.SectionKeyword Keyword.params → e < c → text ≠ [] → c < d →
      ∃ doc f fs x xs, parseFirstLines
          (pre ++ ⟨h, htext⟩ :: (DD ++ ⟨s, fkw⟩ :: ⟨e, sig⟩ :: ⟨c, kw⟩ :: ⟨d, text⟩ ::
            (A ++ L ++ B ++ rest))) = Except.ok doc ∧
        doc.Functions = f :: fs ∧ f.Params = x :: xs ∧ x.Name = (splitToken text).1 ∧
        x.Description = List.intercalate ['\n'] (L.map Line.text)) ∧
    (∀ (pre DD : List Line) (h s e c : Nat) (htext name fkw sig kw text : Str),
      findHeader pre = none → docDescriptionLines h DD →
      classify htext = LineClass.HeaderStart name → name ≠ [] →
      classify fkw = LineClass.SectionKeyword Keyword.functions → h ≤ s → sig ≠ [] → s < e →
      classify kw = LineClass.SectionKeyword Keyword.examples → e < c → text ≠ [] → c < d →
      ∃ doc f fs x xs, parseFirstLines
          (pre ++ ⟨h, htext⟩ :: (DD ++ ⟨s, fkw⟩ :: ⟨e, sig⟩ :: ⟨c, kw⟩ :: ⟨d, text⟩ ::
            (A ++ L ++ B ++ rest))) = Except.ok doc ∧
        doc.Functions = f :: fs ∧ f.Examples = x :: xs ∧ x.Filename = (splitToken text).1 ∧
        x.Description = List.intercalate ['\n'] (L.map Line.text)) := by
  have hjoin := joinDescription_readDescription d A L B rest hA hL hfirst hlast hB hrest
  refine ⟨?_, ?_, ?_, ?_, ?_, ?_, ?_, ?_⟩
  · intro pre htext name hpre hh hname hdoc
    have hfind := findHeader_append pre ⟨d, htext⟩ (A ++ L ++ B ++ rest) name hpre hh
    exact ⟨_, parseFirstLines_of_header _ _ _ _ hfind hname, rfl,
      joinDescription_readDocDescription d A L B rest hA hL hfirst hlast hB hdoc⟩
  · intro pre DD h s htext name fkw sig hpre hDD hh hname hfkw hs hsig hd
    obtain ⟨doc, more, hparse, _, hfun⟩ := parseFirstLines_first_function pre DD h s d htext name
      fkw sig (A ++ L ++ B ++ rest) hpre hDD hh hname hfkw hs hsig hd
    exact ⟨doc, _, more, hparse, hfun, rfl, hjoin⟩
  · intro pre DD h s htext name tkw tname hpre hDD hh hname htkw hs htname hd
    obtain ⟨doc, more, hparse, _, htyp⟩ := parseFirstLines_first_type pre DD h s d htext name
      tkw tname (A ++ L ++ B ++ rest) hpre hDD hh hname htkw hs htname hd
    exact ⟨doc, _, more, hparse, htyp, rfl, hjoin⟩
  · intro pre DD h s e c htext name tkw tname mkw sig hpre hDD hh hname htkw hs htname he hmkw hc hsig hd
    obtain ⟨doc, more, hparse, _, htyp⟩ := parseFirstLines_first_type pre DD h s e htext name
      tkw tname (⟨c, mkw⟩ :: ⟨d, sig⟩ :: (A ++ L ++ B ++ rest)) hpre hDD hh hname htkw hs htname he
    obtain ⟨m1, hm1⟩ := parseTypeBody_methods_first ((A ++ L ++ B ++ rest).length + 1) e c mkw
      (⟨d, sig⟩ :: (A ++ L ++ B ++ rest)) hmkw hc
    obtain ⟨f, m2, hf, hfsig, hfdesc⟩ := parseFunctions_first (A ++ L ++ B ++ rest).length c d sig
      (A ++ L ++ B ++ rest) hsig hd
    have hsub : (parseTypeBody (⟨c, mkw⟩ :: ⟨d, sig⟩ :: (A ++ L ++ B ++ rest)).length e
        ⟨[], [], [], []⟩
        (readDescription e (⟨c, mkw⟩ :: ⟨d, sig⟩ :: (A ++ L ++ B ++ rest))).2).1.methods =
        f :: (m2 ++ m1) := by
      rw [readDescription_keyword e c mkw _ _ hmkw]
      simp only [List.length_cons]
      rw [hm1, hf]
      rfl
    exact ⟨doc, _, more, f, m2 ++ m1, hparse, htyp, hsub, hfsig, hfdesc.trans hjoin⟩
  · intro pre DD h s e c htext name tkw tname kw text hpre hDD hh hname htkw hs htname he hkw hc htext0
      hd
    obtain ⟨doc, more, hparse, _, htyp⟩ := parseFirstLines_first_type pre DD h s e htext name
      tkw tname (⟨c, kw⟩ :: ⟨d, text⟩ :: (A ++ L ++ B ++ rest)) hpre hDD hh hname htkw hs htname he
    obtain ⟨m1, hm1⟩ := parseTypeBody_fields_first ((A ++ L ++ B ++ rest).length + 1) e c kw
      (⟨d, text⟩ :: (A ++ L ++ B ++ rest)) hkw hc
    obtain ⟨m2, hx⟩ := parseEntries_first mkField (A ++ L ++ B ++ rest).length c d text
      (A ++ L ++ B ++ rest) htext0 hd
    have hsub : (parseTypeBody (⟨c, kw⟩ :: ⟨d, text⟩ :: (A ++ L ++ B ++ rest)).length e
        ⟨[], [], [], []⟩
        (readDescription e (⟨c, kw⟩ :: ⟨d, text⟩ :: (A ++ L ++ B ++ rest))).2).1.fields =
        mkField text (joinDescription (readDescription d (A ++ L ++ B ++ rest)).1) ::
          (m2 ++ m1) := by
      rw [readDescription_keyword e c kw _ _ hkw]
      simp only [List.length_cons]
      rw [hm1]
      unfold parseFields
      rw [hx]
      rfl
    exact ⟨doc, _, more, _, m2 ++ m1, hparse, htyp, hsub, rfl, hjoin⟩
  · intro pre DD h s e c htext name tkw tname kw text hpre hDD hh hname htkw hs htname he hkw hc htext0
      hd
    obtain ⟨doc, more, hparse, _, htyp⟩ := parseFirstLines_first_type pre DD h s e htext name
      tkw tname (⟨c, kw⟩ :: ⟨d, text⟩ :: (A ++ L ++ B ++ rest)) hpre hDD hh hname htkw hs htname he
    obtain ⟨m1, hm1⟩ := parseTypeBody_examples_first ((A ++ L ++ B ++ rest).length + 1) e c kw
      (⟨d, text⟩ :: (A ++ L ++ B ++ rest)) hkw hc
    obtain ⟨m2, hx⟩ := parseEntries_first mkExample (A ++ L ++ B ++ rest).length c d text
      (A ++ L ++ B ++ rest) htext0 hd
    have hsub : (parseTypeBody (⟨c, kw⟩ :: ⟨d, text⟩ :: (A ++ L ++ B ++ rest)).length e
        ⟨[], [], [], []⟩
        (readDescription e (⟨c, kw⟩ :: ⟨d, text⟩ :: (A ++ L ++ B ++ rest))).2).1.examples =
        mkExample text (joinDescription (readDescription d (A ++ L ++ B ++ rest)).1) ::
          (m2 ++ m1) := by
      rw [readDescription_keyword e c kw _ _ hkw]
      simp only [List.length_cons]
      rw [hm1]
      unfold parseExamples
      rw [hx]
      rfl
    exact ⟨doc, _, more, _, m2 ++ m1, hparse, htyp, hsub, rfl, hjoin⟩
  · intro pre DD h s e c htext name fkw sig kw text hpre hDD hh hname hfkw hs hsig he hkw hc htext0 hd
    obtain ⟨doc, more, hparse, _, hfun⟩ := parseFirstLines_first_function pre DD h s e htext name
      fkw sig (⟨c, kw⟩ :: ⟨d, text⟩ :: (A ++ L ++ B ++ rest)) hpre hDD hh hname hfkw hs hsig he
    obtain ⟨m1, hm1⟩ := parseFunctionBody_params_first ((A ++ L ++ B ++ rest).length + 1) e c kw
      (⟨d, text⟩ :: (A ++ L ++ B ++ rest)) hkw hc
    obtain ⟨m2, hx⟩ := parseEntries_first mkParam (A ++ L ++ B ++ rest).length c d text
      (A ++ L ++ B ++ rest) htext0 hd
    have hsub : (parseFunctionBody (⟨c, kw⟩ :: ⟨d, text⟩ :: (A ++ L ++ B ++ rest)).length e
        ⟨[], []⟩
        (readDescription e (⟨c, kw⟩ :: ⟨d, text⟩ :: (A ++ L ++ B ++ rest))).2).1.params =
        mkParam text (joinDescription (readDescription d (A ++ L ++ B ++ rest)).1) ::
          (m2 ++ m1) := by
      rw [readDescription_keyword e c kw _ _ hkw]
      simp only [List.length_cons]
      rw [hm1]
      unfold parseParams
      rw [hx]
      rfl
    exact ⟨doc, _, more, _, m2 ++ m1, hparse, hfun, hsub, rfl, hjoin⟩
  · intro pre DD h s e c htext name fkw sig kw text hpre hDD hh hname hfkw hs hsig he hkw hc htext0 hd
    obtain ⟨doc, more, hparse, _, hfun⟩ := parseFirstLines_first_function pre DD h s e htext name
      fkw sig (⟨c, kw⟩ :: ⟨d, text⟩ :: (A ++ L ++ B ++ rest)) hpre hDD hh hname hfkw hs hsig he
    obtain ⟨m1, hm1⟩ := parseFunctionBody_examples_first ((A ++ L ++ B ++ rest).length + 1) e c
      kw (⟨d, text⟩ :: (A ++ L ++ B ++ rest)) hkw hc
    obtain ⟨m2, hx⟩ := parseEntries_first mkExample (A ++ L ++ B ++ rest).length c d text
      (A ++ L ++ B ++ rest) htext0 hd
    have hsub : (parseFunctionBody (⟨c, kw⟩ :: ⟨d, text⟩ :: (A ++ L ++ B ++ rest)).length e
        ⟨[], []⟩
        (readDescription e (⟨c, kw⟩ :: ⟨d, text⟩ :: (A ++ L ++ B ++ rest))).2).1.examples =
        mkExample text (joinDescription (readDescription d (A ++ L ++ B ++ rest)).1) ::
          (m2 ++ m1) := by
      rw [readDescription_keyword e c kw _ _ hkw]
      simp only [List.length_cons]
      rw [hm1]
      unfold parseExamples
      rw [hx]
      rfl
    exact ⟨doc, _, more, _, m2 ++ m1, hparse, hfun, hsub, rfl, hjoin⟩

/-! ### Sections of entries -/

theorem endsBlock_mono {d e : Nat} {rest : List Line} (h : endsBlock d rest) (hde : d ≤ e) :
    endsBlock e rest := fun l hl => ⟨(h l hl).1, le_trans (h l hl).2 hde⟩

theorem parseEntries_ends {α : Type} (mk : Str → Str → α) (fuel ws : Nat) (rest : List Line)
    (h : endsBlock ws rest) : parseEntries mk fuel ws rest = ([], rest) := by
  cases fuel with
  | zero => simp [parseEntries]
  | succ n =>
    cases rest with
    | nil => simp [parseEntries]
    | cons l ls =>
      have := h l (by simp)
      simp only [parseEntries]
      rw [if_neg this.1, if_pos this.2]

theorem readDescription_before_end (d : Nat) (body X : List Line) (hX : endsBlock d X) :
    readDescription d (body ++ X) =
      ((readDescription d body).1, (readDescription d body).2 ++ X) := by
  induction body with
  | nil =>
    simpa [readDescription] using readDescription_ends d X (endsDescription_of_endsBlock hX)
  | cons l body ih =>
    rw [List.cons_append]
    unfold readDescription
    split_ifs
    · rw [ih]
    · simp

theorem readDescription_rest_mem (d : Nat) (body : List Line) :
    ∀ l ∈ (readDescription d body).2, l ∈ body := by
  induction body with
  | nil => simp [readDescription]
  | cons x body ih =>
    unfold readDescription
    split_ifs
    · intro l hl
      exact List.mem_cons_of_mem x (ih l hl)
    · intro l hl
      exact hl

theorem readBlock_rest_mem (d : Nat) (body : List Line) :
    ∀ l ∈ (readBlock d body).2, l ∈ body := by
  induction body with
  | nil => simp [readBlock]
  | cons x body ih =>
    unfold readBlock
    split_ifs
    · intro l hl
      exact List.mem_cons_of_mem x (ih l hl)
    · intro l hl
      exact hl

theorem parseEntries_rest_mem {α : Type} (mk : Str → Str → α) (fuel d : Nat)
    (ls : List Line) : ∀ l ∈ (parseEntries mk fuel d ls).2, l ∈ ls := by
  induction fuel generalizing ls with
  | zero => simp [parseEntries]
  | succ n ih =>
    cases ls with
    | nil => simp [parseEntries]
    | cons x ls =>
      simp only [parseEntries]
      split_ifs
      · intro l hl
        exact List.mem_cons_of_mem x (ih ls l hl)
      · intro l hl
        exact hl
      · intro l hl
        exact List.mem_cons_of_mem x
          (readDescription_rest_mem _ _ l (readBlock_rest_mem _ _ l (ih _ l hl)))

theorem parseFunctionBody_rest_mem (fuel d : Nat) (acc : FunctionBody) (ls : List Line) :
    ∀ l ∈ (parseFunctionBody fuel d acc ls).2, l ∈ ls := by
  induction fuel generalizing acc ls with
  | zero => simp [parseFunctionBody]
  | succ n ih =>
    cases ls with
    | nil => simp [parseFunctionBody]
    | cons x ls =>
      simp only [parseFunctionBody]
      split_ifs
      · intro l hl
        exact List.mem_cons_of_mem x (ih _ ls l hl)
      · intro l hl
        exact hl
      · split
        · intro l hl
          exact List.mem_cons_of_mem x (parseEntries_rest_mem mkParam n x.indent ls l (ih _ _ l hl))
        · intro l hl
          exact List.mem_cons_of_mem x
            (parseEntries_rest_mem mkExample n x.indent ls l (ih _ _ l hl))
        · intro l hl
          exact List.mem_cons_of_mem x (ih _ ls l hl)

theorem parseFunctions_rest_mem (fuel d : Nat) (ls : List Line) :
    ∀ l ∈ (parseFunctions fuel d ls).2, l ∈ ls := by
  induction fuel generalizing ls with
  | zero => simp [parseFunctions]
  | succ n ih =>
    cases ls with
    | nil => simp [parseFunctions]
    | cons x ls =>
      simp only [parseFunctions]
      split_ifs
      · intro l hl
        exact List.mem_cons_of_mem x (ih ls l hl)
      · intro l hl
        exact hl
      · intro l hl
        exact List.mem_cons_of_mem x
          (readDescription_rest_mem _ _ l (parseFunctionBody_rest_mem _ _ _ _ l (ih _ l hl)))

/-- Lines that hold no `examples:` keyword line add no Example to a function. -/
theorem parseFunctionBody_no_examples (fuel d : Nat) (acc : FunctionBody) (ls : List Line)
    (h : ∀ l ∈ ls, classify l.text ≠ LineClass.SectionKeyword Keyword.examples) :
    (parseFunctionBody fuel d acc ls).1.examples = acc.examples := by
  induction fuel generalizing acc ls with
  | zero => simp [parseFunctionBody]
  | succ n ih =>
    cases ls with
    | nil => simp [parseFunctionBody]
    | cons x ls =>
      have hx := h x (List.mem_cons_self x ls)
      have hls : ∀ l ∈ ls, classify l.text ≠ LineClass.SectionKeyword Keyword.examples :=
        fun l hl => h l (List.mem_cons_of_mem x hl)
      simp only [parseFunctionBody]
      split_ifs
      · exact ih acc ls hls
      · rfl
      · split
        · exact ih _ _ (fun l hl => hls l (parseEntries_rest_mem mkParam n x.indent ls l hl))
        · rename_i hc
          exact absurd hc hx
        · exact ih acc ls hls

/-- Lines that hold no `examples:` keyword line add no Example to a type. -/
theorem parseTypeBody_no_examples (fuel d : Nat) (acc : TypeBody) (ls : List Line)
    (h : ∀ l ∈ ls, classify l.text ≠ LineClass.SectionKeyword Keyword.examples) :
    (parseTypeBody fuel d acc ls).1.examples = acc.examples := by
  induction fuel generalizing acc ls with
  | zero => simp [parseTypeBody]
  | succ n ih =>
    cases ls with
    | nil => simp [parseTypeBody]
    | cons x ls =>
      have hx := h x (List.mem_cons_self x ls)
      have hls : ∀ l ∈ ls, classify l.text ≠ LineClass.SectionKeyword Keyword.examples :=
        fun l hl => h l (List.mem_cons_of_mem x hl)
      simp only [parseTypeBody]
      split_ifs
      · exact ih acc ls hls
      · rfl
      · split
        · exact ih _ _ (fun l hl => hls l (parseEntries_rest_mem mkField n x.indent ls l hl))
        · exact ih _ _ (fun l hl => hls l (parseFunctions_rest_mem n x.indent ls l hl))
        · exact ih _ _ (fun l hl => hls l (readBlock_rest_mem x.indent ls l hl))
        · rename_i hc
          exact absurd hc hx
        · exact ih acc ls hls

theorem readBlock_after_description (d : Nat) (body X : List Line)
    (hbody : ∀ b ∈ body, b.text = [] ∨ d < b.indent) (hX : endsBlock d X) :
    (readBlock d (readDescription d (body ++ X)).2).2 = X := by
  rw [readDescription_before_end d body X hX]
  simp only
  rw [readBlock_append d _ X (fun l hl => hbody l (readDescription_rest_mem d body l hl)),
    readBlock_ends d X hX]

theorem parseEntries_groups {α : Type} (mk : Str → Str → α) (ws : Nat)
    (G : List (Line × List Line)) (rest : List Line) (hG : declarationGroups ws G)
    (hrest : endsBlock ws rest) (fuel : Nat) (hf : (groupLines G ++ rest).length ≤ fuel) :
    parseEntries mk fuel ws (groupLines G ++ rest) =
      (G.map (fun g => mk g.1.text (joinDescription (readDescription g.1.indent g.2).1)),
        rest) := by
  induction G generalizing fuel with
  | nil => simpa [groupLines] using parseEntries_ends mk fuel ws rest hrest
  | cons g G ih =>
    obtain ⟨hg, hchain, hG'⟩ := hG
    have hlines : groupLines (g :: G) ++ rest = g.1 :: (g.2 ++ (groupLines G ++ rest)) := by
      simp [groupLines]
    rw [hlines] at hf ⊢
    cases fuel with
    | zero => simp at hf
    | succ n =>
      have hnext : endsBlock g.1.indent (groupLines G ++ rest) := by
        cases G with
        | nil => simpa [groupLines] using endsBlock_mono hrest (le_of_lt hg.2.1)
        | cons h G =>
          intro l hl
          have hh := hG'.1
          have hc : h.1.indent ≤ g.1.indent := hchain h (by simp)
          simp only [groupLines, List.flatMap_cons, List.cons_append, List.head?_cons,
            Option.mem_def, Option.some.injEq] at hl
          subst hl
          exact ⟨hh.1, hc⟩
      simp only [List.length_cons, List.length_append] at hf
      simp only [parseEntries]
      rw [if_neg hg.1, if_neg (by have := hg.2.1; omega)]
      rw [readBlock_after_description _ _ _ hg.2.2 hnext,
        readDescription_before_end _ _ _ hnext]
      rw [ih hG' n (by simp only [List.length_append]; omega)]
      simp

theorem dropWhile_append_of_all {p : Char → Bool} (a b : List Char) (h : ∀ c ∈ a, p c = true) :
    (a ++ b).dropWhile p = b.dropWhile p := by
  induction a with
  | nil => rfl
  | cons x a ih =>
    rw [List.cons_append, List.dropWhile_cons, h x (List.mem_cons_self x a)]
    simp only [if_true]
    exact ih (fun c hc => h c (List.mem_cons_of_mem x hc))

theorem takeWhile_append_of_all {p : Char → Bool} (a b : List Char) (h : ∀ c ∈ a, p c = true) :
    (a ++ b).takeWhile p = a ++ b.takeWhile p := by
  induction a with
  | nil => rfl
  | cons x a ih =>
    rw [List.cons_append, List.takeWhile_cons, h x (List.mem_cons_self x a)]
    simp only [if_true]
    rw [ih (fun c hc => h c (List.mem_cons_of_mem x hc))]
    rfl

theorem dropWhile_of_head {p : Char → Bool} (b : List Char) (h : ∀ c ∈ b.head?, p c = false) :
    b.dropWhile p = b := by
  cases b with
  | nil => rfl
  | cons x b =>
    rw [List.dropWhile_cons, h x (by simp)]
    simp

theorem takeWhile_of_head {p : Char → Bool} (b : List Char) (h : ∀ c ∈ b.head?, p c = false) :
    b.takeWhile p = [] := by
  cases b with
  | nil => rfl
  | cons x b =>
    rw [List.takeWhile_cons, h x (by simp)]
    simp

/-- The first whitespace-delimited token and the remainder of `tok ++ sp ++ rem`. -/
theorem splitToken_spec (tok sp rem : Str) (htok : ∀ c ∈ tok, c.isWhitespace = false)
    (hsp : ∀ c ∈ sp, c.isWhitespace = true) (hsp0 : rem ≠ [] → sp ≠ [])
    (hrem : ∀ c ∈ rem.head?, c.isWhitespace = false) :
    splitToken (tok ++ sp ++ rem) = (tok, rem) := by
  have hhead : ∀ c ∈ (sp ++ rem).head?, (!c.isWhitespace) = false := by
    intro c hc
    cases sp with
    | nil =>
      simp only [List.nil_append] at hc
      have hne : rem ≠ [] := by
        intro h
        rw [h] at hc
        simp at hc
      exact absurd rfl (hsp0 hne)
    | cons s sp =>
      simp only [List.cons_append, List.head?_cons, Option.mem_def, Option.some.injEq] at hc
      subst hc
      simp [hsp s (by simp)]
  unfold splitToken trimLeft
  rw [List.append_assoc]
  rw [takeWhile_append_of_all tok _ (fun c hc => by simp [htok c hc]),
    dropWhile_append_of_all tok _ (fun c hc => by simp [htok c hc]),
    takeWhile_of_head _ hhead, dropWhile_of_head _ hhead,
    dropWhile_append_of_all sp _ hsp, dropWhile_of_head _ hrem]
  simp

theorem joinDescription_nil : joinDescription [] = [] := rfl

theorem parseExamples_groups (ws : Nat) (G : List (Line × List Line)) (rest : List Line)
    (hG : declarationGroups ws G) (hrest : endsBlock ws rest) (fuel : Nat)
    (hf : (groupLines G ++ rest).length ≤ fuel) :
    parseExamples fuel ws (groupLines G ++ rest) = (G.map exampleOf, rest) :=
  parseEntries_groups mkExample ws G rest hG hrest fuel hf

theorem parseFunctionBody_examples (ws : Nat) (G : List (Line × List Line)) (rest : List Line)
    (hG : declarationGroups ws G) (hrest : endsBlock ws rest) (fuel d : Nat)
    (acc : FunctionBody) (kw : Str) (hd : d < ws)
    (hkw : classify kw = LineClass.SectionKeyword Keyword.examples)
    (hf : (groupLines G ++ rest).length < fuel) :
    parseFunctionBody fuel d acc (⟨ws, kw⟩ :: (groupLines G ++ rest)) =
      parseFunctionBody rest.length d
        { acc with examples := acc.examples ++ G.map exampleOf } rest := by
  cases fuel with
  | zero => simp at hf
  | succ n =>
    have hlen : rest.length ≤ n := by simp only [List.length_append] at hf; omega
    simp only [parseFunctionBody]
    rw [if_neg (text_ne_nil_of_keyword hkw), if_neg (by simpa using hd), hkw]
    simp only
    rw [parseExamples_groups ws G rest hG hrest n (by omega)]
    exact parseFunctionBody_fuel _ _ _ _ _ hlen (le_refl _)

theorem parseTypeBody_examples (ws : Nat) (G : List (Line × List Line)) (rest : List Line)
    (hG : declarationGroups ws G) (hrest : endsBlock ws rest) (fuel d : Nat)
    (acc : TypeBody) (kw : Str) (hd : d < ws)
    (hkw : classify kw = LineClass.SectionKeyword Keyword.examples)
    (hf : (groupLines G ++ rest).length < fuel) :
    parseTypeBody fuel d acc (⟨ws, kw⟩ :: (groupLines G ++ rest)) =
      parseTypeBody rest.length d
        { acc with examples := acc.examples ++ G.map exampleOf } rest := by
  cases fuel with
  | zero => simp at hf
  | succ n =>
    have hlen : rest.length ≤ n := by simp only [List.length_append] at hf; omega
    simp only [parseTypeBody]
    rw [if_neg (text_ne_nil_of_keyword hkw), if_neg (by simpa using hd), hkw]
    simp only
    rw [parseExamples_groups ws G rest hG hrest n (by omega)]
    exact parseTypeBody_fuel _ _ _ _ _ hlen (le_refl _)

theorem endsBlock_nil (d : Nat) : endsBlock d [] := by
  intro l hl
  simp at hl

theorem parseFirstLines_function_examples (ws : Nat) (G : List (Line × List Line))
    (hG : declarationGroups ws G) (d0 d1 d2 : Nat) (htext name fkw sig ekw : Str)
    (h01 : d0 ≤ d1) (h12 : d1 < d2) (h2 : d2 < ws)
    (hh : classify htext = LineClass.HeaderStart name) (hname : name ≠ [])
    (hfkw : classify fkw = LineClass.SectionKeyword Keyword.functions) (hsig : sig ≠ [])
    (hekw : classify ekw = LineClass.SectionKeyword Keyword.examples) :
    parseFirstLines (⟨d0, htext⟩ :: ⟨d1, fkw⟩ :: ⟨d2, sig⟩ :: ⟨ws, ekw⟩ :: groupLines G) =
      Except.ok ⟨name, [], [], [⟨sig, [], [], G.map exampleOf⟩], []⟩ := by
  have hfind := findHeader_append [] ⟨d0, htext⟩
    (⟨d1, fkw⟩ :: ⟨d2, sig⟩ :: ⟨ws, ekw⟩ :: groupLines G) name rfl hh
  rw [List.nil_append] at hfind
  rw [parseFirstLines_of_header _ _ _ _ hfind hname]
  have hbody : parseFunctionBody ((groupLines G).length + 1) d2 ⟨[], []⟩
      (⟨ws, ekw⟩ :: groupLines G) = (⟨[], G.map exampleOf⟩, []) := by
    have := parseFunctionBody_examples ws G [] hG (endsBlock_nil ws)
      ((groupLines G).length + 1) d2 ⟨[], []⟩ ekw h2 hekw (by simp)
    rw [List.append_nil] at this
    rw [this]
    simp [parseFunctionBody]
  have hfun : parseFunctions ((groupLines G).length + 2) d1
      (⟨d2, sig⟩ :: ⟨ws, ekw⟩ :: groupLines G) =
      ([⟨sig, [], [], G.map exampleOf⟩], []) := by
    rw [parseFunctions_cons _ d1 d2 sig _ hsig h12,
      readDescription_keyword d2 ws ekw _ _ hekw, hbody]
    simp [parseFunctions, joinDescription_nil]
  have hdoc : parseDocBody ((groupLines G).length + 3) d0 ⟨[], [], []⟩
      (⟨d1, fkw⟩ :: ⟨d2, sig⟩ :: ⟨ws, ekw⟩ :: groupLines G) =
      (⟨[], [⟨sig, [], [], G.map exampleOf⟩], []⟩, []) := by
    simp only [parseDocBody]
    rw [if_neg (text_ne_nil_of_keyword hfkw), if_neg (by simpa using h01), hfkw]
    simp only
    rw [hfun]
    simp [parseDocBody]
  have hlen : (⟨d1, fkw⟩ :: ⟨d2, sig⟩ :: ⟨ws, ekw⟩ :: groupLines G : List Line).length =
      (groupLines G).length + 3 := by simp
  rw [readDocDescription_keyword d0 d1 fkw _ _ hfkw]
  simp only
  rw [hlen, hdoc]
  simp [joinDescription_nil]

theorem parseFirstLines_type_examples (ws : Nat) (G : List (Line × List Line))
    (hG : declarationGroups ws G) (d0 d1 d2 : Nat) (htext name tkw tname ekw : Str)
    (h01 : d0 ≤ d1) (h12 : d1 < d2) (h2 : d2 < ws)
    (hh : classify htext = LineClass.HeaderStart name) (hname : name ≠ [])
    (htkw : classify tkw = LineClass.SectionKeyword Keyword.types) (htname : tname ≠ [])
    (hekw : classify ekw = LineClass.SectionKeyword Keyword.examples) :
    parseFirstLines (⟨d0, htext⟩ :: ⟨d1, tkw⟩ :: ⟨d2, tname⟩ :: ⟨ws, ekw⟩ :: groupLines G) =
      Except.ok ⟨name, [], [], [], [⟨tname, [], [], [], [], G.map exampleOf⟩]⟩ := by
  have hfind := findHeader_append [] ⟨d0, htext⟩
    (⟨d1, tkw⟩ :: ⟨d2, tname⟩ :: ⟨ws, ekw⟩ :: groupLines G) name rfl hh
  rw [List.nil_append] at hfind
  rw [parseFirstLines_of_header _ _ _ _ hfind hname]
  have hbody : parseTypeBody ((groupLines G).length + 1) d2 ⟨[], [], [], []⟩
      (⟨ws, ekw⟩ :: groupLines G) = (⟨[], [], [], G.map exampleOf⟩, []) := by
    have := parseTypeBody_examples ws G [] hG (endsBlock_nil ws)
      ((groupLines G).length + 1) d2 ⟨[], [], [], []⟩ ekw h2 hekw (by simp)
    rw [List.append_nil] at this
    rw [this]
    simp [parseTypeBody]
  have htyp : parseTypes ((groupLines G).length + 2) d1
      (⟨d2, tname⟩ :: ⟨ws, ekw⟩ :: groupLines G) =
      ([⟨tname, [], [], [], [], G.map exampleOf⟩], []) := by
    rw [parseTypes_cons _ d1 d2 tname _ htname h12,
      readDescription_keyword d2 ws ekw _ _ hekw, hbody]
    simp [parseTypes, joinDescription_nil]
  have hdoc : parseDocBody ((groupLines G).length + 3) d0 ⟨[], [], []⟩
      (⟨d1, tkw⟩ :: ⟨d2, tname⟩ :: ⟨ws, ekw⟩ :: groupLines G) =
      (⟨[], [], [⟨tname, [], [], [], [], G.map exampleOf⟩]⟩, []) := by
    simp only [parseDocBody]
    rw [if_neg (text_ne_nil_of_keyword htkw), if_neg (by simpa using h01), htkw]
    simp only
    rw [htyp]
    simp [parseDocBody]
  have hlen : (⟨d1, tkw⟩ :: ⟨d2, tname⟩ :: ⟨ws, ekw⟩ :: groupLines G : List Line).length =
      (groupLines G).length + 3 := by simp
  rw [readDocDescription_keyword d0 d1 tkw _ _ htkw]
  simp only
  rw [hlen, hdoc]
  simp [joinDescription_nil]

theorem readDescription_then_keyword (e ws : Nat) (D : List Line) (kw : Str) (k : Keyword)
    (tl : List Line) (hD : descriptionLines e D)
    (hkw : classify kw = LineClass.SectionKeyword k) :
    readDescription e (D ++ ⟨ws, kw⟩ :: tl) = (D.map Line.text, ⟨ws, kw⟩ :: tl) := by
  rw [readDescription_append e D _ hD, readDescription_keyword e ws kw k tl hkw]
  simp

/-- The Examples of the first function of a document: its description block `D`, then an
`examples:` block of the groups `G`, then lines without another `examples:` keyword. -/
theorem parseFirstLines_function_examples_in (ws : Nat) (G : List (Line × List Line))
    (rest : List Line) (hG : declarationGroups ws G) (hrest : endsBlock ws rest)
    (hno : ∀ l ∈ rest, classify l.text ≠ LineClass.SectionKeyword Keyword.examples)
    (pre DD D : List Line) (h s e : Nat) (htext name fkw sig ekw : Str)
    (hpre : findHeader pre = none) (hDD : docDescriptionLines h DD)
    (hh : classify htext = LineClass.HeaderStart name)
    (hname : name ≠ []) (hfkw : classify fkw = LineClass.SectionKeyword Keyword.functions)
    (hs : h ≤ s) (hsig : sig ≠ []) (he : s < e) (hD : descriptionLines e D)
    (hekw : classify ekw = LineClass.SectionKeyword Keyword.examples) (hws : e < ws) :
    ∃ doc f fs, parseFirstLines (pre ++ ⟨h, htext⟩ :: (DD ++ ⟨s, fkw⟩ :: ⟨e, sig⟩ ::
        (D ++ ⟨ws, ekw⟩ :: (groupLines G ++ rest)))) = Except.ok doc ∧
      doc.Functions = f :: fs ∧ f.Signature = sig ∧ f.Examples = G.map exampleOf := by
  obtain ⟨doc, more, hparse, _, hfun⟩ := parseFirstLines_first_function pre DD h s e htext name
    fkw sig (D ++ ⟨ws, ekw⟩ :: (groupLines G ++ rest)) hpre hDD hh hname hfkw hs hsig he
  have hsub : (parseFunctionBody (D ++ ⟨ws, ekw⟩ :: (groupLines G ++ rest)).length e ⟨[], []⟩
      (readDescription e (D ++ ⟨ws, ekw⟩ :: (groupLines G ++ rest))).2).1.examples =
      G.map exampleOf := by
    rw [readDescription_then_keyword e ws D ekw _ _ hD hekw]
    simp only
    rw [parseFunctionBody_examples ws G rest hG hrest _ e ⟨[], []⟩ ekw hws hekw
      (by simp only [List.length_append, List.length_cons]; omega),
      parseFunctionBody_no_examples _ _ _ _ hno]
    rfl
  exact ⟨doc, _, more, hparse, hfun, rfl, hsub⟩

/-- The Examples of the first type of a document: its description block `D`, then an
`examples:` block of the groups `G`, then lines without another `examples:` keyword. -/
theorem parseFirstLines_type_examples_in (ws : Nat) (G : List (Line × List Line))
    (rest : List Line) (hG : declarationGroups ws G) (hrest : endsBlock ws rest)
    (hno : ∀ l ∈ rest, classify l.text ≠ LineClass.SectionKeyword Keyword.examples)
    (pre DD D : List Line) (h s e : Nat) (htext name tkw tname ekw : Str)
    (hpre : findHeader pre = none) (hDD : docDescriptionLines h DD)
    (hh : classify htext = LineClass.HeaderStart name)
    (hname : name ≠ []) (htkw : classify tkw = LineClass.SectionKeyword Keyword.types)
    (hs : h ≤ s) (htname : tname ≠ []) (he : s < e) (hD : descriptionLines e D)
    (hekw : classify ekw = LineClass.SectionKeyword Keyword.examples) (hws : e < ws) :
    ∃ doc t ts, parseFirstLines (pre ++ ⟨h, htext⟩ :: (DD ++ ⟨s, tkw⟩ :: ⟨e, tname⟩ ::
        (D ++ ⟨ws, ekw⟩ :: (groupLines G ++ rest)))) = Except.ok doc ∧
      doc.Types = t :: ts ∧ t.Name = tname ∧ t.Examples = G.map exampleOf := by
  obtain ⟨doc, more, hparse, _, htyp⟩ := parseFirstLines_first_type pre DD h s e htext name
    tkw tname (D ++ ⟨ws, ekw⟩ :: (groupLines G ++ rest)) hpre hDD hh hname htkw hs htname he
  have hsub : (parseTypeBody (D ++ ⟨ws, ekw⟩ :: (groupLines G ++ rest)).length e
      ⟨[], [], [], []⟩
      (readDescription e (D ++ ⟨ws, ekw⟩ :: (groupLines G ++ rest))).2).1.examples =
      G.map exampleOf := by
    rw [readDescription_then_keyword e ws D ekw _ _ hD hekw]
    simp only
    rw [parseTypeBody_examples ws G rest hG hrest _ e ⟨[], [], [], []⟩ ekw hws hekw
      (by simp only [List.length_append, List.length_cons]; omega),
      parseTypeBody_no_examples _ _ _ _ hno]
    rfl
  exact ⟨doc, _, more, hparse, htyp, rfl, hsub⟩

theorem exampleOf_description (g : Line × List Line) (hg : descriptionLines g.1.indent g.2) :
    (exampleOf g).Description = joinDescription (g.2.map Line.text) := by
  have := readDescription_append g.1.indent g.2 [] hg
  rw [List.append_nil] at this
  simp [exampleOf, this, readDescription]

/-- C5: an `examples:` sub-block of `N` declaration groups under a function or a type yields
exactly the `N` Example records of the groups, in input order: the sub-parser returns them
and leaves the following lines, the function (type) body parser appends them to the
Examples read so far, and `ParseFirst` on the lines of a document whose first function
(type) has a description block, that sub-block and then lines without another `examples:`
keyword gives that function (type) exactly these Examples; `filename` is the first
whitespace-delimited token, `name` the remainder of the line (empty when there is none), and
`description` is drawn only from the lines nested under the declaration (all of them when
they are plain text, empty when there are none). -/
theorem examples_block (ws : Nat) (G : List (Line × List Line)) (rest : List Line)
    (hG : declarationGroups ws G) (hrest : endsBlock ws rest) :
    (∀ fuel, (groupLines G ++ rest).length ≤ fuel →
      parseExamples fuel ws (groupLines G ++ rest) = (G.map exampleOf, rest)) ∧
    (G.map exampleOf).length = G.length ∧
    (∀ g ∈ G, g.2 = [] → (exampleOf g).Description = []) ∧
    (∀ g ∈ G, descriptionLines g.1.indent g.2 →
      (exampleOf g).Description = joinDescription (g.2.map Line.text)) ∧
    (∀ (fuel d : Nat) (acc : FunctionBody) (kw : Str), d < ws →
      classify kw = LineClass.SectionKeyword Keyword.examples →
      (groupLines G ++ rest).length < fuel →
      parseFunctionBody fuel d acc (⟨ws, kw⟩ :: (groupLines G ++ rest)) =
        parseFunctionBody rest.length d
          { acc with examples := acc.examples ++ G.map exampleOf } rest) ∧
    (∀ (fuel d : Nat) (acc : TypeBody) (kw : Str), d < ws →
      classify kw = LineClass.SectionKeyword Keyword.examples →
      (groupLines G ++ rest).length < fuel →
      parseTypeBody fuel d acc (⟨ws, kw⟩ :: (groupLines G ++ rest)) =
        parseTypeBody rest.length d
          { acc with examples := acc.examples ++ G.map exampleOf } rest) ∧
    (∀ (d0 d1 d2 : Nat) (htext name fkw sig ekw : Str), d0 ≤ d1 → d1 < d2 → d2 < ws →
      classify htext = LineClass.HeaderStart name → name ≠ [] →
      classify fkw = LineClass.SectionKeyword Keyword.functions → sig ≠ [] →
      classify ekw = LineClass.SectionKeyword Keyword.examples →
      parseFirstLines (⟨d0, htext⟩ :: ⟨d1, fkw⟩ :: ⟨d2, sig⟩ :: ⟨ws, ekw⟩ :: groupLines G) =
        Except.ok ⟨name, [], [], [⟨sig, [], [], G.map exampleOf⟩], []⟩) ∧
    (∀ (d0 d1 d2 : Nat) (htext name tkw tname ekw : Str), d0 ≤ d1 → d1 < d2 → d2 < ws →
      classify htext = LineClass.HeaderStart name → name ≠ [] →
      classify tkw = LineClass.SectionKeyword Keyword.types → tname ≠ [] →
      classify ekw = LineClass.SectionKeyword Keyword.examples →
      parseFirstLines (⟨d0, htext⟩ :: ⟨d1, tkw⟩ :: ⟨d2, tname⟩ :: ⟨ws, ekw⟩ :: groupLines G) =
        Except.ok ⟨name, [], [], [], [⟨tname, [], [], [], [], G.map exampleOf⟩]⟩) ∧
    ((∀ l ∈ rest, classify l.text ≠ LineClass.SectionKeyword Keyword.examples) →
      ∀ (pre DD D : List Line) (h s e : Nat) (htext name fkw sig ekw : Str),
      findHeader pre = none → docDescriptionLines h DD →
      classify htext = LineClass.HeaderStart name → name ≠ [] →
      classify fkw = LineClass.SectionKeyword Keyword.functions → h ≤ s → sig ≠ [] → s < e →
      descriptionLines e D → classify ekw = LineClass.SectionKeyword Keyword.examples →
      e < ws →
      ∃ doc f fs, parseFirstLines (pre ++ ⟨h, htext⟩ :: (DD ++ ⟨s, fkw⟩ :: ⟨e, sig⟩ ::
          (D ++ ⟨ws, ekw⟩ :: (groupLines G ++ rest)))) = Except.ok doc ∧
        doc.Functions = f :: fs ∧ f.Signature = sig ∧ f.Examples = G.map exampleOf) ∧
    ((∀ l ∈ rest, classify l.text ≠ LineClass.SectionKeyword Keyword.examples) →
      ∀ (pre DD D : List Line) (h s e : Nat) (htext name tkw tname ekw : Str),
      findHeader pre = none → docDescriptionLines h DD →
      classify htext = LineClass.HeaderStart name → name ≠ [] →
      classify tkw = LineClass.SectionKeyword Keyword.types → h ≤ s → tname ≠ [] → s < e →
      descriptionLines e D → classify ekw = LineClass.SectionKeyword Keyword.examples →
      e < ws →
      ∃ doc t ts, parseFirstLines (pre ++ ⟨h, htext⟩ :: (DD ++ ⟨s, tkw⟩ :: ⟨e, tname⟩ ::
          (D ++ ⟨ws, ekw⟩ :: (groupLines G ++ rest)))) = Except.ok doc ∧
        doc.Types = t :: ts ∧ t.Name = tname ∧ t.Examples = G.map exampleOf) ∧
    (∀ tok sp rem : Str, (∀ c ∈ tok, c.isWhitespace = false) →
      (∀ c ∈ sp, c.isWhitespace = true) → (rem ≠ [] → sp ≠ []) →
      (∀ c ∈ rem.head?, c.isWhitespace = false) → splitToken (tok ++ sp ++ rem) = (tok, rem)) := by
  refine ⟨fun fuel hf => parseExamples_groups ws G rest hG hrest fuel hf, by simp, ?_,
    fun g _ hg => exampleOf_description g hg,
    fun fuel d acc kw hd hkw hf => parseFunctionBody_examples ws G rest hG hrest fuel d acc kw hd hkw hf,
    fun fuel d acc kw hd hkw hf => parseTypeBody_examples ws G rest hG hrest fuel d acc kw hd hkw hf,
    fun d0 d1 d2 htext name fkw sig ekw h01 h12 h2 hh hname hfkw hsig hekw =>
      parseFirstLines_function_examples ws G hG d0 d1 d2 htext name fkw sig ekw h01 h12 h2 hh hname
        hfkw hsig hekw,
    fun d0 d1 d2 htext name tkw tname ekw h01 h12 h2 hh hname htkw htname hekw =>
      parseFirstLines_type_examples ws G hG d0 d1 d2 htext name tkw tname ekw h01 h12 h2 hh hname
        htkw htname hekw,
    fun hno pre DD D h s e htext name fkw sig ekw hpre hDD hh hname hfkw hs hsig he hD hekw hws =>
      parseFirstLines_function_examples_in ws G rest hG hrest hno pre DD D h s e htext name fkw sig
        ekw hpre hDD hh hname hfkw hs hsig he hD hekw hws,
    fun hno pre DD D h s e htext name tkw tname ekw hpre hDD hh hname htkw hs htname he hD hekw hws =>
      parseFirstLines_type_examples_in ws G rest hG hrest hno pre DD D h s e htext name tkw tname
        ekw hpre hDD hh hname htkw hs htname he hD hekw hws,
    splitToken_spec⟩
  intro g _ hg
  simp [exampleOf, hg, readDescription, joinDescription_nil]

/-! ### Headers -/

theorem classify_not_header {text : Str} (h : stripPrefix "outline:".toList text = none)
    (name : Str) : classify text ≠ LineClass.HeaderStart name := by
  unfold classify
  rw [h]
  simp only
  split
  · simp
  · split <;> simp

theorem findHeader_none (ls : List Line)
    (h : ∀ l ∈ ls, ∀ name, classify l.text ≠ LineClass.HeaderStart name) :
    findHeader ls = none := by
  induction ls with
  | nil => rfl
  | cons l ls ih =>
    have hl := h l (List.mem_cons_self l ls)
    have ih' := ih (fun x hx => h x (List.mem_cons_of_mem l hx))
    unfold findHeader
    cases hc : classify l.text with
    | HeaderStart nm => exact absurd hc (hl nm)
    | PathDirective p => simpa using ih'
    | SectionKeyword k => simpa using ih'
    | PlainText => simpa using ih'

/-- C7: for every input none of whose lines, once trimmed, starts with `outline:`,
`ParseFirst` fails with `MalformedHeader`, whatever the width of a tab; an error carries no
document. -/
theorem ParseFirst_no_header (tabWidth : Nat) (input : Str)
    (h : ∀ raw ∈ splitLines input, stripPrefix "outline:".toList (trim raw) = none) :
    ParseFirst tabWidth input = Except.error ParseError.MalformedHeader := by
  have hnone : findHeader (scanLines tabWidth input) = none := by
    apply findHeader_none
    intro l hl name
    obtain ⟨raw, hraw, rfl⟩ := List.mem_map.1 hl
    exact classify_not_header (h raw hraw) name
  unfold ParseFirst parseFirstLines
  rw [hnone]

/-- Witness of C7 on the two-line input `"nothing\nhere"`. -/
theorem ParseFirst_no_header_witness :
    ParseFirst 2 "nothing\nhere".toList = Except.error ParseError.MalformedHeader :=
  ParseFirst_no_header 2 "nothing\nhere".toList (by decide)

theorem splitLines_ne_nil (s : Str) : splitLines s ≠ [] := by
  cases s with
  | nil => simp [splitLines]
  | cons c cs =>
    unfold splitLines
    split_ifs
    · simp
    · split <;> simp

theorem splitLines_line (s t : Str) (hs : '\n' ∉ s) :
    splitLines (s ++ '\n' :: t) = s :: splitLines t := by
  induction s with
  | nil => simp [splitLines]
  | cons c s ih =>
    have hc : c ≠ '\n' := fun h => hs (by simp [h])
    have hs' : '\n' ∉ s := fun h => hs (List.mem_cons_of_mem c h)
    rw [List.cons_append, splitLines, if_neg hc, ih hs']

theorem stripPrefix_append (p s : Str) : stripPrefix p (p ++ s) = some s := by
  induction p with
  | nil => cases s <;> rfl
  | cons c p ih => simp [stripPrefix, ih]

theorem trimRight_of_getLast {s : Str} (h : ∀ c ∈ s.getLast?, c.isWhitespace = false) :
    trimRight s = s := by
  unfold trimRight
  rw [dropWhile_of_head, List.reverse_reverse]
  intro c hc
  rw [List.head?_reverse] at hc
  exact h c hc

theorem trimLeft_of_head {s : Str} (h : ∀ c ∈ s.head?, c.isWhitespace = false) :
    trimLeft s = s := dropWhile_of_head s h

theorem toLine_header (w : Nat) (X : Str) (hX : isName X) :
    toLine w ("outline: ".toList ++ X) = ⟨0, "outline: ".toList ++ X⟩ := by
  obtain ⟨hne, _, _, hlast⟩ := hX
  have hl : ∀ c ∈ ("outline: ".toList ++ X).getLast?, c.isWhitespace = false := by
    intro c hc
    rw [List.getLast?_append_of_ne_nil _ hne] at hc
    exact hlast c hc
  have e : "outline: ".toList = 'o' :: "utline: ".toList := rfl
  unfold toLine indentOf trim
  rw [trimLeft_of_head (by rw [e]; intro c hc; simp at hc; subst hc; decide),
    trimRight_of_getLast hl]
  rw [e, List.cons_append, List.takeWhile_cons]
  simp [columns]

theorem classify_header (X : Str) (hX : isName X) :
    classify ("outline: ".toList ++ X) = LineClass.HeaderStart X := by
  obtain ⟨_, _, hhead, hlast⟩ := hX
  have e : "outline: ".toList ++ X = "outline:".toList ++ (' ' :: X) := by
    have : "outline: ".toList = "outline:".toList ++ [' '] := rfl
    rw [this, List.append_assoc]; rfl
  unfold classify
  rw [e, stripPrefix_append]
  simp only
  have : trim (' ' :: X) = X := by
    unfold trim
    have h1 : trimLeft (' ' :: X) = X := by
      unfold trimLeft
      rw [List.dropWhile_cons]
      simp only [show Char.isWhitespace ' ' = true from rfl, if_true]
      exact dropWhile_of_head X hhead
    rw [h1, trimRight_of_getLast hlast]
  rw [this]

/-- C3: for every name `X` (not empty, on one line, without whitespace at either end),
`ParseFirst` on the input `"outline: X\n"` succeeds with the document named `X` whose path and
description are empty and whose Functions and Types are empty, whatever the width of a tab. -/
theorem ParseFirst_header_only (tabWidth : Nat) (X : Str) (hX : isName X) :
    ParseFirst tabWidth ("outline: ".toList ++ X ++ "\n".toList) =
      Except.ok ⟨X, [], [], [], []⟩ := by
  have hne := hX.1
  have hnl : '\n' ∉ "outline: ".toList ++ X := by
    intro h
    rcases List.mem_append.1 h with h | h
    · revert h; decide
    · exact hX.2.1 h
  have hlines : scanLines tabWidth ("outline: ".toList ++ X ++ "\n".toList) =
      [⟨0, "outline: ".toList ++ X⟩, ⟨0, []⟩] := by
    unfold scanLines
    have e : "\n".toList = ['\n'] := rfl
    rw [e, splitLines_line _ [] hnl]
    simp only [splitLines, List.map_cons, List.map_nil, toLine_header tabWidth X hX]
    rfl
  have hfind : findHeader [⟨0, "outline: ".toList ++ X⟩, ⟨0, []⟩] = some (0, X, [⟨0, []⟩]) := by
    unfold findHeader
    rw [classify_header X hX]
  unfold ParseFirst
  rw [hlines, parseFirstLines_of_header _ _ _ _ hfind hne]
  rfl

/-- Witness of C3 for the name `foo`. -/
theorem ParseFirst_header_only_witness :
    ParseFirst 2 "outline: foo\n".toList = Except.ok ⟨"foo".toList, [], [], [], []⟩ :=
  ParseFirst_header_only 2 "foo".toList ⟨by decide, by decide, by decide, by decide⟩

/-! ### Lines read from a text -/

theorem toLine_eq (w : Nat) (raw lead text : Str)
    (h1 : raw.takeWhile Char.isWhitespace = lead) (h2 : trim raw = text) :
    toLine w raw = ⟨columns w lead, text⟩ := by
  unfold toLine indentOf
  rw [h1, h2]

/-- The extent of a `path:` line does not matter as long as the line is not shallower than
the header. -/
theorem parseFirstLines_path_line (h p q : Nat) (htext name ptext path : Str)
    (tl : List Line) (hh : classify htext = LineClass.HeaderStart name)
    (hp : classify ptext = LineClass.PathDirective path) (hhp : h ≤ p) (hhq : h ≤ q) :
    parseFirstLines (⟨h, htext⟩ :: ⟨p, ptext⟩ :: tl) =
      parseFirstLines (⟨h, htext⟩ :: ⟨q, ptext⟩ :: tl) := by
  have hne : ptext ≠ [] := by
    intro e
    rw [e, classify_nil] at hp
    exact LineClass.noConfusion hp
  have hd : ∀ x : Nat, readDocDescription h (⟨x, ptext⟩ :: tl) = ([], ⟨x, ptext⟩ :: tl) := by
    intro x
    unfold readDocDescription
    simp [hne, hp]
  have hb : ∀ x : Nat, h ≤ x →
      parseDocBody (tl.length + 1) h ⟨[], [], []⟩ (⟨x, ptext⟩ :: tl) =
        parseDocBody tl.length h ⟨path, [], []⟩ tl := by
    intro x hx
    simp only [parseDocBody, hne, if_false, Nat.not_lt.2 hx, hp]
  unfold parseFirstLines findHeader
  simp only [hh, hd, List.length_cons, hb p hhp, hb q hhq]

/-! ### Only relative indentation matters -/

theorem readBlock_reindent (f : Nat → Nat) (hf : StrictMono f) (d : Nat) (ls : List Line) :
    readBlock (f d) (ls.map (reindent f)) =
      ((readBlock d ls).1, (readBlock d ls).2.map (reindent f)) := by
  induction ls with
  | nil => rfl
  | cons l ls ih =>
    rw [List.map_cons]
    unfold readBlock
    simp only [reindent, hf.lt_iff_lt]
    split_ifs
    · rw [ih]
    · rfl

theorem readDescription_reindent (f : Nat → Nat) (hf : StrictMono f) (d : Nat)
    (ls : List Line) :
    readDescription (f d) (ls.map (reindent f)) =
      ((readDescription d ls).1, (readDescription d ls).2.map (reindent f)) := by
  induction ls with
  | nil => rfl
  | cons l ls ih =>
    rw [List.map_cons]
    unfold readDescription
    simp only [reindent, hf.lt_iff_lt]
    split_ifs
    · rw [ih]
    · rfl

theorem readDocDescription_reindent (f : Nat → Nat) (hf : StrictMono f) (d : Nat)
    (ls : List Line) :
    readDocDescription (f d) (ls.map (reindent f)) =
      ((readDocDescription d ls).1, (readDocDescription d ls).2.map (reindent f)) := by
  induction ls with
  | nil => rfl
  | cons l ls ih =>
    rw [List.map_cons]
    unfold readDocDescription
    simp only [reindent, hf.le_iff_le]
    split_ifs
    · rw [ih]
    · rfl

theorem parseEntries_reindent {α : Type} (mk : Str → Str → α) (f : Nat → Nat)
    (hf : StrictMono f) (fuel d : Nat) (ls : List Line) :
    parseEntries mk fuel (f d) (ls.map (reindent f)) =
      ((parseEntries mk fuel d ls).1, (parseEntries mk fuel d ls).2.map (reindent f)) := by
  induction fuel generalizing ls with
  | zero => simp [parseEntries]
  | succ n ih =>
    cases ls with
    | nil => simp [parseEntries]
    | cons l ls =>
      rw [List.map_cons]
      simp only [parseEntries]
      have h1 : (reindent f l).text = l.text := rfl
      have h2 : (reindent f l).indent = f l.indent := rfl
      rw [h1, h2]
      simp only [hf.le_iff_le]
      split_ifs
      · exact ih ls
      · rfl
      · rw [readDescription_reindent f hf, readBlock_reindent f hf, ih]

theorem parseOperators_reindent (f : Nat → Nat) (hf : StrictMono f) (d : Nat) (ls : List Line) :
    parseOperators (f d) (ls.map (reindent f)) =
      ((parseOperators d ls).1, (parseOperators d ls).2.map (reindent f)) := by
  unfold parseOperators
  rw [readBlock_reindent f hf]

theorem parseFunctionBody_reindent (f : Nat → Nat) (hf : StrictMono f) (fuel d : Nat)
    (acc : FunctionBody) (ls : List Line) :
    parseFunctionBody fuel (f d) acc (ls.map (reindent f)) =
      ((parseFunctionBody fuel d acc ls).1,
        (parseFunctionBody fuel d acc ls).2.map (reindent f)) := by
  induction fuel generalizing acc ls with
  | zero => simp [parseFunctionBody]
  | succ n ih =>
    cases ls with
    | nil => simp [parseFunctionBody]
    | cons l ls =>
      rw [List.map_cons]
      simp only [parseFunctionBody]
      have h1 : (reindent f l).text = l.text := rfl
      have h2 : (reindent f l).indent = f l.indent := rfl
      rw [h1, h2]
      simp only [hf.le_iff_le]
      split_ifs
      · exact ih acc ls
      · rfl
      · split
        · unfold parseParams
          rw [parseEntries_reindent mkParam f hf, ih]
        · unfold parseExamples
          rw [parseEntries_reindent mkExample f hf, ih]
        · exact ih acc ls

theorem parseFunctions_reindent (f : Nat → Nat) (hf : StrictMono f) (fuel d : Nat)
    (ls : List Line) :
    parseFunctions fuel (f d) (ls.map (reindent f)) =
      ((parseFunctions fuel d ls).1, (parseFunctions fuel d ls).2.map (reindent f)) := by
  induction fuel generalizing ls with
  | zero => simp [parseFunctions]
  | succ n ih =>
    cases ls with
    | nil => simp [parseFunctions]
    | cons l ls =>
      rw [List.map_cons]
      simp only [parseFunctions]
      have h1 : (reindent f l).text = l.text := rfl
      have h2 : (reindent f l).indent = f l.indent := rfl
      rw [h1, h2]
      simp only [hf.le_iff_le]
      split_ifs
      · exact ih ls
      · rfl
      · rw [readDescription_reindent f hf, parseFunctionBody_reindent f hf, ih]

theorem parseTypeBody_reindent (f : Nat → Nat) (hf : StrictMono f) (fuel d : Nat)
    (acc : TypeBody) (ls : List Line) :
    parseTypeBody fuel (f d) acc (ls.map (reindent f)) =
      ((parseTypeBody fuel d acc ls).1, (parseTypeBody fuel d acc ls).2.map (reindent f)) := by
  induction fuel generalizing acc ls with
  | zero => simp [parseTypeBody]
  | succ n ih =>
    cases ls with
    | nil => simp [parseTypeBody]
    | cons l ls =>
      rw [List.map_cons]
      simp only [parseTypeBody]
      have h1 : (reindent f l).text = l.text := rfl
      have h2 : (reindent f l).indent = f l.indent := rfl
      rw [h1, h2]
      simp only [hf.le_iff_le]
      split_ifs
      · exact ih acc ls
      · rfl
      · split
        · unfold parseFields
          rw [parseEntries_reindent mkField f hf, ih]
        · rw [parseFunctions_reindent f hf, ih]
        · rw [parseOperators_reindent f hf, ih]
        · unfold parseExamples
          rw [parseEntries_reindent mkExample f hf, ih]
        · exact ih acc ls

theorem parseTypes_reindent (f : Nat → Nat) (hf : StrictMono f) (fuel d : Nat)
    (ls : List Line) :
    parseTypes fuel (f d) (ls.map (reindent f)) =
      ((parseTypes fuel d ls).1, (parseTypes fuel d ls).2.map (reindent f)) := by
  induction fuel generalizing ls with
  | zero => simp [parseTypes]
  | succ n ih =>
    cases ls with
    | nil => simp [parseTypes]
    | cons l ls =>
      rw [List.map_cons]
      simp only [parseTypes]
      have h1 : (reindent f l).text = l.text := rfl
      have h2 : (reindent f l).indent = f l.indent := rfl
      rw [h1, h2]
      simp only [hf.le_iff_le]
      split_ifs
      · exact ih ls
      · rfl
      · rw [readDescription_reindent f hf, parseTypeBody_reindent f hf, ih]

theorem parseDocBody_reindent (f : Nat → Nat) (hf : StrictMono f) (fuel d : Nat)
    (acc : DocBody) (ls : List Line) :
    parseDocBody fuel (f d) acc (ls.map (reindent f)) =
      ((parseDocBody fuel d acc ls).1, (parseDocBody fuel d acc ls).2.map (reindent f)) := by
  induction fuel generalizing acc ls with
  | zero => simp [parseDocBody]
  | succ n ih =>
    cases ls with
    | nil => simp [parseDocBody]
    | cons l ls =>
      rw [List.map_cons]
      simp only [parseDocBody]
      have h1 : (reindent f l).text = l.text := rfl
      have h2 : (reindent f l).indent = f l.indent := rfl
      rw [h1, h2]
      simp only [hf.lt_iff_lt]
      split_ifs
      · exact ih acc ls
      · rfl
      · split
        · rfl
        · exact ih _ ls
        · rw [parseFunctions_reindent f hf, ih]
        · rw [parseTypes_reindent f hf, ih]
        · exact ih acc ls

theorem findHeader_reindent (f : Nat → Nat) (ls : List Line) :
    findHeader (ls.map (reindent f)) =
      (findHeader ls).map (fun h => (f h.1, h.2.1, h.2.2.map (reindent f))) := by
  induction ls with
  | nil => rfl
  | cons l ls ih =>
    rw [List.map_cons]
    unfold findHeader
    have h1 : (reindent f l).text = l.text := rfl
    rw [h1]
    cases classify l.text with
    | HeaderStart nm => rfl
    | PathDirective p => simpa using ih
    | SectionKeyword k => simpa using ih
    | PlainText => simpa using ih

/-- The parse depends on the extents of the lines only through their order: mapping every
extent through a strictly increasing function leaves the document unchanged. -/
theorem parseFirstLines_reindent (f : Nat → Nat) (hf : StrictMono f) (ls : List Line) :
    parseFirstLines (ls.map (reindent f)) = parseFirstLines ls := by
  unfold parseFirstLines
  rw [findHeader_reindent]
  cases findHeader ls with
  | none => rfl
  | some h =>
    obtain ⟨d, name, rest⟩ := h
    simp only [Option.map_some']
    split_ifs
    · rfl
    · rw [readDocDescription_reindent f hf]
      simp only [List.length_map]
      rw [parseDocBody_reindent f hf]

/-! ### Renderings with a consistent indentation unit -/

theorem splitLines_single (s : Str) (hs : '\n' ∉ s) : splitLines s = [s] := by
  induction s with
  | nil => rfl
  | cons c s ih =>
    have hc : c ≠ '\n' := fun h => hs (by simp [h])
    have hs' : '\n' ∉ s := fun h => hs (List.mem_cons_of_mem c h)
    rw [splitLines, if_neg hc, ih hs']

theorem intercalate_cons_cons (a b : Str) (ls : List Str) :
    List.intercalate ['\n'] (a :: b :: ls) = a ++ '\n' :: List.intercalate ['\n'] (b :: ls) := by
  simp [List.intercalate]

theorem splitLines_intercalate (l : Str) (ls : List Str) (h : ∀ x ∈ l :: ls, '\n' ∉ x) :
    splitLines (List.intercalate ['\n'] (l :: ls)) = l :: ls := by
  induction ls generalizing l with
  | nil =>
    have : List.intercalate ['\n'] [l] = l := by simp [List.intercalate]
    rw [this]
    exact splitLines_single l (h l (by simp))
  | cons b ls ih =>
    rw [intercalate_cons_cons, splitLines_line _ _ (h l (by simp)),
      ih b (fun x hx => h x (List.mem_cons_of_mem l hx))]

theorem indentation_length (unit : Str) (k : Nat) :
    (indentation unit k).length = k * unit.length := by
  induction k with
  | zero => simp [indentation]
  | succ k ih => simp [indentation, ih]; ring

theorem indentation_whitespace (unit : Str) (hu : ∀ c ∈ unit, c.isWhitespace = true) (k : Nat) :
    ∀ c ∈ indentation unit k, c.isWhitespace = true := by
  induction k with
  | zero => simp [indentation]
  | succ k ih =>
    intro c hc
    simp only [indentation, List.mem_append] at hc
    rcases hc with hc | hc
    · exact hu c hc
    · exact ih c hc

theorem indentation_no_newline (unit : Str) (hu : '\n' ∉ unit) (k : Nat) :
    '\n' ∉ indentation unit k := by
  induction k with
  | zero => simp [indentation]
  | succ k ih =>
    intro hc
    simp only [indentation, List.mem_append] at hc
    rcases hc with hc | hc
    · exact hu hc
    · exact ih hc

theorem columns_append (w : Nat) (a b : Str) :
    columns w (a ++ b) = columns w a + columns w b := by
  induction a with
  | nil => simp [columns]
  | cons c a ih => simp [columns, ih, Nat.add_assoc]

theorem columns_indentation (w : Nat) (unit : Str) (k : Nat) :
    columns w (indentation unit k) = k * columns w unit := by
  induction k with
  | zero => simp [indentation, columns]
  | succ k ih => simp [indentation, columns_append, ih]; ring

theorem columns_pos (w : Nat) (hw : 0 < w) (unit : Str) (hne : unit ≠ []) :
    0 < columns w unit := by
  cases unit with
  | nil => exact absurd rfl hne
  | cons c cs =>
    unfold columns
    split_ifs <;> omega

theorem toLine_rendered (w : Nat) (unit : Str) (hu : ∀ c ∈ unit, c.isWhitespace = true)
    (k : Nat) (c : Str) (hc : ∀ x ∈ c.head?, x.isWhitespace = false) :
    toLine w (indentation unit k ++ c) = ⟨k * columns w unit, trimRight c⟩ := by
  have hw := indentation_whitespace unit hu k
  unfold toLine indentOf trim trimLeft
  rw [takeWhile_append_of_all _ _ hw, dropWhile_append_of_all _ _ hw,
    takeWhile_of_head c hc, dropWhile_of_head c hc, List.append_nil, columns_indentation]

theorem scanLines_render (w : Nat) (unit : Str) (hu : ∀ c ∈ unit, c.isWhitespace = true)
    (hn : '\n' ∉ unit) (it : Nat × Str) (items : List (Nat × Str))
    (hitems : ∀ x ∈ it :: items, cleanContent x.2) :
    scanLines w (render unit (it :: items)) =
      ((it :: items).map (fun x => (⟨x.1, trimRight x.2⟩ : Line))).map
        (reindent (fun k => k * columns w unit)) := by
  have hmap : (it :: items).map (fun x => indentation unit x.1 ++ x.2) =
      (indentation unit it.1 ++ it.2) :: items.map (fun x => indentation unit x.1 ++ x.2) :=
    rfl
  have hsplit : splitLines (render unit (it :: items)) =
      (it :: items).map (fun x => indentation unit x.1 ++ x.2) := by
    unfold render
    rw [hmap, splitLines_intercalate]
    intro x hx
    rw [← hmap] at hx
    obtain ⟨y, hy, rfl⟩ := List.mem_map.1 hx
    intro hmem
    rcases List.mem_append.1 hmem with h | h
    · exact indentation_no_newline unit hn y.1 h
    · exact (hitems y hy).1 h
  unfold scanLines
  rw [hsplit, List.map_map, List.map_map]
  apply List.map_congr_left
  intro x hx
  simp only [Function.comp, reindent]
  exact toLine_rendered w unit hu x.1 x.2 (hitems x hx).2

theorem strictMono_mul (m : Nat) (hm : 0 < m) : StrictMono (fun k => k * m) := by
  intro a b hab
  exact Nat.mul_lt_mul_of_pos_right hab hm

/-- Indentation-equivalence for consistent schemes: an outline structure rendered with one
indentation unit per nesting level parses to the same result whatever the unit is: one tab,
or any fixed positive number of spaces. -/
theorem ParseFirst_render (w : Nat) (hw : 0 < w) (u v : Str)
    (hu : ∀ c ∈ u, c.isWhitespace = true) (hun : '\n' ∉ u) (hu0 : u ≠ [])
    (hv : ∀ c ∈ v, c.isWhitespace = true) (hvn : '\n' ∉ v) (hv0 : v ≠ [])
    (items : List (Nat × Str)) (hitems : ∀ x ∈ items, cleanContent x.2) :
    ParseFirst w (render u items) = ParseFirst w (render v items) := by
  cases items with
  | nil => rfl
  | cons it items =>
    unfold ParseFirst
    rw [scanLines_render w u hu hun it items hitems, scanLines_render w v hv hvn it items hitems,
      parseFirstLines_reindent _ (strictMono_mul _ (columns_pos w hw u hu0)),
      parseFirstLines_reindent _ (strictMono_mul _ (columns_pos w hw v hv0))]

/-! ### The fixtures `twoFuncsTabs` and `twoFuncsSpaces` -/

theorem scanLines_twoFuncsTabs (w : Nat) :
    scanLines w twoFuncsTabs = (scanLines 1 twoFuncsTabs).map (reindent (fun k => k * w)) := by
  have hs : splitLines twoFuncsTabs =
      [ "outline: twoFuncs".toList, "\tpath: twoFuncs".toList, "\tfunctions:".toList,
        "\t\tdifference(a,b int) int".toList, "\t\tsum(a,b int) int".toList,
        "\t\t\tadd two things together".toList ] := by decide
  unfold scanLines
  rw [hs]
  simp only [List.map_cons, List.map_nil]
  rw [toLine_eq w "outline: twoFuncs".toList [] "outline: twoFuncs".toList (by decide)
      (by decide),
    toLine_eq w "\tpath: twoFuncs".toList ['\t'] "path: twoFuncs".toList (by decide)
      (by decide),
    toLine_eq w "\tfunctions:".toList ['\t'] "functions:".toList (by decide) (by decide),
    toLine_eq w "\t\tdifference(a,b int) int".toList ['\t', '\t']
      "difference(a,b int) int".toList (by decide) (by decide),
    toLine_eq w "\t\tsum(a,b int) int".toList ['\t', '\t'] "sum(a,b int) int".toList
      (by decide) (by decide),
    toLine_eq w "\t\t\tadd two things together".toList ['\t', '\t', '\t']
      "add two things together".toList (by decide) (by decide),
    toLine_eq 1 "outline: twoFuncs".toList [] "outline: twoFuncs".toList (by decide)
      (by decide),
    toLine_eq 1 "\tpath: twoFuncs".toList ['\t'] "path: twoFuncs".toList (by decide)
      (by decide),
    toLine_eq 1 "\tfunctions:".toList ['\t'] "functions:".toList (by decide) (by decide),
    toLine_eq 1 "\t\tdifference(a,b int) int".toList ['\t', '\t']
      "difference(a,b int) int".toList (by decide) (by decide),
    toLine_eq 1 "\t\tsum(a,b int) int".toList ['\t', '\t'] "sum(a,b int) int".toList
      (by decide) (by decide),
    toLine_eq 1 "\t\t\tadd two things together".toList ['\t', '\t', '\t']
      "add two things together".toList (by decide) (by decide)]
  simp only [reindent, columns, if_true, Nat.add_zero, Nat.zero_mul]
  simp only [Line.mk.injEq, List.cons.injEq, and_true, true_and]
  refine ⟨?_, ?_, ?_, ?_, ?_⟩ <;> ring

/-- The fixture `twoFuncsTabs` parses to `twoFuncs` whenever a tab has a positive width. -/
theorem ParseFirst_twoFuncsTabs (w : Nat) (hw : 0 < w) :
    ParseFirst w twoFuncsTabs = Except.ok twoFuncs := by
  unfold ParseFirst
  rw [scanLines_twoFuncsTabs,
    parseFirstLines_reindent _ (fun a b hab => Nat.mul_lt_mul_of_pos_right hab hw)]
  decide

theorem scanLines_twoFuncsSpaces (w : Nat) :
    scanLines w twoFuncsSpaces =
      [ ⟨0, "outline: twoFuncs".toList⟩, ⟨w, "path: twoFuncs".toList⟩,
        ⟨2, "functions:".toList⟩, ⟨4, "difference(a,b int) int".toList⟩,
        ⟨4, "sum(a,b int) int".toList⟩, ⟨w + (w + w), "add two things together".toList⟩ ] := by
  have hs : splitLines twoFuncsSpaces =
      [ "outline: twoFuncs".toList, "\tpath: twoFuncs".toList, "  functions:".toList,
        "    difference(a,b int) int".toList, "    sum(a,b int) int".toList,
        "\t\t\tadd two things together".toList ] := by decide
  unfold scanLines
  rw [hs]
  simp only [List.map_cons, List.map_nil]
  rw [toLine_eq w "outline: twoFuncs".toList [] "outline: twoFuncs".toList (by decide)
      (by decide),
    toLine_eq w "\tpath: twoFuncs".toList ['\t'] "path: twoFuncs".toList (by decide)
      (by decide),
    toLine_eq w "  functions:".toList [' ', ' '] "functions:".toList (by decide) (by decide),
    toLine_eq w "    difference(a,b int) int".toList [' ', ' ', ' ', ' ']
      "difference(a,b int) int".toList (by decide) (by decide),
    toLine_eq w "    sum(a,b int) int".toList [' ', ' ', ' ', ' '] "sum(a,b int) int".toList
      (by decide) (by decide),
    toLine_eq w "\t\t\tadd two things together".toList ['\t', '\t', '\t']
      "add two things together".toList (by decide) (by decide)]
  simp [columns]

/-- The extents of `twoFuncsSpaces` with the `path:` line moved to two columns, as an image
of the extents read with a tab of width two. -/
theorem twoFuncsSpaces_reindent (w : Nat) (hw : 2 ≤ w) :
    [ (⟨0, "outline: twoFuncs".toList⟩ : Line), ⟨2, "path: twoFuncs".toList⟩,
      ⟨2, "functions:".toList⟩, ⟨4, "difference(a,b int) int".toList⟩,
      ⟨4, "sum(a,b int) int".toList⟩, ⟨w + (w + w), "add two things together".toList⟩ ] =
    (scanLines 2 twoFuncsSpaces).map
      (reindent (fun n => if n ≤ 4 then n else n + (3 * w - 6))) := by
  rw [scanLines_twoFuncsSpaces 2]
  simp only [List.map_cons, List.map_nil, reindent]
  simp only [Line.mk.injEq, List.cons.injEq, and_true, true_and]
  refine ⟨by simp, by simp, by simp, by simp, by simp, ?_⟩
  simp only [show ¬ (2 + (2 + 2) ≤ 4) from by decide, if_false]
  omega

/-- The fixture `twoFuncsSpaces`, which mixes tabs and spaces, parses to `twoFuncs` whenever a
tab is at least two columns wide. -/
theorem ParseFirst_twoFuncsSpaces (w : Nat) (hw : 2 ≤ w) :
    ParseFirst w twoFuncsSpaces = Except.ok twoFuncs := by
  have hmono : StrictMono (fun n => if n ≤ 4 then n else n + (3 * w - 6)) := by
    intro a b hab
    simp only
    split_ifs <;> omega
  unfold ParseFirst
  rw [scanLines_twoFuncsSpaces,
    parseFirstLines_path_line 0 w 2 _ "twoFuncs".toList _ "twoFuncs".toList _ (by decide)
      (by decide) (Nat.zero_le _) (Nat.zero_le _),
    twoFuncsSpaces_reindent w hw, parseFirstLines_reindent _ hmono]
  decide

/-- With a tab counted as one column, the literal character count of §4.1, the fixture
`twoFuncsSpaces` gives three functions: the hypothesis on the width of a tab is needed. -/
theorem ParseFirst_twoFuncsSpaces_one :
    ParseFirst 1 twoFuncsSpaces = Except.ok threeFuncs := by
  decide

/-- C6: indentation-equivalence. For a tab of at least two columns: an outline structure
rendered with one tab per nesting level and the same structure rendered with any fixed
positive number of spaces per level give the same result of `ParseFirst`; more generally the
result depends on the extents of the lines only through their order; and the tab-indented
fixture `twoFuncsTabs` and the space-indented fixture `twoFuncsSpaces` both yield the
document `twoFuncs`, named `twoFuncs`, with Path `twoFuncs` and two Functions, the second with
Description `"add two things together"`. -/
theorem indentation_equivalence (tabWidth : Nat) (hw : 2 ≤ tabWidth) :
    (∀ (n : Nat) (items : List (Nat × Str)), 0 < n → (∀ x ∈ items, cleanContent x.2) →
      ParseFirst tabWidth (render ['\t'] items) =
        ParseFirst tabWidth (render (List.replicate n ' ') items)) ∧
    (∀ (f : Nat → Nat) (ls : List Line), StrictMono f →
      parseFirstLines (ls.map (reindent f)) = parseFirstLines ls) ∧
    ParseFirst tabWidth twoFuncsTabs = Except.ok twoFuncs ∧
    ParseFirst tabWidth twoFuncsSpaces = Except.ok twoFuncs ∧
    twoFuncs.Name = "twoFuncs".toList ∧ twoFuncs.Path = "twoFuncs".toList ∧
    twoFuncs.Functions.length = 2 ∧
    twoFuncs.Functions.map (fun f => f.Description) = [[], "add two things together".toList] := by
  refine ⟨?_, fun f ls hf => parseFirstLines_reindent f hf ls,
    ParseFirst_twoFuncsTabs tabWidth (by omega), ParseFirst_twoFuncsSpaces tabWidth hw,
    rfl, rfl, rfl, rfl⟩
  intro n items hn hitems
  refine ParseFirst_render tabWidth (by omega) ['\t'] (List.replicate n ' ') (by decide)
    (by decide) (by decide) ?_ ?_ ?_ items hitems
  · intro c hc
    rw [List.eq_of_mem_replicate hc]
    rfl
  · intro hc
    exact absurd (List.eq_of_mem_replicate hc) (by decide)
  · intro e
    have := congrArg List.length e
    simp at this
    omega

/-- Witness of C6 with a tab of two columns: the structure `twoFuncsItems` rendered with tabs
is the fixture `twoFuncsTabs`, and it parses as its rendering with two spaces per level and
as the fixture `twoFuncsSpaces` do, to the document `twoFuncs`. -/
theorem indentation_equivalence_witness :
    render ['\t'] twoFuncsItems = twoFuncsTabs ∧
    ParseFirst 2 (render ['\t'] twoFuncsItems) =
      ParseFirst 2 (render (List.replicate 2 ' ') twoFuncsItems) ∧
    ParseFirst 2 (render (List.replicate 2 ' ') twoFuncsItems) = Except.ok twoFuncs ∧
    ParseFirst 2 twoFuncsTabs = Except.ok twoFuncs ∧
    ParseFirst 2 twoFuncsSpaces = Except.ok twoFuncs :=
  ⟨by decide,
   (indentation_equivalence 2 (by decide)).1 2 twoFuncsItems (by decide) (by decide),
   by decide,
   (indentation_equivalence 2 (by decide)).2.2.1,
   (indentation_equivalence 2 (by decide)).2.2.2.1⟩

/-- Witness of C2: the description `d` of the second document fills the empty one of the
first, and a non-empty description is kept. -/
theorem merge_fills_empty_witness :
    (merge fooFirst fooSecond).Description = "d".toList ∧
    (merge fooSecond fooFirst).Description = fooSecond.Description :=
  ⟨by decide, (merge_fills_empty fooSecond fooFirst).2.2.2.2.1 (by decide)⟩

/-- Witness of C8: two documents named `foo` leave one entry, named `foo`, whose Functions
are those of the first followed by those of the second. -/
theorem accumulate_invariant_witness :
    accumulate emptyDocs [fooFirst, fooSecond] "foo".toList = some (merge fooFirst fooSecond) ∧
    (merge fooFirst fooSecond).Name = "foo".toList ∧
    (merge fooFirst fooSecond).Functions =
      (named "foo".toList [fooFirst, fooSecond]).flatMap (fun d => d.Functions) ∧
    (merge fooFirst fooSecond).Types =
      (named "foo".toList [fooFirst, fooSecond]).flatMap (fun d => d.Types) :=
  ⟨by decide,
   (accumulate_invariant [fooFirst, fooSecond] "foo".toList).2 (merge fooFirst fooSecond)
     (by decide)⟩

/-- Witness of C4 on the fixture `typeDescriptionMultiLine`, whose type `duration` is followed
by `line 1.`, `line 2.`, a blank line and `line 3.`: its description is
`"line 1.\nline 2.\n\nline 3."`, as `TestDescriptionMultiLine` asserts; and on a document whose
description stands between two blank lines, which are dropped. -/
theorem description_joined_witness :
    scanLines 2 typeDescriptionMultiLine =
      [] ++ ⟨0, "outline: examples".toList⟩ :: ([] ++ ⟨0, "types:".toList⟩ ::
        ⟨2, "duration".toList⟩ :: ([] ++ typeDescriptionLines ++ [] ++ typeDescriptionRest)) ∧
    ParseFirst 2 typeDescriptionMultiLine = Except.ok typeDescriptionMultiLineDoc ∧
    List.intercalate ['\n'] (typeDescriptionLines.map Line.text) =
      "line 1.\nline 2.\n\nline 3.".toList ∧
    (∃ doc t ts, parseFirstLines
        ([] ++ ⟨0, "outline: examples".toList⟩ :: ([] ++ ⟨0, "types:".toList⟩ ::
          ⟨2, "duration".toList⟩ :: ([] ++ typeDescriptionLines ++ [] ++ typeDescriptionRest))) =
          Except.ok doc ∧
      doc.Types = t :: ts ∧ t.Name = "duration".toList ∧
      t.Description = List.intercalate ['\n'] (typeDescriptionLines.map Line.text)) ∧
    scanLines 2 multiLineSample =
      [] ++ ⟨0, "outline: doc".toList⟩ ::
        ([⟨0, []⟩] ++ sampleDescription ++ [⟨0, []⟩] ++ sampleSection) ∧
    ParseFirst 2 multiLineSample = Except.ok
      ⟨"doc".toList, [], "line 1.\nline 2.\n\nline 3.".toList,
        [⟨"sum(a int, b int) int".toList, [], [], []⟩], []⟩ ∧
    (∃ doc, parseFirstLines
        ([] ++ ⟨0, "outline: doc".toList⟩ ::
          ([⟨0, []⟩] ++ sampleDescription ++ [⟨0, []⟩] ++ sampleSection)) = Except.ok doc ∧
      doc.Name = "doc".toList ∧
      doc.Description = List.intercalate ['\n'] (sampleDescription.map Line.text)) :=
  ⟨by decide, by decide, by decide,
   (description_joined 2 [] typeDescriptionLines [] typeDescriptionRest (by decide)
      (by unfold descriptionLines; decide) (by decide) (by decide) (by decide)
      (by unfold endsDescription; decide)).2.2.1
      [] [] 0 0 "outline: examples".toList "examples".toList "types:".toList "duration".toList
      rfl (by unfold docDescriptionLines; decide) (by decide) (by decide) (by decide)
      (by decide) (by decide) (by decide),
   by decide, by decide,
   (description_joined 0 [⟨0, []⟩] sampleDescription [⟨0, []⟩] sampleSection (by decide)
      (by unfold descriptionLines; decide) (by decide) (by decide) (by decide)
      (by unfold endsDescription; decide)).1
      [] "outline: doc".toList "doc".toList rfl (by decide) (by decide)
      (by unfold endsDocDescription; decide)⟩

/-- Witness of C5 on the fixtures `typeExamples` and `funcExamples`: the type `duration` has
the one Example and the function `foo` the two Examples that `TestTypeExamples` and
`TestFunctionExamples` assert. -/
theorem examples_block_witness :
    scanLines 2 typeExamples =
      [] ++ ⟨0, "outline: examples".toList⟩ :: ([] ++ ⟨0, "types:".toList⟩ ::
        ⟨2, "duration".toList⟩ :: ([⟨4, "a period of time".toList⟩] ++
          ⟨4, "examples:".toList⟩ :: (groupLines typeExampleGroups ++ typeExamplesRest))) ∧
    ParseFirst 2 typeExamples = Except.ok typeExamplesDoc ∧
    typeExampleGroups.map exampleOf = [⟨"foo.star".toList, "Foo Example".toList, []⟩] ∧
    (∃ doc t ts, parseFirstLines
        ([] ++ ⟨0, "outline: examples".toList⟩ :: ([] ++ ⟨0, "types:".toList⟩ ::
          ⟨2, "duration".toList⟩ :: ([⟨4, "a period of time".toList⟩] ++
            ⟨4, "examples:".toList⟩ :: (groupLines typeExampleGroups ++ typeExamplesRest)))) =
          Except.ok doc ∧
      doc.Types = t :: ts ∧ t.Name = "duration".toList ∧
      t.Examples = typeExampleGroups.map exampleOf) ∧
    scanLines 2 funcExamples =
      [] ++ ⟨0, "outline: examples".toList⟩ ::
        ([⟨2, "huh is a package that has no meaning or purpose".toList⟩] ++
          ⟨2, "functions:".toList⟩ :: ⟨4, "foo(bar string) int".toList⟩ ::
          ([⟨6, "foo a bar, which is to to a bar and remove 'd' from 'food'".toList⟩] ++
            ⟨6, "examples:".toList⟩ :: (groupLines sampleExamples ++ sampleParams))) ∧
    ParseFirst 2 funcExamples = Except.ok funcExamplesDoc ∧
    sampleExamples.map exampleOf =
      [⟨"foo.star".toList, "Foo Example".toList, []⟩,
       ⟨"bar.star".toList, [], "Description of the bar example".toList⟩] ∧
    (∃ doc f fs, parseFirstLines
        ([] ++ ⟨0, "outline: examples".toList⟩ ::
          ([⟨2, "huh is a package that has no meaning or purpose".toList⟩] ++
            ⟨2, "functions:".toList⟩ :: ⟨4, "foo(bar string) int".toList⟩ ::
            ([⟨6, "foo a bar, which is to to a bar and remove 'd' from 'food'".toList⟩] ++
              ⟨6, "examples:".toList⟩ :: (groupLines sampleExamples ++ sampleParams)))) =
          Except.ok doc ∧
      doc.Functions = f :: fs ∧ f.Signature = "foo(bar string) int".toList ∧
      f.Examples = sampleExamples.map exampleOf) :=
  ⟨by decide, by decide, by decide,
   (examples_block 4 typeExampleGroups typeExamplesRest ⟨by decide, by decide, trivial⟩
      (by unfold endsBlock; decide)).2.2.2.2.2.2.2.2.2.1 (by decide)
      [] [] [⟨4, "a period of time".toList⟩] 0 0 2 "outline: examples".toList
      "examples".toList "types:".toList "duration".toList "examples:".toList
      rfl (by unfold docDescriptionLines; decide) (by decide) (by decide) (by decide)
      (by decide) (by decide) (by decide) (by unfold descriptionLines; decide) (by decide)
      (by decide),
   by decide, by decide, by decide,
   (examples_block 6 sampleExamples sampleParams
      ⟨by decide, by decide, by decide, by decide, trivial⟩
      (by unfold endsBlock; decide)).2.2.2.2.2.2.2.2.1 (by decide)
      [] [⟨2, "huh is a package that has no meaning or purpose".toList⟩]
      [⟨6, "foo a bar, which is to to a bar and remove 'd' from 'food'".toList⟩] 0 2 4
      "outline: examples".toList "examples".toList "functions:".toList
      "foo(bar string) int".toList "examples:".toList
      rfl (by unfold docDescriptionLines; decide) (by decide) (by decide) (by decide)
      (by decide) (by decide) (by decide) (by unfold descriptionLines; decide) (by decide)
      (by decide)⟩

end Outline
